import Mathlib

set_option maxRecDepth 4000

/-!
Verification development for the HTML preview tool
(src/HTML_Preview_MRGN/src/components/HtmlPreviewTool.tsx).

The two core routines of the source are embedded shallowly:

* detectDimensions : the ordered cascade of regular-expression detectors that
  infers a pixel width, a pixel height and a display name from the raw
  document text and the archive-entry filename;
* processZipFile : the archive-ingestion routine that separates the primary
  document from asset entries, converts each asset to a data URL, rewrites
  src and href references in the document, and inserts the finished bundle
  into the tool state.

Strings are modelled as lists of characters.  JavaScript regular expressions
are modelled by a small first-order pattern type Re together with a
backtracking matcher mtch that enumerates the candidate matches of a pattern
at the head of a string in exactly the priority order a JavaScript engine
explores them: greedy pieces offer long alternatives first, lazy pieces
offer short alternatives first, alternations offer the left branch first.
Every regular expression occurring in the source is transcribed into a Re
value whose shape mirrors the regex literal character by character.
-/

/-- Character strings, modelled as lists of characters. -/
abbrev Cs := List Char

/-- The double-quote character. -/
def quoteD : Char := Char.ofNat 34

/-- The single-quote character. -/
def quoteS : Char := Char.ofNat 39

/-- The backslash character. -/
def bslashC : Char := Char.ofNat 92

/-- The opening-brace character. -/
def lbraceC : Char := Char.ofNat 123

/-- The closing-brace character. -/
def rbraceC : Char := Char.ofNat 125

/-- Lower-casing of one character, as used for case-insensitive matching. -/
def lc (c : Char) : Char := c.toLower

/-- Character comparison, case-insensitive when the flag is set. -/
def eqc (ci : Bool) (a b : Char) : Bool := if ci then lc a == lc b else a == b

/-- Case-insensitive equality of two strings. -/
def ciEqS (a b : Cs) : Bool := a.map lc == b.map lc

/-- The whitespace characters recognised by the regex class backslash-s. -/
def spaceChars : Cs := [' ', '\t', '\n', '\r', Char.ofNat 11, Char.ofNat 12]

/-- Membership of a character in a list, by plain equality. -/
def memc (c : Char) (cs : Cs) : Bool := cs.any (fun d => d == c)

/-- Concatenation of the images of a list under a list-valued function. -/
def lbind : List α → (α → List β) → List β
  | [], _ => []
  | a :: as, f => f a ++ lbind as f

theorem mem_lbind {l : List α} {f : α → List β} {b : β} :
    b ∈ lbind l f ↔ ∃ a ∈ l, b ∈ f a := by
  induction l with
  | nil => simp [lbind]
  | cons x xs ih => simp [lbind, List.mem_append, ih]

/-- Character classes appearing in the regular expressions of the source. -/
inductive CSet where
  | anyc : CSet
  | digitc : CSet
  | spacec : CSet
  | oneOf (cs : Cs) : CSet
  | notOf (cs : Cs) : CSet
deriving DecidableEq

/-- Whether a character belongs to a class; the case-insensitive flag makes
classes containing letters match both cases, as the i flag does. -/
def csetMatch (ci : Bool) : CSet → Char → Bool
  | .anyc, _ => true
  | .digitc, c => c.isDigit
  | .spacec, c => memc c spaceChars
  | .oneOf cs, c => cs.any (fun d => eqc ci d c)
  | .notOf cs, c => !(cs.any (fun d => eqc ci d c))

/-- First-order patterns covering the regular expressions of the source.
Stars and pluses only ever range over one character class in the source, so
they take a class argument; this keeps the matcher structurally recursive. -/
inductive Re where
  | eps : Re
  | cls (k : CSet) : Re
  | lit (s : Cs) : Re
  | cat (a b : Re) : Re
  | alt (a b : Re) : Re
  | opt (a : Re) : Re
  | starG (k : CSet) : Re
  | starL (k : CSet) : Re
  | plusG (k : CSet) : Re
  | grp (n : Nat) (a : Re) : Re
deriving DecidableEq

/-- Sequencing of a list of patterns. -/
def reSeq (rs : List Re) : Re := rs.foldr Re.cat Re.eps

/-- Captured groups of a match: pairs of group index and captured text. -/
abbrev Groups := List (Nat × Cs)

/-- Case-insensitive-aware test that the pattern characters are a prefix of
the input. -/
def ciPrefix (ci : Bool) : Cs → Cs → Bool
  | [], _ => true
  | _ :: _, [] => false
  | p :: ps, c :: cs => eqc ci p c && ciPrefix ci ps cs

/-- Length of the maximal run of class characters at the head of the input. -/
def runLen (ci : Bool) (k : CSet) : Cs → Nat
  | [] => 0
  | c :: cs => if csetMatch ci k c then runLen ci k cs + 1 else 0

/-- The backtracking matcher.  mtch ci re s lists every way re can match a
prefix of s, as pairs of captured groups and remaining input, in the priority
order a JavaScript engine tries them. -/
def mtch (ci : Bool) : Re → Cs → List (Groups × Cs)
  | .eps, s => [([], s)]
  | .cls k, s =>
    match s with
    | [] => []
    | c :: cs => if csetMatch ci k c then [([], cs)] else []
  | .lit p, s => if ciPrefix ci p s then [([], s.drop p.length)] else []
  | .cat a b, s =>
    lbind (mtch ci a s) (fun gr =>
      (mtch ci b gr.2).map (fun gr2 => (gr.1 ++ gr2.1, gr2.2)))
  | .alt a b, s => mtch ci a s ++ mtch ci b s
  | .opt a, s => mtch ci a s ++ [([], s)]
  | .starG k, s =>
    let n := runLen ci k s
    (List.range (n + 1)).map (fun i => ([], s.drop (n - i)))
  | .starL k, s =>
    let n := runLen ci k s
    (List.range (n + 1)).map (fun i => ([], s.drop i))
  | .plusG k, s =>
    match s with
    | [] => []
    | c :: cs =>
      if csetMatch ci k c then
        let n := runLen ci k cs
        (List.range (n + 1)).map (fun i => ([], cs.drop (n - i)))
      else []
  | .grp n a, s =>
    (mtch ci a s).map (fun gr =>
      ((n, s.take (s.length - gr.2.length)) :: gr.1, gr.2))

/-- Leftmost search: the first position at which the pattern matches, with
the text before the match, the matched text, the groups of the
highest-priority match there, and the remaining input. -/
def search (ci : Bool) (re : Re) : Cs → Option (Cs × Cs × Groups × Cs)
  | [] =>
    match mtch ci re [] with
    | (g, rest) :: _ => some ([], [], g, rest)
    | [] => none
  | c :: cs =>
    match mtch ci re (c :: cs) with
    | (g, rest) :: _ =>
      some ([], (c :: cs).take ((c :: cs).length - rest.length), g, rest)
    | [] =>
      match search ci re cs with
      | none => none
      | some (pre, m, g, rest) => some (c :: pre, m, g, rest)

/-- Looking up a captured group; an absent group reads as the empty string,
matching how an undefined capture behaves in a replacement template. -/
def getGroup (n : Nat) (g : Groups) : Cs :=
  match g.find? (fun p => p.1 == n) with
  | some p => p.2
  | none => []

/-- Fuelled global replacement: repeatedly search, emit the replacement and
continue after the match, advancing one character when a match is empty,
exactly as String.prototype.replace with the g flag does.  The replacement
function receives the text of the subject before the match, the matched
text, the text after the match and the captures, as GetSubstitution does;
the first argument threads the part of the subject already scanned. -/
def replaceF (ci : Bool) (re : Re) (repl : Cs → Cs → Cs → Groups → Cs) :
    Nat → Cs → Cs → Cs
  | 0, _, s => s
  | fuel + 1, acc, s =>
    match search ci re s with
    | none => s
    | some (pre, m, g, rest) =>
      match m with
      | [] =>
        match rest with
        | [] => pre ++ repl (acc ++ pre) m rest g
        | c :: rs => pre ++ repl (acc ++ pre) m rest g ++
            c :: replaceF ci re repl fuel (acc ++ pre ++ [c]) rs
      | _ :: _ => pre ++ repl (acc ++ pre) m rest g ++
          replaceF ci re repl fuel (acc ++ pre ++ m) rest

/-- Global regex replacement over a whole string. -/
def replaceg (ci : Bool) (re : Re) (repl : Cs → Cs → Cs → Groups → Cs)
    (s : Cs) : Cs :=
  replaceF ci re repl (s.length + 1) [] s

/-- First match of a non-global regex, as an optional group list together
with the whole-match text: position 0 of a JavaScript match array is the
matched text, positions 1 and up are the captures. -/
def matchOne (ci : Bool) (re : Re) (s : Cs) : Option (Cs × Groups) :=
  match search ci re s with
  | none => none
  | some (_, m, g, _) => some (m, g)

example : mtch true (Re.lit ("abc").data) ("aBcd").data = [([], ['d'])] := by
  decide

example :
    search true (Re.lit ("bc").data) ("xabcd").data
      = some (['x', 'a'], ['b', 'c'], ([] : Groups), ['d']) := by rfl

example :
    matchOne false (reSeq [Re.grp 1 (.plusG .digitc), Re.lit ("x").data,
      Re.grp 2 (.plusG .digitc)]) ("ad300x250z").data
      = some (("300x250").data, [(1, ("300").data), (2, ("250").data)]) := by
  decide

/-!
## Embedding of detectDimensions

Each regular expression literal of the source is transcribed into a Re
value.  All dimension and name regexes carry the i flag in the source, so
they are matched case-insensitively; the final dimensions-in-name test has
no i flag and is matched case-sensitively.
-/

/-- The class of quote characters, the source class ["']. -/
def qcls : CSet := .oneOf [quoteD, quoteS]

/-- The class of non-quote characters, the source class [^"']. -/
def nqcls : CSet := .notOf [quoteD, quoteS]

/-- Numeric value of a string of decimal digits, as parseInt computes it on
a capture of one or more digits. -/
def natOfDigits (s : Cs) : Nat :=
  s.foldl (fun n c => n * 10 + (c.toNat - 48)) 0

/-- Decimal digits of a number, as template-literal interpolation prints
it; fuelled helper. -/
def natToCsAux : Nat → Nat → Cs
  | 0, _ => []
  | f + 1, n =>
    if n < 10 then [Char.ofNat (48 + n)]
    else natToCsAux f (n / 10) ++ [Char.ofNat (48 + n % 10)]

/-- Decimal digits of a number. -/
def natToCs (n : Nat) : Cs := natToCsAux (n + 1) n

/-- Is the first string a prefix of the second. -/
def isPrefixOfS : Cs → Cs → Bool
  | [], _ => true
  | _ :: _, [] => false
  | a :: as, b :: bs => a == b && isPrefixOfS as bs

/-- Is the first string a suffix of the second, as String.endsWith. -/
def endsWithS (suf s : Cs) : Bool := isPrefixOfS suf.reverse s.reverse

/-- Is the first string a substring of the second, as String.includes. -/
def containsSub (n : Cs) : Cs → Bool
  | [] => isPrefixOfS n []
  | c :: cs => isPrefixOfS n (c :: cs) || containsSub n cs

/-- Lower-casing of a whole string, as String.toLowerCase. -/
def lowerS (s : Cs) : Cs := s.map lc

/-- Whitespace trimming at both ends, as String.trim. -/
def trimS (s : Cs) : Cs :=
  ((s.dropWhile (fun c => memc c spaceChars)).reverse.dropWhile
    (fun c => memc c spaceChars)).reverse

/-- Source regex: meta ad.size tag with its content capture. -/
def reAdSize : Re :=
  reSeq [.lit ("<meta").data, .plusG .spacec, .lit ("name=").data, .cls qcls,
    .lit ("ad.size").data, .cls qcls, .plusG .spacec, .lit ("content=").data,
    .cls qcls, .grp 1 (.plusG nqcls), .cls qcls]

/-- Source regex: meta viewport tag with its content capture. -/
def reViewport : Re :=
  reSeq [.lit ("<meta").data, .plusG .spacec, .lit ("name=").data, .cls qcls,
    .lit ("viewport").data, .cls qcls, .plusG .spacec, .lit ("content=").data,
    .cls qcls, .grp 1 (.plusG nqcls), .cls qcls]

/-- Source regex: width equals digits, inside a meta content value. -/
def reWidthEq : Re := reSeq [.lit ("width=").data, .grp 1 (.plusG .digitc)]

/-- Source regex: height equals digits, inside a meta content value. -/
def reHeightEq : Re := reSeq [.lit ("height=").data, .grp 1 (.plusG .digitc)]

/-- The style-attribute body with width before height: the source fragment
capturing group 1 around width and height pixel declarations. -/
def reStyleValWH : Re :=
  Re.grp 1 (reSeq [.starG nqcls, .lit ("width:").data, .starG .spacec,
    .grp 2 (.plusG .digitc), .lit ("px").data, .starG nqcls,
    .lit ("height:").data, .starG .spacec, .grp 3 (.plusG .digitc),
    .lit ("px").data, .starG nqcls])

/-- The style-attribute body with height before width. -/
def reStyleValHW : Re :=
  Re.grp 1 (reSeq [.starG nqcls, .lit ("height:").data, .starG .spacec,
    .grp 2 (.plusG .digitc), .lit ("px").data, .starG nqcls,
    .lit ("width:").data, .starG .spacec, .grp 3 (.plusG .digitc),
    .lit ("px").data, .starG nqcls])

/-- Source regex: body tag with an inline style declaring width then
height in pixels. -/
def reBodyStyleWH : Re :=
  reSeq [.lit ("<body").data, .starG (.notOf ['>']), .lit ("style=").data,
    .cls qcls, reStyleValWH, .cls qcls]

/-- Source regex: body tag with an inline style declaring height then
width in pixels. -/
def reBodyStyleHW : Re :=
  reSeq [.lit ("<body").data, .starG (.notOf ['>']), .lit ("style=").data,
    .cls qcls, reStyleValHW, .cls qcls]

/-- Source regex: html tag with an inline style declaring width then
height in pixels. -/
def reHtmlStyleWH : Re :=
  reSeq [.lit ("<html").data, .starG (.notOf ['>']), .lit ("style=").data,
    .cls qcls, reStyleValWH, .cls qcls]

/-- Source regex: div tag with an inline style declaring width then height
in pixels. -/
def reDivStyleWH : Re :=
  reSeq [.lit ("<div").data, .starG (.notOf ['>']), .lit ("style=").data,
    .cls qcls, reStyleValWH, .cls qcls]

/-- Source regex: a style element and its lazily captured content. -/
def reStyleTag : Re :=
  reSeq [.lit ("<style").data, .starG (.notOf ['>']), .lit (">").data,
    .grp 1 (.starL .anyc), .lit ("</style>").data]

/-- Source regex: a body rule of a style sheet declaring a pixel width. -/
def reCssBodyW : Re :=
  reSeq [.lit ("body").data, .starG .spacec, .lit [lbraceC],
    .starG (.notOf [rbraceC]), .lit ("width:").data, .starG .spacec,
    .grp 1 (.plusG .digitc), .lit ("px").data]

/-- Source regex: a body rule of a style sheet declaring a pixel height. -/
def reCssBodyH : Re :=
  reSeq [.lit ("body").data, .starG .spacec, .lit [lbraceC],
    .starG (.notOf [rbraceC]), .lit ("height:").data, .starG .spacec,
    .grp 1 (.plusG .digitc), .lit ("px").data]

/-- Source regex: an html rule of a style sheet declaring a pixel width. -/
def reCssHtmlW : Re :=
  reSeq [.lit ("html").data, .starG .spacec, .lit [lbraceC],
    .starG (.notOf [rbraceC]), .lit ("width:").data, .starG .spacec,
    .grp 1 (.plusG .digitc), .lit ("px").data]

/-- Source regex: an html rule of a style sheet declaring a pixel height. -/
def reCssHtmlH : Re :=
  reSeq [.lit ("html").data, .starG .spacec, .lit [lbraceC],
    .starG (.notOf [rbraceC]), .lit ("height:").data, .starG .spacec,
    .grp 1 (.plusG .digitc), .lit ("px").data]

/-- Source regex: a structured size comment. -/
def reComment : Re :=
  reSeq [.lit ("<!--").data, .starG .spacec,
    .alt (.lit ("size").data) (.alt (.lit ("dimensions").data)
      (.lit ("format").data)),
    .lit (":").data, .starG .spacec, .grp 1 (.plusG .digitc), .starG .spacec,
    .cls (.oneOf ['x', '×']), .starG .spacec, .grp 2 (.plusG .digitc),
    .starG .spacec, .lit ("-->").data]

/-- Source regex: the data-format attribute and its value capture. -/
def reDataFormat : Re :=
  reSeq [.lit ("data-format=").data, .cls qcls, .grp 1 (.plusG nqcls),
    .cls qcls]

/-- Source regex: digits x digits inside a data-format value. -/
def reDimsPair : Re :=
  reSeq [.grp 1 (.plusG .digitc), .starG .spacec, .cls (.oneOf ['x', '×']),
    .starG .spacec, .grp 2 (.plusG .digitc)]

/-- Source regex: digits, one separator, digits, inside a filename. -/
def reFilenameDims : Re :=
  reSeq [.grp 1 (.plusG .digitc), .cls (.oneOf ['x', '×', '_', '-']),
    .grp 2 (.plusG .digitc)]

/-- Source regex: the title element and its text capture. -/
def reTitle : Re :=
  reSeq [.lit ("<title>").data, .grp 1 (.plusG (.notOf ['<'])),
    .lit ("</title>").data]

/-- Source regex: a format-name or display-name meta tag. -/
def reMetaName : Re :=
  reSeq [.lit ("<meta").data, .plusG .spacec, .lit ("name=").data, .cls qcls,
    .alt (.lit ("format-name").data) (.lit ("display-name").data), .cls qcls,
    .plusG .spacec, .lit ("content=").data, .cls qcls, .grp 1 (.plusG nqcls),
    .cls qcls]

/-- Source regex: digits x digits, the dimensions-in-name test (the only
regex of the cascade without the i flag). -/
def reNameDims : Re :=
  reSeq [.plusG .digitc, .starG .spacec, .cls (.oneOf ['x', '×']),
    .starG .spacec, .plusG .digitc]

/-- The pair a successful ad.size detector yields: both attributes must be
present in the content value or the detector yields nothing. -/
def adSizePair (html : Cs) : Option (Nat × Nat) :=
  match matchOne true reAdSize html with
  | none => none
  | some (_, g) =>
    let content := getGroup 1 g
    match matchOne true reWidthEq content, matchOne true reHeightEq content with
    | some (_, gw), some (_, gh) =>
      some (natOfDigits (getGroup 1 gw), natOfDigits (getGroup 1 gh))
    | _, _ => none

/-- The pair a successful viewport detector yields. -/
def viewportPair (html : Cs) : Option (Nat × Nat) :=
  match matchOne true reViewport html with
  | none => none
  | some (_, g) =>
    let content := getGroup 1 g
    match matchOne true reWidthEq content, matchOne true reHeightEq content with
    | some (_, gw), some (_, gh) =>
      some (natOfDigits (getGroup 1 gw), natOfDigits (getGroup 1 gh))
    | _, _ => none

/-- The pair of the body inline-style detector, trying width-then-height
and falling back to height-then-width, as the source does for body only. -/
def bodyStylePair (html : Cs) : Option (Nat × Nat) :=
  match matchOne true reBodyStyleWH html with
  | some (_, g) => some (natOfDigits (getGroup 2 g), natOfDigits (getGroup 3 g))
  | none =>
    match matchOne true reBodyStyleHW html with
    | some (_, g) =>
      some (natOfDigits (getGroup 3 g), natOfDigits (getGroup 2 g))
    | none => none

/-- The pair of the html inline-style detector. -/
def htmlStylePair (html : Cs) : Option (Nat × Nat) :=
  match matchOne true reHtmlStyleWH html with
  | some (_, g) => some (natOfDigits (getGroup 2 g), natOfDigits (getGroup 3 g))
  | none => none

/-- The pair of the div inline-style detector. -/
def divStylePair (html : Cs) : Option (Nat × Nat) :=
  match matchOne true reDivStyleWH html with
  | some (_, g) => some (natOfDigits (getGroup 2 g), natOfDigits (getGroup 3 g))
  | none => none

/-- The pair of the structured-comment detector. -/
def commentPair (html : Cs) : Option (Nat × Nat) :=
  match matchOne true reComment html with
  | some (_, g) => some (natOfDigits (getGroup 1 g), natOfDigits (getGroup 2 g))
  | none => none

/-- The pair of the data-format attribute detector. -/
def dataFormatPair (html : Cs) : Option (Nat × Nat) :=
  match matchOne true reDataFormat html with
  | none => none
  | some (_, g) =>
    match matchOne true reDimsPair (getGroup 1 g) with
    | some (_, g2) =>
      some (natOfDigits (getGroup 1 g2), natOfDigits (getGroup 2 g2))
    | none => none

/-- The pair of the filename detector. -/
def filenamePair (fname : Cs) : Option (Nat × Nat) :=
  match matchOne true reFilenameDims fname with
  | some (_, g) => some (natOfDigits (getGroup 1 g), natOfDigits (getGroup 2 g))
  | none => none

/-- The style-block tier.  It can set width and height independently: a
body rule sets whichever of the two it declares, and when the pair is still
incomplete an html rule overrides whichever of the two it declares.  This
is the one tier of the cascade that can produce or rework a partial pair. -/
def styleApply (html : Cs) (wh : Nat × Nat) : Nat × Nat :=
  match matchOne true reStyleTag html with
  | none => wh
  | some (_, g) =>
    let css := getGroup 1 g
    let w1 :=
      match matchOne true reCssBodyW css with
      | some (_, gw) => natOfDigits (getGroup 1 gw)
      | none => wh.1
    let h1 :=
      match matchOne true reCssBodyH css with
      | some (_, gh) => natOfDigits (getGroup 1 gh)
      | none => wh.2
    if w1 = 0 ∨ h1 = 0 then
      let w2 :=
        match matchOne true reCssHtmlW css with
        | some (_, gw) => natOfDigits (getGroup 1 gw)
        | none => w1
      let h2 :=
        match matchOne true reCssHtmlH css with
        | some (_, gh) => natOfDigits (getGroup 1 gh)
        | none => h1
      (w2, h2)
    else (w1, h1)

/-- The continuation condition of the cascade: a JavaScript number is falsy
exactly when it is zero, so the source test not width or not height reads
as: one of the two is still zero. -/
def needDims (wh : Nat × Nat) : Bool := wh.1 == 0 || wh.2 == 0

/-- Applying the pair of an all-or-nothing detector to the running state. -/
def applyPair (o : Option (Nat × Nat)) (wh : Nat × Nat) : Nat × Nat :=
  match o with
  | some p => p
  | none => wh

/-- Dimension state after the ad.size tier, which runs unconditionally. -/
def whAd (html : Cs) : Nat × Nat := applyPair (adSizePair html) (0, 0)

/-- Dimension state after the viewport tier. -/
def whViewport (html : Cs) : Nat × Nat :=
  if needDims (whAd html) then applyPair (viewportPair html) (whAd html)
  else whAd html

/-- Dimension state after the body inline-style tier. -/
def whBody (html : Cs) : Nat × Nat :=
  if needDims (whViewport html) then
    applyPair (bodyStylePair html) (whViewport html)
  else whViewport html

/-- Dimension state after the html inline-style tier. -/
def whHtmlTag (html : Cs) : Nat × Nat :=
  if needDims (whBody html) then applyPair (htmlStylePair html) (whBody html)
  else whBody html

/-- Dimension state after the style-block tier. -/
def whStyle (html : Cs) : Nat × Nat :=
  if needDims (whHtmlTag html) then styleApply html (whHtmlTag html)
  else whHtmlTag html

/-- Dimension state after the div inline-style tier. -/
def whDiv (html : Cs) : Nat × Nat :=
  if needDims (whStyle html) then applyPair (divStylePair html) (whStyle html)
  else whStyle html

/-- Dimension state after the structured-comment tier. -/
def whComment (html : Cs) : Nat × Nat :=
  if needDims (whDiv html) then applyPair (commentPair html) (whDiv html)
  else whDiv html

/-- Dimension state after the data-format tier. -/
def whDataFormat (html : Cs) : Nat × Nat :=
  if needDims (whComment html) then
    applyPair (dataFormatPair html) (whComment html)
  else whComment html

/-- Dimension state after the filename tier. -/
def whFilename (html fname : Cs) : Nat × Nat :=
  if needDims (whDataFormat html) then
    applyPair (filenamePair fname) (whDataFormat html)
  else whDataFormat html

/-- The final dimensions: the fixed 800 by 600 fallback replaces the whole
pair whenever either component is still zero. -/
def dimsOf (html fname : Cs) : Nat × Nat :=
  if needDims (whFilename html fname) then (800, 600)
  else whFilename html fname

/-- Name from the title element, trimmed; empty when there is no title. -/
def nameFromTitle (html : Cs) : Cs :=
  match matchOne true reTitle html with
  | some (_, g) => trimS (getGroup 1 g)
  | none => []

/-- Name from a format-name or display-name meta tag, trimmed. -/
def nameFromMeta (html : Cs) : Cs :=
  match matchOne true reMetaName html with
  | some (_, g) => trimS (getGroup 1 g)
  | none => []

/-- Removal of one trailing .html, the anchored case-sensitive replace of
the source. -/
def stripHtmlExt (f : Cs) : Cs :=
  if endsWithS (".html").data f then f.take (f.length - 5) else f

/-- The cleaned filename: extension stripped, underscores and hyphens
turned into spaces. -/
def cleanFilename (f : Cs) : Cs :=
  (stripHtmlExt f).map (fun c => if c == '_' || c == '-' then ' ' else c)

/-- Name derived from the filename via the keyword table of the source. -/
def nameFromFile (fname : Cs) : Cs :=
  let cleanF := cleanFilename fname
  let lowerF := lowerS cleanF
  if containsSub ("mobile").data lowerF && containsSub ("portrait").data lowerF
  then ("Mobile Portrait").data
  else if containsSub ("mobile").data lowerF &&
      containsSub ("landscape").data lowerF then ("Mobile Landscape").data
  else if containsSub ("tablet").data lowerF &&
      containsSub ("portrait").data lowerF then ("Tablet Portrait").data
  else if containsSub ("tablet").data lowerF &&
      containsSub ("landscape").data lowerF then ("Tablet Landscape").data
  else if containsSub ("desktop").data lowerF then ("Desktop").data
  else cleanF

/-- The name computation of the source: title, then meta tag, then
filename, then the dimension suffix or the pure-dimensions fallback, the
appended dimensions being the ones the cascade inferred. -/
def detectName (html fname : Cs) : Cs :=
  let wh := dimsOf html fname
  let n1 := nameFromTitle html
  let n2 := if n1 = [] then nameFromMeta html else n1
  let n3 := if n2 = [] then nameFromFile fname else n2
  if n3 ≠ [] ∧ matchOne false reNameDims n3 = none then
    n3 ++ (" (").data ++ natToCs wh.1 ++ ['×'] ++ natToCs wh.2 ++ [')']
  else if n3 = [] then natToCs wh.1 ++ ['×'] ++ natToCs wh.2
  else n3

/-- The full inference routine of the source: dimensions from the cascade
and the inferred display name. -/
def detectDimensions (html fname : Cs) : Nat × Nat × Cs :=
  ((dimsOf html fname).1, (dimsOf html fname).2, detectName html fname)

/-!
## Embedding of processZipFile

The reference-rewriting step builds, for each asset filename, a regex from a
template string into which the escaped filename is spliced.  The escaping
step is embedded as jsEscapeRegex; the spliced fragment is read back into a
pattern by litOfEscaped, which accepts exactly the fragments denoting a
literal string: every backslash-escaped character stands for itself and an
unescaped metacharacter is refused.  The round-trip lemma below shows the
escaping step only ever produces such literal fragments, so the refusal
branch of the pattern builders is dead code.
-/

/-- The characters escaped by the source before pattern construction. -/
def reMetaChars : Cs :=
  ['.', '*', '+', '?', '^', '$', lbraceC, rbraceC, '(', ')', '|', '[', ']',
    bslashC]

/-- The escaping replace of the source: a backslash is put before every
regex metacharacter of the filename. -/
def jsEscapeRegex (s : Cs) : Cs :=
  s.flatMap (fun c => if memc c reMetaChars then [bslashC, c] else [c])

/-- Reading an escaped fragment back as the literal string it denotes
inside a regex; fragments still containing an unescaped metacharacter are
refused, and the escaping lemma shows they never arise. -/
def litOfEscaped : Cs → Option Cs
  | [] => some []
  | c :: rest =>
    if c == bslashC then
      match rest with
      | [] => none
      | d :: rest2 =>
        match litOfEscaped rest2 with
        | some l => some (d :: l)
        | none => none
    else if memc c reMetaChars then none
    else
      match litOfEscaped rest with
      | some l => some (c :: l)
      | none => none

/-- The class of the two path separators, the source class with a forward
slash and a backslash. -/
def slashCls : CSet := .oneOf ['/', bslashC]

/-- The first replacement pattern of the source: attribute, equals, quote,
an optional path prefix ending in a separator, the escaped filename, and a
quote. -/
def pattern1 (escb : Cs) : Option Re :=
  match litOfEscaped escb with
  | some b =>
    some (reSeq [.grp 1 (.alt (.lit ("src").data) (.lit ("href").data)),
      .lit ("=").data, .cls qcls,
      .opt (.grp 2 (reSeq [.starG nqcls, .cls slashCls])), .lit b, .cls qcls])
  | none => none

/-- The second replacement pattern of the source: attribute, equals, quote,
the escaped filename, and a quote. -/
def pattern2 (escb : Cs) : Option Re :=
  match litOfEscaped escb with
  | some b =>
    some (reSeq [.grp 1 (.alt (.lit ("src").data) (.lit ("href").data)),
      .lit ("=").data, .cls qcls, .lit b, .cls qcls])
  | none => none

/-- The backquote character. -/
def btickC : Char := Char.ofNat 96

/-- Numeric value of a digit character. -/
def digitVal (c : Char) : Nat := c.toNat - 48

/-- Number of capturing groups of a pattern, the group count m that
bounds digit references during substitution. -/
def countGroups : Re → Nat
  | .eps => 0
  | .cls _ => 0
  | .lit _ => 0
  | .cat a b => countGroups a + countGroups b
  | .alt a b => countGroups a + countGroups b
  | .opt a => countGroups a
  | .starG _ => 0
  | .starL _ => 0
  | .plusG _ => 0
  | .grp _ a => countGroups a + 1

/-- GetSubstitution of String.prototype.replace with a string replacement:
the whole template is scanned for dollar sequences, expanding a doubled
dollar to a dollar, dollar-ampersand to the matched text, the backquote
and quote forms to the text before and after the match, and one- or
two-digit group references bounded by the pattern's group count, a
two-digit reference beyond the count falling back to its first digit;
everything else is copied as it stands. -/
def getSubF (mm : Nat) (matched before after : Cs) (g : Groups) :
    Nat → Cs → Cs
  | 0, _ => []
  | _ + 1, [] => []
  | fuel + 1, c :: rest =>
    if c = '$' then
      match rest with
      | [] => ['$']
      | c1 :: r2 =>
        if c1 = '$' then '$' :: getSubF mm matched before after g fuel r2
        else if c1 = '&' then
          matched ++ getSubF mm matched before after g fuel r2
        else if c1 = btickC then
          before ++ getSubF mm matched before after g fuel r2
        else if c1 = quoteS then
          after ++ getSubF mm matched before after g fuel r2
        else if c1.isDigit then
          match r2 with
          | c2 :: r3 =>
            if c2.isDigit then
              if 1 ≤ 10 * digitVal c1 + digitVal c2 ∧
                  10 * digitVal c1 + digitVal c2 ≤ mm then
                getGroup (10 * digitVal c1 + digitVal c2) g ++
                  getSubF mm matched before after g fuel r3
              else if 1 ≤ digitVal c1 ∧ digitVal c1 ≤ mm then
                getGroup (digitVal c1) g ++
                  getSubF mm matched before after g fuel (c2 :: r3)
              else '$' :: c1 ::
                getSubF mm matched before after g fuel (c2 :: r3)
            else if 1 ≤ digitVal c1 ∧ digitVal c1 ≤ mm then
              getGroup (digitVal c1) g ++
                getSubF mm matched before after g fuel r2
            else '$' :: c1 :: getSubF mm matched before after g fuel r2
          | [] =>
            if 1 ≤ digitVal c1 ∧ digitVal c1 ≤ mm then
              getGroup (digitVal c1) g
            else ['$', c1]
        else '$' :: getSubF mm matched before after g fuel rest
    else c :: getSubF mm matched before after g fuel rest

def getSub (mm : Nat) (matched before after : Cs) (g : Groups)
    (tpl : Cs) : Cs :=
  getSubF mm matched before after g tpl.length tpl

/-- The replacement applied by the source, String.replace with the string
template dollar-1, equals, and the data URL in double quotes: the whole
template, spliced data URL included, passes through GetSubstitution. -/
def inlineRepl (mm : Nat) (dataUrl : Cs) (before matched after : Cs)
    (g : Groups) : Cs :=
  getSub mm matched before after g
    ('$' :: '1' :: '=' :: quoteD :: (dataUrl ++ [quoteD]))

/-- One iteration of the asset loop: both patterns are built from the
escaped filename and applied globally and case-insensitively in order. -/
def inlineOne (html : Cs) (fname dataUrl : Cs) : Cs :=
  let esc := jsEscapeRegex fname
  let h1 :=
    match pattern1 esc with
    | some r => replaceg true r (inlineRepl (countGroups r) dataUrl) html
    | none => html
  match pattern2 esc with
  | some r => replaceg true r (inlineRepl (countGroups r) dataUrl) h1
  | none => h1

/-- The whole reference-rewriting step: the asset map is traversed in
iteration order and each asset's patterns are applied to the running
document. -/
def inlineReferences (assets : List (Cs × Cs)) (html : Cs) : Cs :=
  assets.foldl (fun acc fd => inlineOne acc fd.1 fd.2) html

/-- The base64 alphabet. -/
def b64Alphabet : Cs :=
  ("ABCDEFGHIJKLMNOPQRSTUVWXYZabcdefghijklmnopqrstuvwxyz0123456789+/").data

/-- One base64 digit. -/
def b64Char (n : Nat) : Char := b64Alphabet.getD n 'A'

/-- Base64 encoding of a byte list, as readAsDataURL produces it. -/
def base64 : List Nat → Cs
  | [] => []
  | [a] => [b64Char (a / 4 % 64), b64Char (a % 4 * 16), '=', '=']
  | [a, b] =>
    [b64Char (a / 4 % 64), b64Char (a % 4 * 16 + b / 16 % 16),
      b64Char (b % 16 * 4), '=']
  | a :: b :: c :: rest =>
    [b64Char (a / 4 % 64), b64Char (a % 4 * 16 + b / 16 % 16),
      b64Char (b % 16 * 4 + c / 64 % 4), b64Char (c % 64)] ++ base64 rest

/-- The decoded payload of one archive entry: its text reading, its
declared content type, and its bytes.  An entry whose decoding would throw
is modelled by an absent payload. -/
structure EntryData where
  text : Cs
  mime : Cs
  bytes : List Nat
deriving DecidableEq

/-- One archive entry as the iteration of the source sees it. -/
structure ZipEntry where
  name : Cs
  isDir : Bool
  content : Option EntryData
deriving DecidableEq

/-- The mutable state of the entry loop: the chosen document entry name,
its text, and the asset map in insertion order. -/
structure LoopSt where
  htmlFile : Option Cs
  htmlContent : Cs
  assets : List (Cs × Cs)
deriving DecidableEq

/-- The loop state before the first entry. -/
def initLoopSt : LoopSt := ⟨none, [], []⟩

/-- Splitting a string at forward slashes. -/
def splitSlash : Cs → List Cs
  | [] => [[]]
  | c :: cs =>
    match splitSlash cs with
    | [] => [[]]
    | h :: t => if c == '/' then [] :: h :: t else (c :: h) :: t

/-- The basename computation of the source: the last slash-separated
segment, or the whole name when that segment is empty, since popping an
empty string is falsy. -/
def basenameOf (n : Cs) : Cs :=
  let b := (splitSlash n).getLastD []
  if b = [] then n else b

/-- Insertion into a JavaScript Map: an existing key keeps its position and
gets the new value, a new key is appended. -/
def assocSet : List (Cs × α) → Cs → α → List (Cs × α)
  | [], k, v => [(k, v)]
  | (k0, v0) :: rest, k, v =>
    if k0 = k then (k0, v) :: rest else (k0, v0) :: assocSet rest k v

/-- The data URL built for one decoded asset entry: the declared content
type, or the forced svg type when the lower-cased basename ends in .svg,
followed by the base64 bytes. -/
def assetDataUrl (e : ZipEntry) (d : EntryData) : Cs :=
  ("data:").data ++
    (if endsWithS (".svg").data (lowerS (basenameOf e.name)) then
      ("image/svg+xml").data
    else d.mime) ++
    (";base64,").data ++ base64 d.bytes

/-- The asset branch of the entry loop: hidden and archive-metadata
basenames are skipped, a failing decode throws, and the data URL is stored
under the basename. -/
def handleAsset (st : LoopSt) (e : ZipEntry) : Except Unit LoopSt :=
  if isPrefixOfS (".").data (basenameOf e.name) ||
      isPrefixOfS ("__MACOSX").data (basenameOf e.name) then .ok st
  else
    match e.content with
    | none => .error ()
    | some d =>
      .ok { st with
        assets := assocSet st.assets (basenameOf e.name) (assetDataUrl e d) }

/-- One iteration of the entry loop: directories are skipped, the first
entry named with the document extension becomes the document, and every
other entry goes down the asset branch. -/
def loopStep (st : LoopSt) (e : ZipEntry) : Except Unit LoopSt :=
  if e.isDir then .ok st
  else if endsWithS (".html").data e.name ∧ st.htmlFile = none then
    match e.content with
    | none => .error ()
    | some d => .ok { st with htmlFile := some e.name, htmlContent := d.text }
  else handleAsset st e

/-- The entry loop; a thrown error aborts it. -/
def runLoop : LoopSt → List ZipEntry → Except Unit LoopSt
  | st, [] => .ok st
  | st, e :: es =>
    match loopStep st e with
    | .error u => .error u
    | .ok st2 => runLoop st2 es

/-- One finished bundle as inserted into the tool state. -/
structure FormatContent where
  html : Cs
  assets : List (Cs × Cs)
  width : Nat
  height : Nat
  name : Cs
deriving DecidableEq

/-- The tool state: the ordered bundle map and the selection pointer. -/
structure ToolState where
  formatContents : List (Cs × FormatContent)
  selectedFormat : Option Cs
deriving DecidableEq

/-- The notice shown when the input is not named with the zip extension. -/
def errNotZip : Cs := ("Please upload a ZIP file").data

/-- The notice shown when no document entry is found. -/
def errNoHtml : Cs := ("No HTML file found in the ZIP").data

/-- The notice shown when processing throws. -/
def errFailed : Cs := ("Failed to process ZIP file").data

/-- The success notice. -/
def successMsg (name : Cs) (n : Nat) : Cs :=
  name ++ (" loaded with ").data ++ natToCs n ++ (" assets!").data

/-- The whole ingestion routine.  The extension check precedes everything;
a failed archive load or a thrown entry decode is caught by the handler at
the bottom of the source and leaves the state untouched; a missing document
returns early with a notice; otherwise inference runs on the original text,
the references are rewritten, and the bundle is inserted under a key built
from the name and the current time, selecting it when nothing is selected
yet. -/
def processZipFile (now : Nat) (fileName : Cs) (loaded : Option (List ZipEntry))
    (st : ToolState) : ToolState × Cs :=
  if ¬ endsWithS (".zip").data fileName then (st, errNotZip)
  else
    match loaded with
    | none => (st, errFailed)
    | some entries =>
      match runLoop initLoopSt entries with
      | .error _ => (st, errFailed)
      | .ok l =>
        match l.htmlFile with
        | none => (st, errNoHtml)
        | some hf =>
          let d := detectDimensions l.htmlContent hf
          let processedHtml := inlineReferences l.assets l.htmlContent
          let formatKey := d.2.2 ++ ('_' :: natToCs now)
          let st2 : ToolState :=
            { formatContents :=
                assocSet st.formatContents formatKey
                  ⟨processedHtml, l.assets, d.1, d.2.1, d.2.2⟩,
              selectedFormat :=
                match st.selectedFormat with
                | none => some formatKey
                | some s => some s }
          (st2, successMsg d.2.2 l.assets.length)

/-!
## Lemmas about the dimension cascade
-/

theorem whViewport_locked {html : Cs} (h : needDims (whAd html) = false) :
    whViewport html = whAd html := by
  simp [whViewport, h]

theorem whBody_locked {html : Cs} (h : needDims (whViewport html) = false) :
    whBody html = whViewport html := by
  simp [whBody, h]

theorem whHtmlTag_locked {html : Cs} (h : needDims (whBody html) = false) :
    whHtmlTag html = whBody html := by
  simp [whHtmlTag, h]

theorem whStyle_locked {html : Cs} (h : needDims (whHtmlTag html) = false) :
    whStyle html = whHtmlTag html := by
  simp [whStyle, h]

theorem whDiv_locked {html : Cs} (h : needDims (whStyle html) = false) :
    whDiv html = whStyle html := by
  simp [whDiv, h]

theorem whComment_locked {html : Cs} (h : needDims (whDiv html) = false) :
    whComment html = whDiv html := by
  simp [whComment, h]

theorem whDataFormat_locked {html : Cs} (h : needDims (whComment html) = false) :
    whDataFormat html = whComment html := by
  simp [whDataFormat, h]

theorem whFilename_locked {html fname : Cs}
    (h : needDims (whDataFormat html) = false) :
    whFilename html fname = whDataFormat html := by
  simp [whFilename, h]

/-- Once the pair is complete after the style-block tier, every lower tier
and the fallback are skipped. -/
theorem dimsOf_locked_after_style {html : Cs}
    (h : needDims (whStyle html) = false) (fname : Cs) :
    dimsOf html fname = whStyle html := by
  have h1 := whDiv_locked h
  have h2 : needDims (whDiv html) = false := by rw [h1, h]
  have h3 := whComment_locked h2
  have h4 : needDims (whComment html) = false := by rw [h3, h2]
  have h5 := whDataFormat_locked h4
  have h6 : needDims (whDataFormat html) = false := by rw [h5, h4]
  have h7 := @whFilename_locked html fname h6
  have h8 : needDims (whFilename html fname) = false := by rw [h7, h6]
  rw [dimsOf, h8, h7, h5, h3, h1]
  simp

/-- Once the viewport tier has completed the pair, every lower tier and the
fallback are skipped. -/
theorem dimsOf_locked_after_viewport {html : Cs}
    (h : needDims (whViewport html) = false) (fname : Cs) :
    dimsOf html fname = whViewport html := by
  have h1 := whBody_locked h
  have h2 : needDims (whBody html) = false := by rw [h1, h]
  have h3 := whHtmlTag_locked h2
  have h4 : needDims (whHtmlTag html) = false := by rw [h3, h2]
  have h5 := whStyle_locked h4
  have h6 : needDims (whStyle html) = false := by rw [h5, h4]
  rw [dimsOf_locked_after_style h6 fname, h5, h3, h1]

/-- Once the ad.size tier has completed the pair, every lower tier and the
fallback are skipped. -/
theorem dimsOf_locked_after_ad {html : Cs}
    (h : needDims (whAd html) = false) (fname : Cs) :
    dimsOf html fname = whAd html := by
  have h1 := whViewport_locked h
  have h2 : needDims (whViewport html) = false := by rw [h1, h]
  rw [dimsOf_locked_after_viewport h2 fname, h1]

/-- The width of the result is the width of the cascade. -/
theorem detectDimensions_width (html fname : Cs) :
    (detectDimensions html fname).1 = (dimsOf html fname).1 := by
  simp only [detectDimensions]

/-- The height of the result is the height of the cascade. -/
theorem detectDimensions_height (html fname : Cs) :
    (detectDimensions html fname).2.1 = (dimsOf html fname).2 := by
  simp only [detectDimensions]

/-!
## Claim C3
-/

/-- A document whose only dimension signal is a viewport tag with width 320
and height 480. -/
def viewportOnlyDoc : Cs :=
  ("<meta name=\"viewport\" content=\"width=320,height=480\">").data

/-- A document carrying both an ad.size tag with 300 by 250 and a viewport
tag with 320 by 480. -/
def adAndViewportDoc : Cs :=
  ("<meta name=\"ad.size\" content=\"width=300,height=250\"> " ++
    "<meta name=\"viewport\" content=\"width=320,height=480\">").data

/-- C3: when the ad.size detector finds nothing and the viewport detector
yields 320 by 480, the result is 320 by 480; and whenever the ad.size
detector yields 300 by 250, the result is 300 by 250 regardless of any
viewport tag, because the ad.size tier has priority and a complete pair
stops the cascade. -/
theorem C3_dimension_cascade_priority :
    (∀ html fname : Cs, adSizePair html = none →
        viewportPair html = some (320, 480) →
        (detectDimensions html fname).1 = 320 ∧
          (detectDimensions html fname).2.1 = 480) ∧
    (∀ html fname : Cs, adSizePair html = some (300, 250) →
        (detectDimensions html fname).1 = 300 ∧
          (detectDimensions html fname).2.1 = 250) := by
  constructor
  · intro html fname hAd hVp
    have h0 : whAd html = (0, 0) := by simp [whAd, hAd, applyPair]
    have h1 : whViewport html = (320, 480) := by
      simp [whViewport, h0, needDims, hVp, applyPair]
    have h2 : needDims (whViewport html) = false := by rw [h1]; rfl
    rw [detectDimensions_width, detectDimensions_height,
      dimsOf_locked_after_viewport h2 fname, h1]
    exact ⟨rfl, rfl⟩
  · intro html fname hAd
    have h0 : whAd html = (300, 250) := by simp [whAd, hAd, applyPair]
    have h2 : needDims (whAd html) = false := by rw [h0]; rfl
    rw [detectDimensions_width, detectDimensions_height,
      dimsOf_locked_after_ad h2 fname, h0]
    exact ⟨rfl, rfl⟩

/-- Witness for C3: the two statements applied to concrete documents, the
detector hypotheses checked by evaluation. -/
theorem C3_witness :
    (detectDimensions viewportOnlyDoc ("creative.html").data).1 = 320 ∧
      (detectDimensions viewportOnlyDoc ("creative.html").data).2.1 = 480 ∧
      (detectDimensions adAndViewportDoc ("creative.html").data).1 = 300 ∧
      (detectDimensions adAndViewportDoc ("creative.html").data).2.1 = 250 := by
  have a := C3_dimension_cascade_priority.1 viewportOnlyDoc
    (("creative.html").data) (by decide) (by decide)
  have b := C3_dimension_cascade_priority.2 adAndViewportDoc
    (("creative.html").data) (by decide)
  exact ⟨a.1, a.2, b.1, b.2⟩

/-!
## Claim C4
-/

/-- A document whose style block declares only a body width and whose div
inline style declares a complete pair. -/
def styleDivDoc : Cs :=
  ("<style>body").data ++ [lbraceC] ++ ("width:100px").data ++ [rbraceC] ++
    ("</style><div style=\"width:50px;height:60px\"></div>").data

/-- Counterexample to C4 as stated.  On this document the style-block tier
yields the partial pair 100 by 0; the claim says such a partial result is
completed, not discarded or overwritten, by a later tier, which here would
give width 100 and height 60; but the div tier overwrites the partial
width, and the result is 50 by 60. -/
theorem C4_counterexample :
    whStyle styleDivDoc = (100, 0) ∧
      divStylePair styleDivDoc = some (50, 60) ∧
      (detectDimensions styleDivDoc ("ad.html").data).1 = 50 ∧
      (detectDimensions styleDivDoc ("ad.html").data).2.1 = 60 ∧
      ¬(detectDimensions styleDivDoc ("ad.html").data).1 = 100 := by
  exact ⟨by decide, by decide, by decide, by decide, by decide⟩

/-- C4 as amended: a tier that yields only one of width and height leaves
the continuation condition true, so lower tiers still run; inside the
style-block tier an html rule completes a partial body rule; but a lower
tier that matches replaces the whole pair, overwriting a partial width
rather than completing it, and when nothing lower matches the fallback
replaces the whole pair with 800 by 600; and once the pair is complete,
every lower detector is skipped. -/
theorem C4_amended_cascade_behaviour :
    (∀ html fname : Cs, needDims (whAd html) = false →
        dimsOf html fname = whAd html) ∧
    (∀ html fname : Cs, needDims (whStyle html) = false →
        dimsOf html fname = whStyle html) ∧
    (∀ (html : Cs) (w : Nat) (p : Nat × Nat), whStyle html = (w, 0) →
        divStylePair html = some p → whDiv html = p) ∧
    (∀ (html m g mw gw mh gh : _), matchOne true reStyleTag html = some (m, g) →
        matchOne true reCssBodyW (getGroup 1 g) = some (mw, gw) →
        matchOne true reCssBodyH (getGroup 1 g) = none →
        matchOne true reCssHtmlW (getGroup 1 g) = none →
        matchOne true reCssHtmlH (getGroup 1 g) = some (mh, gh) →
        styleApply html (0, 0) =
          (natOfDigits (getGroup 1 gw), natOfDigits (getGroup 1 gh))) ∧
    (∀ (html fname : Cs) (w : Nat), whFilename html fname = (w, 0) →
        dimsOf html fname = (800, 600)) := by
  refine ⟨fun html fname h => dimsOf_locked_after_ad h fname,
    fun html fname h => dimsOf_locked_after_style h fname,
    ?_, ?_, ?_⟩
  · intro html w p hStyle hDiv
    have hc : needDims (whStyle html) = true := by
      rw [hStyle]; simp [needDims]
    simp [whDiv, hc, hDiv, applyPair]
  · intro html m g mw gw mh gh hTag hBw hBh hHw hHh
    simp [styleApply, hTag, hBw, hBh, hHw, hHh]
  · intro html fname w h
    have hc : needDims (whFilename html fname) = true := by
      rw [h]; simp [needDims]
    simp [dimsOf, hc]

/-- A document whose style block has only a body width rule and an html
height rule, exercising completion inside the style-block tier. -/
def bodyHtmlCssDoc : Cs :=
  ("<style>body").data ++ [lbraceC] ++ ("width:100px").data ++ [rbraceC] ++
    (" html").data ++ [lbraceC] ++ ("height:200px").data ++ [rbraceC] ++
    ("</style>").data

/-- A document with an ad.size pair, for the skip conjunct. -/
def adOnlyDoc : Cs :=
  ("<meta name=\"ad.size\" content=\"width=120,height=600\">").data

/-- A document with only a body width in its style block, for the fallback
conjunct. -/
def bodyCssOnlyDoc : Cs :=
  ("<style>body").data ++ [lbraceC] ++ ("width:100px").data ++ [rbraceC] ++
    ("</style>").data

/-- Witness for C4 as amended: each conjunct applied to a concrete
document. -/
theorem C4_witness :
    dimsOf adOnlyDoc ("ad.html").data = (120, 600) ∧
      whDiv styleDivDoc = (50, 60) ∧
      styleApply bodyHtmlCssDoc (0, 0) = (100, 200) ∧
      dimsOf bodyCssOnlyDoc ("ad.html").data = (800, 600) := by
  refine ⟨?_, ?_, ?_, ?_⟩
  · have h := C4_amended_cascade_behaviour.1 adOnlyDoc (("ad.html").data)
      (by decide)
    rw [h]; decide
  · exact C4_amended_cascade_behaviour.2.2.1 styleDivDoc 100 (50, 60)
      (by decide) (by decide)
  · have h := C4_amended_cascade_behaviour.2.2.2.1 bodyHtmlCssDoc
      bodyHtmlCssDoc
      [(1, ("body").data ++ [lbraceC] ++ ("width:100px").data ++ [rbraceC] ++
        (" html").data ++ [lbraceC] ++ ("height:200px").data ++ [rbraceC])]
      (("body").data ++ [lbraceC] ++ ("width:100px").data)
      [(1, ("100").data)]
      (("html").data ++ [lbraceC] ++ ("height:200px").data)
      [(1, ("200").data)]
      (by decide) (by decide) (by decide) (by decide) (by decide)
    rw [h]; decide
  · exact C4_amended_cascade_behaviour.2.2.2.2 bodyCssOnlyDoc
      (("ad.html").data) 100 (by decide)

/-!
## Claim C7
-/

/-- The continuation test fails exactly when both components are nonzero. -/
theorem needDims_false_iff {wh : Nat × Nat} :
    needDims wh = false ↔ wh.1 ≠ 0 ∧ wh.2 ≠ 0 := by
  simp [needDims]

/-- C7: when every dimension detector yields nothing and the filename
yields no usable name, the result is exactly width 800, height 600 and the
pure-dimensions name; and on all inputs whatsoever the returned width and
height are positive. -/
theorem C7_default_dimensions_and_name :
    (∀ html fname : Cs,
        adSizePair html = none → viewportPair html = none →
        bodyStylePair html = none → htmlStylePair html = none →
        matchOne true reStyleTag html = none → divStylePair html = none →
        commentPair html = none → dataFormatPair html = none →
        filenamePair fname = none →
        nameFromTitle html = [] → nameFromMeta html = [] →
        cleanFilename fname = [] →
        detectDimensions html fname = (800, 600, ("800×600").data)) ∧
    (∀ html fname : Cs, 0 < (detectDimensions html fname).1 ∧
        0 < (detectDimensions html fname).2.1) := by
  constructor
  · intro html fname h1 h2 h3 h4 h5 h6 h7 h8 h9 hT hM hC
    have w1 : whAd html = (0, 0) := by simp [whAd, h1, applyPair]
    have w2 : whViewport html = (0, 0) := by
      simp [whViewport, w1, needDims, h2, applyPair]
    have w3 : whBody html = (0, 0) := by
      simp [whBody, w2, needDims, h3, applyPair]
    have w4 : whHtmlTag html = (0, 0) := by
      simp [whHtmlTag, w3, needDims, h4, applyPair]
    have w5 : whStyle html = (0, 0) := by
      simp [whStyle, w4, needDims, styleApply, h5]
    have w6 : whDiv html = (0, 0) := by
      simp [whDiv, w5, needDims, h6, applyPair]
    have w7 : whComment html = (0, 0) := by
      simp [whComment, w6, needDims, h7, applyPair]
    have w8 : whDataFormat html = (0, 0) := by
      simp [whDataFormat, w7, needDims, h8, applyPair]
    have w9 : whFilename html fname = (0, 0) := by
      simp [whFilename, w8, needDims, h9, applyPair]
    have hd : dimsOf html fname = (800, 600) := by
      simp [dimsOf, w9, needDims]
    have hf : nameFromFile fname = [] := by
      simp [nameFromFile, hC, lowerS]
      decide
    have hn : detectName html fname = ("800×600").data := by
      simp [detectName, hT, hM, hf, hd]
      decide
    simp only [detectDimensions, hd, hn]
  · intro html fname
    rw [detectDimensions_width, detectDimensions_height]
    by_cases h : needDims (whFilename html fname) = true
    · simp [dimsOf, h]
    · have h' : needDims (whFilename html fname) = false :=
        Bool.eq_false_iff.mpr h
      have hp := needDims_false_iff.mp h'
      simp only [dimsOf, h', Bool.false_eq_true, if_false]
      exact ⟨Nat.pos_of_ne_zero hp.1, Nat.pos_of_ne_zero hp.2⟩

/-- Witness for C7: the first part applied to the empty document and empty
filename, every detector hypothesis checked by evaluation, and the second
part applied to a concrete document. -/
theorem C7_witness :
    detectDimensions [] [] = (800, 600, ("800×600").data) ∧
      0 < (detectDimensions ("<p>x</p>").data ("y.html").data).1 ∧
      0 < (detectDimensions ("<p>x</p>").data ("y.html").data).2.1 := by
  refine ⟨C7_default_dimensions_and_name.1 [] [] (by decide) (by decide)
    (by decide) (by decide) (by decide) (by decide) (by decide) (by decide)
    (by decide) (by decide) (by decide) (by decide), ?_, ?_⟩
  · exact (C7_default_dimensions_and_name.2 (("<p>x</p>").data)
      (("y.html").data)).1
  · exact (C7_default_dimensions_and_name.2 (("<p>x</p>").data)
      (("y.html").data)).2

/-!
## Lemmas about the entry loop
-/

/-- The asset treatment of one entry: skip directories, otherwise run the
asset branch.  This is how the loop body reads once a document has been
chosen, and also for any entry not named with the document extension. -/
def assetStep (st : LoopSt) (e : ZipEntry) : Except Unit LoopSt :=
  if e.isDir then .ok st else handleAsset st e

/-- The entry loop restricted to the asset treatment. -/
def assetRun : LoopSt → List ZipEntry → Except Unit LoopSt
  | st, [] => .ok st
  | st, e :: es =>
    match assetStep st e with
    | .error u => .error u
    | .ok st2 => assetRun st2 es

/-- Decidable equality of loop results. -/
instance : DecidableEq (Except Unit LoopSt) := fun a b =>
  match a, b with
  | .error e1, .error e2 => .isTrue (by rfl)
  | .error _, .ok _ => .isFalse (by simp)
  | .ok _, .error _ => .isFalse (by simp)
  | .ok a1, .ok a2 =>
    if h : a1 = a2 then .isTrue (by rw [h]) else .isFalse (by simp [h])

/-- Sequencing of loop results. -/
def exBind (x : Except Unit LoopSt) (f : LoopSt → Except Unit LoopSt) :
    Except Unit LoopSt :=
  match x with
  | .error u => .error u
  | .ok a => f a

/-- Association lookup. -/
def lookupA : List (Cs × α) → Cs → Option α
  | [], _ => none
  | (k0, v) :: rest, k => if k0 = k then some v else lookupA rest k

theorem lookupA_assocSet (m : List (Cs × α)) (k : Cs) (v : α) :
    lookupA (assocSet m k v) k = some v := by
  induction m with
  | nil => simp [assocSet, lookupA]
  | cons p rest ih =>
    by_cases h : p.1 = k
    · simp [assocSet, lookupA, h]
    · simp [assocSet, lookupA, h, ih]

/-- The asset branch never touches the chosen document. -/
theorem handleAsset_preserves {st st2 : LoopSt} {e : ZipEntry}
    (h : handleAsset st e = .ok st2) :
    st2.htmlFile = st.htmlFile ∧ st2.htmlContent = st.htmlContent := by
  unfold handleAsset at h
  split at h
  · cases h; exact ⟨rfl, rfl⟩
  · cases hc : e.content with
    | none => rw [hc] at h; cases h
    | some d => rw [hc] at h; cases h; exact ⟨rfl, rfl⟩

/-- The asset treatment never touches the chosen document. -/
theorem assetStep_preserves {st st2 : LoopSt} {e : ZipEntry}
    (h : assetStep st e = .ok st2) :
    st2.htmlFile = st.htmlFile ∧ st2.htmlContent = st.htmlContent := by
  unfold assetStep at h
  split at h
  · cases h; exact ⟨rfl, rfl⟩
  · exact handleAsset_preserves h

/-- The asset loop never touches the chosen document. -/
theorem assetRun_preserves :
    ∀ (es : List ZipEntry) (st st2 : LoopSt), assetRun st es = .ok st2 →
      st2.htmlFile = st.htmlFile ∧ st2.htmlContent = st.htmlContent := by
  intro es
  induction es with
  | nil => intro st st2 h; cases h; exact ⟨rfl, rfl⟩
  | cons e es ih =>
    intro st st2 h
    unfold assetRun at h
    cases hs : assetStep st e with
    | error u => rw [hs] at h; cases h
    | ok st1 =>
      rw [hs] at h
      have h1 := assetStep_preserves hs
      have h2 := ih st1 st2 h
      exact ⟨h2.1.trans h1.1, h2.2.trans h1.2⟩

/-- Once a document has been chosen, the rest of the loop is the plain
asset loop. -/
theorem runLoop_after_doc {hf : Cs} :
    ∀ (es : List ZipEntry) (st : LoopSt), st.htmlFile = some hf →
      runLoop st es = assetRun st es := by
  intro es
  induction es with
  | nil => intro st h; rfl
  | cons e es ih =>
    intro st h
    have hstep : loopStep st e = assetStep st e := by
      simp [loopStep, assetStep, h]
    unfold runLoop assetRun
    rw [hstep]
    cases hs : assetStep st e with
    | error u => rfl
    | ok st1 =>
      have h1 := assetStep_preserves hs
      exact ih st1 (h1.1.trans h)

/-- Over entries none of which is a non-directory document entry, the loop
is the plain asset loop. -/
theorem runLoop_no_docs :
    ∀ (es : List ZipEntry) (st : LoopSt),
      (∀ e ∈ es, e.isDir = true ∨ endsWithS (".html").data e.name = false) →
      runLoop st es = assetRun st es := by
  intro es
  induction es with
  | nil => intro st _; rfl
  | cons e es ih =>
    intro st h
    have he := h e (List.mem_cons_self e es)
    have hstep : loopStep st e = assetStep st e := by
      cases he with
      | inl hd => simp [loopStep, assetStep, hd]
      | inr hh => simp [loopStep, assetStep, hh]
    unfold runLoop assetRun
    rw [hstep]
    cases hs : assetStep st e with
    | error u => rfl
    | ok st1 => exact ih st1 (fun x hx => h x (List.mem_cons_of_mem e hx))

/-- Splitting the loop at a list split. -/
theorem runLoop_append (xs ys : List ZipEntry) :
    ∀ st, runLoop st (xs ++ ys) =
      exBind (runLoop st xs) (fun st1 => runLoop st1 ys) := by
  induction xs with
  | nil => intro st; rfl
  | cons e es ih =>
    intro st
    simp only [List.cons_append, runLoop]
    cases hs : loopStep st e with
    | error u => simp only [hs, exBind]
    | ok st1 => simp only [hs]; exact ih st1

/-!
## Claim C8
-/

/-- The first document entry of the counterexample archive. -/
def c8entryA : ZipEntry := ⟨("a.html").data, false, some ⟨("<p>a</p>").data, [], []⟩⟩

/-- A later entry named with the document extension but with a hidden
basename. -/
def c8entryB : ZipEntry :=
  ⟨(".b.html").data, false, some ⟨("x").data, ("text/html").data, [1, 2]⟩⟩

/-- Counterexample to C8 as stated: the later document-named entry has a
dot-prefixed basename, so the asset branch skips it; the finished bundle
has an empty asset map, although the claim says every later entry ending in
the document extension is keyed by basename in the asset map. -/
theorem C8_counterexample :
    endsWithS (".html").data c8entryB.name = true ∧
      c8entryB.isDir = false ∧ c8entryB.content.isSome = true ∧
      (processZipFile 9 ("a.zip").data (some [c8entryA, c8entryB])
        ⟨[], none⟩).1.formatContents.map (fun p => p.2.assets) = [[]] := by
  exact ⟨by decide, by decide, by decide, by decide⟩

/-- C8 as amended: the first non-directory entry named with the document
extension becomes the primary document, and the whole rest of the archive,
the earlier entries and the later ones including any further
document-named entries, is processed by the plain asset branch; an entry
the skip rules admit is keyed by basename in the asset map with its data
URL. -/
theorem C8_amended_first_wins_rest_assets :
    (∀ (pre post : List ZipEntry) (d : ZipEntry) (dd : EntryData),
        (∀ e ∈ pre, e.isDir = true ∨ endsWithS (".html").data e.name = false) →
        d.isDir = false → endsWithS (".html").data d.name = true →
        d.content = some dd →
        runLoop initLoopSt (pre ++ d :: post) =
          exBind (assetRun initLoopSt pre) (fun st1 =>
            assetRun ⟨some d.name, dd.text, st1.assets⟩ post)) ∧
    (∀ (st : LoopSt) (e : ZipEntry) (ed : EntryData), e.isDir = false →
        isPrefixOfS (".").data (basenameOf e.name) = false →
        isPrefixOfS ("__MACOSX").data (basenameOf e.name) = false →
        e.content = some ed →
        assetStep st e = .ok ⟨st.htmlFile, st.htmlContent,
          assocSet st.assets (basenameOf e.name) (assetDataUrl e ed)⟩ ∧
        lookupA (assocSet st.assets (basenameOf e.name) (assetDataUrl e ed))
          (basenameOf e.name) = some (assetDataUrl e ed)) := by
  constructor
  · intro pre post d dd hpre hdir hname hcont
    rw [runLoop_append, runLoop_no_docs pre initLoopSt hpre]
    cases hres : assetRun initLoopSt pre with
    | error u => rfl
    | ok st1 =>
      simp only [exBind]
      have hfile : st1.htmlFile = none :=
        (assetRun_preserves pre initLoopSt st1 hres).1
      obtain ⟨f1, c1, a1⟩ := st1
      simp only [LoopSt.htmlFile] at hfile
      subst hfile
      have hstep : loopStep ⟨none, c1, a1⟩ d =
          .ok ⟨some d.name, dd.text, a1⟩ := by
        simp [loopStep, hdir, hname, hcont]
      unfold runLoop
      rw [hstep]
      exact runLoop_after_doc post _ rfl
  · intro st e ed hdir hdot hmac hcont
    refine ⟨?_, lookupA_assocSet _ _ _⟩
    obtain ⟨f0, c0, a0⟩ := st
    simp [assetStep, handleAsset, hdir, hdot, hmac, hcont]

/-- A directory entry for the C8 witness. -/
def c8dirEntry : ZipEntry := ⟨("css/").data, true, none⟩

/-- The document entry for the C8 witness. -/
def c8docEntry : ZipEntry :=
  ⟨("index8.html").data, false, some ⟨("<q>").data, [], []⟩⟩

/-- A later document-named entry for the C8 witness. -/
def c8laterEntry : ZipEntry :=
  ⟨("later.html").data, false, some ⟨("z").data, ("text/html").data, [3]⟩⟩

/-- Witness for C8 as amended: a concrete archive with a directory before
the document and a document-named entry after it; the later entry ends up
in the asset map keyed by its basename. -/
theorem C8_witness :
    runLoop initLoopSt [c8dirEntry, c8docEntry, c8laterEntry] =
      .ok ⟨some (("index8.html").data), ("<q>").data,
        [(("later.html").data, ("data:text/html;base64,Aw==").data)]⟩ ∧
      assetStep initLoopSt c8laterEntry =
        .ok ⟨none, [],
          [(("later.html").data, ("data:text/html;base64,Aw==").data)]⟩ := by
  constructor
  · have h := C8_amended_first_wins_rest_assets.1 [c8dirEntry] [c8laterEntry]
      c8docEntry ⟨("<q>").data, [], []⟩ (by decide) (by decide) (by decide)
      (by decide)
    rw [show [c8dirEntry, c8docEntry, c8laterEntry] =
      [c8dirEntry] ++ c8docEntry :: [c8laterEntry] from rfl, h]
    decide
  · have h := (C8_amended_first_wins_rest_assets.2 initLoopSt c8laterEntry
      ⟨("z").data, ("text/html").data, [3]⟩ (by decide) (by decide)
      (by decide) (by decide)).1
    rw [h]
    decide

/-!
## Claim C10
-/

/-- C10: the document check runs before the skip check.  A non-directory
entry named with the document extension is accepted as the primary document
even when its basename begins with a dot or with the metadata prefix; by
contrast, an entry not named with the document extension and with such a
basename is silently skipped by the asset branch. -/
theorem C10_doc_check_before_skip_check :
    (∀ (st : LoopSt) (d : ZipEntry) (dd : EntryData), st.htmlFile = none →
        d.isDir = false → endsWithS (".html").data d.name = true →
        isPrefixOfS (".").data (basenameOf d.name) = true ∨
          isPrefixOfS ("__MACOSX").data (basenameOf d.name) = true →
        d.content = some dd →
        loopStep st d = .ok ⟨some d.name, dd.text, st.assets⟩) ∧
    (∀ (st : LoopSt) (e : ZipEntry), e.isDir = false →
        endsWithS (".html").data e.name = false →
        isPrefixOfS (".").data (basenameOf e.name) = true ∨
          isPrefixOfS ("__MACOSX").data (basenameOf e.name) = true →
        loopStep st e = .ok st) := by
  constructor
  · intro st d dd hfile hdir hname _ hcont
    obtain ⟨f0, c0, a0⟩ := st
    simp only [LoopSt.htmlFile] at hfile
    subst hfile
    simp [loopStep, hdir, hname, hcont]
  · intro st e hdir hname hskip
    have hb : (isPrefixOfS (".").data (basenameOf e.name) ||
        isPrefixOfS ("__MACOSX").data (basenameOf e.name)) = true := by
      cases hskip with
      | inl h => simp [h]
      | inr h => simp [h]
    simp [loopStep, hdir, hname, handleAsset, hb]

/-- A hidden document entry for the C10 witness. -/
def c10docEntry : ZipEntry :=
  ⟨(".hidden.html").data, false, some ⟨("<p>h</p>").data, [], []⟩⟩

/-- A hidden non-document entry for the C10 witness. -/
def c10assetEntry : ZipEntry := ⟨(".thumb.png").data, false, some ⟨[], [], [7]⟩⟩

/-- Witness for C10: a dot-basename document entry is accepted as the
document, a dot-basename asset entry is skipped. -/
theorem C10_witness :
    loopStep initLoopSt c10docEntry =
      .ok ⟨some ((".hidden.html").data), ("<p>h</p>").data, []⟩ ∧
      loopStep initLoopSt c10assetEntry = .ok initLoopSt := by
  constructor
  · exact C10_doc_check_before_skip_check.1 initLoopSt c10docEntry
      ⟨("<p>h</p>").data, [], []⟩ (by decide) (by decide) (by decide)
      (Or.inl (by decide)) (by decide)
  · exact C10_doc_check_before_skip_check.2 initLoopSt c10assetEntry
      (by decide) (by decide) (Or.inl (by decide))

/-!
## Claim C5
-/

/-- The document entry of the C5 counterexample archive. -/
def c5doc : ZipEntry :=
  ⟨("index.html").data, false, some ⟨("<p>hi</p>").data, [], []⟩⟩

/-- An asset entry whose decode throws. -/
def c5bad : ZipEntry := ⟨("bad.png").data, false, none⟩

/-- Counterexample to C5 as stated: the claim says a failing asset decode
skips only that asset and a bundle without it is still produced; but the
loop has no per-asset handler, the throw reaches the per-archive handler,
the failure notice is produced, and no bundle at all is inserted. -/
theorem C5_counterexample :
    processZipFile 5 ("a.zip").data (some [c5doc, c5bad]) ⟨[], none⟩ =
      (⟨[], none⟩, errFailed) := by
  decide

/-- C5 as amended: when the decode of one reached, non-skipped asset entry
throws, ingestion of the whole archive aborts: the failure notice is
produced, the tool state is unchanged, and no bundle, partial or otherwise,
is inserted. -/
theorem C5_amended_decode_failure_aborts_archive :
    ∀ (now : Nat) (fname : Cs) (pre post : List ZipEntry) (e : ZipEntry)
      (st : ToolState) (st1 : LoopSt),
      endsWithS (".zip").data fname = true →
      runLoop initLoopSt pre = .ok st1 →
      e.isDir = false →
      ¬(endsWithS (".html").data e.name = true ∧ st1.htmlFile = none) →
      isPrefixOfS (".").data (basenameOf e.name) = false →
      isPrefixOfS ("__MACOSX").data (basenameOf e.name) = false →
      e.content = none →
      processZipFile now fname (some (pre ++ e :: post)) st = (st, errFailed) := by
  intro now fname pre post e st st1 hzip hpre hdir hnotdoc hdot hmac hcont
  have hstep : loopStep st1 e = .error () := by
    simp [loopStep, hdir, hnotdoc, handleAsset, hdot, hmac, hcont]
  have hrun : runLoop initLoopSt (pre ++ e :: post) = .error () := by
    rw [runLoop_append, hpre]
    show runLoop st1 (e :: post) = _
    unfold runLoop
    rw [hstep]
  simp [processZipFile, hzip, hrun]

/-- Entries for the C5 witness archive. -/
def c5wDoc : ZipEntry := ⟨("a2.html").data, false, some ⟨("<i>").data, [], []⟩⟩

/-- The failing entry of the C5 witness archive. -/
def c5wBad : ZipEntry := ⟨("bad2.png").data, false, none⟩

/-- A trailing entry of the C5 witness archive. -/
def c5wTail : ZipEntry := ⟨("x.png").data, false, some ⟨[], [], [1]⟩⟩

/-- A nonempty tool state for the C5 witness. -/
def c5wState : ToolState :=
  ⟨[(("k").data, ⟨("<b>").data, [], 10, 20, ("n").data⟩)], some (("k").data)⟩

/-- Witness for C5 as amended: a concrete archive whose second entry fails
to decode leaves a nonempty tool state exactly as it was, with the failure
notice. -/
theorem C5_witness :
    processZipFile 11 ("b.zip").data (some [c5wDoc, c5wBad, c5wTail]) c5wState =
      (c5wState, errFailed) := by
  exact C5_amended_decode_failure_aborts_archive 11 (("b.zip").data) [c5wDoc]
    [c5wTail] c5wBad c5wState ⟨some (("a2.html").data), ("<i>").data, []⟩
    (by decide) (by decide) (by decide) (by decide) (by decide) (by decide)
    (by decide)

/-!
## Claim C9
-/

/-- C9: ingestion is atomic per archive.  A wrong extension, a failing
archive load, a thrown entry decode, and a missing document entry each
produce their notice and leave the whole tool state, the bundle map and
the selection pointer alike, unchanged; and on success the new state is
exactly the old one with the one finished bundle inserted, whose document
text has been fully rewritten, the selection pointer moving only when it
was empty. -/
theorem C9_ingestion_atomicity :
    (∀ (now : Nat) (fname : Cs) (loaded : Option (List ZipEntry))
        (st : ToolState), endsWithS (".zip").data fname = false →
        processZipFile now fname loaded st = (st, errNotZip)) ∧
    (∀ (now : Nat) (fname : Cs) (st : ToolState),
        endsWithS (".zip").data fname = true →
        processZipFile now fname none st = (st, errFailed)) ∧
    (∀ (now : Nat) (fname : Cs) (entries : List ZipEntry) (st : ToolState),
        endsWithS (".zip").data fname = true →
        runLoop initLoopSt entries = .error () →
        processZipFile now fname (some entries) st = (st, errFailed)) ∧
    (∀ (now : Nat) (fname : Cs) (entries : List ZipEntry) (st : ToolState)
        (l : LoopSt), endsWithS (".zip").data fname = true →
        runLoop initLoopSt entries = .ok l → l.htmlFile = none →
        processZipFile now fname (some entries) st = (st, errNoHtml)) ∧
    (∀ (now : Nat) (fname : Cs) (entries : List ZipEntry) (st : ToolState)
        (l : LoopSt) (hf : Cs), endsWithS (".zip").data fname = true →
        runLoop initLoopSt entries = .ok l → l.htmlFile = some hf →
        processZipFile now fname (some entries) st =
          (⟨assocSet st.formatContents
              ((detectDimensions l.htmlContent hf).2.2 ++ '_' :: natToCs now)
              ⟨inlineReferences l.assets l.htmlContent, l.assets,
                (detectDimensions l.htmlContent hf).1,
                (detectDimensions l.htmlContent hf).2.1,
                (detectDimensions l.htmlContent hf).2.2⟩,
            (match st.selectedFormat with
              | none =>
                some ((detectDimensions l.htmlContent hf).2.2 ++
                  '_' :: natToCs now)
              | some s => some s)⟩,
          successMsg (detectDimensions l.htmlContent hf).2.2
            l.assets.length)) := by
  refine ⟨?_, ?_, ?_, ?_, ?_⟩
  · intro now fname loaded st h
    simp [processZipFile, h]
  · intro now fname st h
    simp [processZipFile, h]
  · intro now fname entries st h hrun
    simp [processZipFile, h, hrun]
  · intro now fname entries st l h hrun hfile
    simp [processZipFile, h, hrun, hfile]
  · intro now fname entries st l hf h hrun hfile
    simp only [processZipFile, h, hrun, hfile, Bool.true_eq_false,
      not_true_eq_false, if_false, ite_false]

/-- The document entry of the C9 witness archive. -/
def c9doc : ZipEntry :=
  ⟨("index.html").data, false, some ⟨("<p>hi</p>").data, [], []⟩⟩

/-- The asset entry of the C9 witness archive. -/
def c9asset : ZipEntry :=
  ⟨("img/logo.png").data, false, some ⟨[], ("image/png").data, [77]⟩⟩

/-- Witness for C9: the wrong-extension, failed-load and no-document cases
leave a concrete state unchanged with their notices, and a concrete
successful archive inserts exactly one finished bundle and selects it. -/
theorem C9_witness :
    processZipFile 3 ("a.txt").data none c5wState = (c5wState, errNotZip) ∧
      processZipFile 3 ("a.zip").data none c5wState = (c5wState, errFailed) ∧
      processZipFile 3 ("a.zip").data (some [c5wTail]) c5wState =
        (c5wState, errNoHtml) ∧
      processZipFile 5 ("a.zip").data (some [c9doc, c9asset]) ⟨[], none⟩ =
        (⟨[((("index (800×600)_5").data),
            ⟨("<p>hi</p>").data,
              [(("logo.png").data, ("data:image/png;base64,TQ==").data)],
              800, 600, ("index (800×600)").data⟩)],
          some (("index (800×600)_5").data)⟩,
        ("index (800×600) loaded with 1 assets!").data) := by
  refine ⟨C9_ingestion_atomicity.1 3 (("a.txt").data) none c5wState (by decide),
    C9_ingestion_atomicity.2.1 3 (("a.zip").data) c5wState (by decide),
    C9_ingestion_atomicity.2.2.2.1 3 (("a.zip").data) [c5wTail] c5wState
      ⟨none, [], [(("x.png").data, ("data:;base64,AQ==").data)]⟩ (by decide)
      (by decide) (by decide), ?_⟩
  have h := C9_ingestion_atomicity.2.2.2.2 5 (("a.zip").data) [c9doc, c9asset]
    ⟨[], none⟩
    ⟨some (("index.html").data), ("<p>hi</p>").data,
      [(("logo.png").data, ("data:image/png;base64,TQ==").data)]⟩
    (("index.html").data) (by decide) (by decide) (by decide)
  rw [h]
  decide

/-!
## A declarative model of one reference occurrence

The two replacement patterns of the source recognise, at a position of the
document, an attribute name src or href up to case, an equals sign, an
opening quote, an optional path prefix ending in a separator, the asset
basename up to case, and a closing quote.  occHere recognises exactly this
shape at the head of a string, spelled out without the regex machinery: it
is the specification the pattern passes are later proved to implement.
-/

/-- Lower-casing of a whole string; the form in which all case-insensitive
comparisons are conducted. -/
def lcs (s : Cs) : Cs := s.map lc

/-- Is the character one of the two quotes. -/
def isQuoteC (c : Char) : Bool := c == quoteD || c == quoteS

/-- Is the character one of the two path separators. -/
def isSlashC (c : Char) : Bool := c == '/' || c == bslashC

/-- Reading an attribute name, src or href up to case, at the head. -/
def takeAttr : Cs → Option (Cs × Cs)
  | [] => none
  | [_] => none
  | [_, _] => none
  | c1 :: c2 :: c3 :: rest =>
    if ciEqS [c1, c2, c3] (("src").data) then some ([c1, c2, c3], rest)
    else
      match rest with
      | c4 :: rest2 =>
        if ciEqS [c1, c2, c3, c4] (("href").data) then
          some ([c1, c2, c3, c4], rest2)
        else none
      | [] => none

/-- Splitting a string at its first quote; quotes are recognised after
case folding, as every character test of the patterns is, case folding
leaving quotes unchanged. -/
def spanToQuote : Cs → Option (Cs × Char × Cs)
  | [] => none
  | c :: cs =>
    if isQuoteC (lc c) then some ([], c, cs)
    else
      match spanToQuote cs with
      | some (v, q, r) => some (c :: v, q, r)
      | none => none

/-- One recognised occurrence: the attribute name as written, the opening
quote, the path prefix, the basename as written, the closing quote, and
the rest of the string. -/
structure Occ where
  attrW : Cs
  q1 : Char
  path : Cs
  baseW : Cs
  q2 : Char
  rest : Cs
deriving DecidableEq

/-- Recognition of an occurrence of basename b at the head of s: an
attribute name, an equals sign, a quote, then up to the next quote a value
that ends, up to case, in b, the part before b being empty or ending in a
path separator. -/
def occHere (b : Cs) (s : Cs) : Option Occ :=
  match takeAttr s with
  | none => none
  | some (aw, s1) =>
    match s1 with
    | [] => none
    | [_] => none
    | c0 :: q1 :: s3 =>
      if lc c0 = '=' ∧ isQuoteC (lc q1) = true then
        match spanToQuote s3 with
        | some (v, q2, r) =>
          if b.length ≤ v.length ∧
              ciEqS (v.drop (v.length - b.length)) b = true ∧
              (v.length = b.length ∨
                isSlashC (lc (v.getD (v.length - b.length - 1) ' ')) = true) then
            some ⟨aw, q1, v.take (v.length - b.length),
              v.drop (v.length - b.length), q2, r⟩
          else none
        | none => none
      else none

/-- Quote-freedom of a string, after case folding. -/
def nqAll (v : Cs) : Bool := v.all (fun c => !isQuoteC (lc c))

/-- The fuelled declarative replacement: scan left to right, replace each
recognised occurrence by the attribute as written, an equals sign and the
double-quoted data URL, and continue after the closing quote. -/
def declRepF (b d : Cs) : Nat → Cs → Cs
  | 0, s => s
  | _ + 1, [] => []
  | fuel + 1, c :: cs =>
    match occHere b (c :: cs) with
    | some o =>
      o.attrW ++ '=' :: quoteD :: (d ++ quoteD :: declRepF b d fuel o.rest)
    | none => c :: declRepF b d fuel cs

/-- The declarative replacement of every occurrence of one basename. -/
def declReplace (b d s : Cs) : Cs := declRepF b d s.length s

/-- The declarative form of the whole rewriting step: the asset map is
traversed in iteration order and each asset's occurrences are replaced. -/
def declInline (assets : List (Cs × Cs)) (html : Cs) : Cs :=
  assets.foldl (fun acc fd => declReplace fd.1 fd.2 acc) html

/-- No occurrence of b starts anywhere in s. -/
def noOcc (b : Cs) : Cs → Bool
  | [] => true
  | c :: cs =>
    match occHere b (c :: cs) with
    | some _ => false
    | none => noOcc b cs

/-- A well-behaved basename: nonempty, and after lower-casing free of
quotes, separators and equals signs, with at least one dot.  Ordinary
asset filenames satisfy this. -/
def goodBase (b : Cs) : Bool :=
  !b.isEmpty &&
    b.all (fun c => !isQuoteC (lc c) && !isSlashC (lc c) && !(lc c == '=')) &&
    b.any (fun c => lc c == '.')

/-- A well-behaved inline value: after lower-casing free of quotes, dots,
equals signs and dollar signs.  A data URL whose content type has no dot
and whose base64 payload carries no padding satisfies this. -/
def goodData (d : Cs) : Bool :=
  d.all (fun c => !isQuoteC (lc c) && !(lc c == '.') && !(lc c == '=') &&
    !(lc c == '$'))

/-!
## String and class utilities for the pattern proofs
-/

theorem ciEqS_iff_lcs {a b : Cs} : ciEqS a b = true ↔ lcs a = lcs b := by
  simp [ciEqS, lcs]

theorem lcs_length (s : Cs) : (lcs s).length = s.length := by simp [lcs]

theorem ciEqS_length {a b : Cs} (h : ciEqS a b = true) : a.length = b.length := by
  have h1 := congrArg List.length (ciEqS_iff_lcs.mp h)
  simpa [lcs] using h1

theorem lcs_append (a b : Cs) : lcs (a ++ b) = lcs a ++ lcs b := by
  simp [lcs]

theorem beqc_comm (a b : Char) : (a == b) = (b == a) := by
  by_cases h : a = b
  · subst h; rfl
  · have h1 : (a == b) = false := by simpa using h
    have h2 : (b == a) = false := by simpa using (Ne.symm h)
    rw [h1, h2]

/-- All-quantification over the case-folded characters transfers along
case-insensitive equality. -/
theorem all_lc_transfer {a b : Cs} {P : Char → Bool} (h : lcs a = lcs b)
    (hb : b.all (fun c => P (lc c)) = true) :
    a.all (fun c => P (lc c)) = true := by
  have ha : a.all (fun c => P (lc c)) = (lcs a).all P := by
    simp [lcs, List.all_map]; rfl
  have hbb : b.all (fun c => P (lc c)) = (lcs b).all P := by
    simp [lcs, List.all_map]; rfl
  rw [ha, h, ← hbb]; exact hb

/-- Any-quantification over the case-folded characters transfers along
case-insensitive equality. -/
theorem any_lc_transfer {a b : Cs} {P : Char → Bool} (h : lcs a = lcs b)
    (hb : b.any (fun c => P (lc c)) = true) :
    a.any (fun c => P (lc c)) = true := by
  have ha : a.any (fun c => P (lc c)) = (lcs a).any P := by
    simp [lcs, List.any_map]; rfl
  have hbb : b.any (fun c => P (lc c)) = (lcs b).any P := by
    simp [lcs, List.any_map]; rfl
  rw [ha, h, ← hbb]; exact hb

theorem csetMatch_qcls (c : Char) : csetMatch true qcls c = isQuoteC (lc c) := by
  have h1 : lc quoteD = quoteD := by decide
  have h2 : lc quoteS = quoteS := by decide
  simp [csetMatch, qcls, eqc, isQuoteC, h1, h2, beqc_comm]

theorem csetMatch_nqcls (c : Char) : csetMatch true nqcls c = !isQuoteC (lc c) := by
  have h1 : lc quoteD = quoteD := by decide
  have h2 : lc quoteS = quoteS := by decide
  simp [csetMatch, nqcls, eqc, isQuoteC, h1, h2, beqc_comm]

theorem csetMatch_slash (c : Char) : csetMatch true slashCls c = isSlashC (lc c) := by
  have h1 : lc '/' = '/' := by decide
  have h2 : lc bslashC = bslashC := by decide
  simp [csetMatch, slashCls, eqc, isSlashC, h1, h2, beqc_comm]

theorem ciPrefix_elim : ∀ {p s : Cs}, ciPrefix true p s = true →
    p.length ≤ s.length ∧ lcs (s.take p.length) = lcs p := by
  intro p
  induction p with
  | nil => intro s _; simp [lcs]
  | cons p0 ps ih =>
    intro s h
    cases s with
    | nil => simp [ciPrefix] at h
    | cons c cs =>
      rw [ciPrefix, Bool.and_eq_true] at h
      obtain ⟨h1, h2⟩ := h
      have h3 := ih h2
      have h4 : lc p0 = lc c := by simpa [eqc] using h1
      refine ⟨Nat.succ_le_succ h3.1, ?_⟩
      simp only [List.length_cons, List.take_succ_cons, lcs, List.map_cons]
      rw [← h4]
      exact congrArg (lc p0 :: ·) h3.2

theorem ciPrefix_intro : ∀ {p w : Cs} (r : Cs), lcs w = lcs p →
    ciPrefix true p (w ++ r) = true := by
  intro p
  induction p with
  | nil => intro w r h; simp [ciPrefix]
  | cons p0 ps ih =>
    intro w r h
    cases w with
    | nil => simp [lcs] at h
    | cons c ws =>
      simp only [lcs, List.map_cons, List.cons.injEq] at h
      rw [List.cons_append, ciPrefix, Bool.and_eq_true]
      exact ⟨by simp [eqc, h.1], ih r (by simpa [lcs] using h.2)⟩

theorem le_runLen_iff {ci : Bool} {k : CSet} :
    ∀ {s : Cs} {i : Nat}, i ≤ runLen ci k s ↔
      i ≤ s.length ∧ (s.take i).all (csetMatch ci k) = true := by
  intro s
  induction s with
  | nil =>
    intro i
    constructor
    · intro h; simp [runLen] at h; simp [h]
    · intro h; simpa [runLen] using h.1
  | cons c cs ih =>
    intro i
    by_cases hc : csetMatch ci k c = true
    · cases i with
      | zero => simp
      | succ j =>
        simp only [runLen, hc, if_true, Nat.succ_le_succ_iff,
          List.length_cons, List.take_succ_cons, List.all_cons,
          Bool.and_eq_true, ih]
        tauto
    · have hc2 : csetMatch ci k c = false := Bool.eq_false_iff.mpr hc
      cases i with
      | zero => simp
      | succ j =>
        rw [runLen, hc2]
        simp [hc2]

theorem spanToQuote_sound : ∀ {s v : Cs} {q : Char} {r : Cs},
    spanToQuote s = some (v, q, r) →
    s = v ++ q :: r ∧ nqAll v = true ∧ isQuoteC (lc q) = true := by
  intro s
  induction s with
  | nil => intro v q r h; simp [spanToQuote] at h
  | cons c cs ih =>
    intro v q r h
    by_cases hq : isQuoteC (lc c) = true
    · rw [spanToQuote, if_pos hq] at h
      simp only [Option.some.injEq, Prod.mk.injEq] at h
      obtain ⟨h1, h2, h3⟩ := h
      subst h1; subst h2; subst h3
      exact ⟨rfl, rfl, hq⟩
    · rw [spanToQuote, if_neg hq] at h
      cases hrec : spanToQuote cs with
      | none => rw [hrec] at h; cases h
      | some t =>
        obtain ⟨v2, q2, r2⟩ := t
        rw [hrec] at h
        simp only [Option.some.injEq, Prod.mk.injEq] at h
        obtain ⟨h1, h2, h3⟩ := h
        subst h1; subst h2; subst h3
        obtain ⟨ha, hb, hc⟩ := ih hrec
        refine ⟨by rw [ha]; rfl, ?_, hc⟩
        rw [nqAll, List.all_cons, Bool.and_eq_true]
        exact ⟨by simp [Bool.eq_false_iff.mpr hq], hb⟩

theorem spanToQuote_complete : ∀ {v : Cs} (q : Char) (r : Cs),
    nqAll v = true → isQuoteC (lc q) = true →
    spanToQuote (v ++ q :: r) = some (v, q, r) := by
  intro v
  induction v with
  | nil => intro q r _ hq; simp [spanToQuote, hq]
  | cons c vs ih =>
    intro q r hv hq
    rw [nqAll, List.all_cons, Bool.and_eq_true] at hv
    have hc : ¬isQuoteC (lc c) = true := by simp [Bool.not_eq_true] at hv ⊢; exact hv.1
    rw [List.cons_append, spanToQuote, if_neg hc, ih q r hv.2 hq]

theorem takeAttr_sound : ∀ {s aw r : Cs}, takeAttr s = some (aw, r) →
    s = aw ++ r ∧
      (lcs aw = lcs (("src").data) ∨ lcs aw = lcs (("href").data)) := by
  intro s aw r h
  cases s with
  | nil => simp [takeAttr] at h
  | cons c1 s1 =>
    cases s1 with
    | nil => simp [takeAttr] at h
    | cons c2 s2 =>
      cases s2 with
      | nil => simp [takeAttr] at h
      | cons c3 rest =>
        simp only [takeAttr] at h
        by_cases h1 : ciEqS [c1, c2, c3] (("src").data) = true
        · rw [if_pos h1] at h
          simp only [Option.some.injEq, Prod.mk.injEq] at h
          obtain ⟨ha, hb⟩ := h
          subst ha; subst hb
          exact ⟨rfl, Or.inl (ciEqS_iff_lcs.mp h1)⟩
        · rw [if_neg h1] at h
          cases rest with
          | nil => simp at h
          | cons c4 rest2 =>
            have h3 : (if ciEqS [c1, c2, c3, c4] ['h', 'r', 'e', 'f'] = true
                then some ([c1, c2, c3, c4], rest2) else none) =
                some (aw, r) := h
            by_cases h2 : ciEqS [c1, c2, c3, c4] ['h', 'r', 'e', 'f'] = true
            · rw [if_pos h2] at h3
              simp only [Option.some.injEq, Prod.mk.injEq] at h3
              obtain ⟨ha, hb⟩ := h3
              subst ha; subst hb
              exact ⟨rfl, Or.inr (ciEqS_iff_lcs.mp h2)⟩
            · rw [if_neg h2] at h3; cases h3

theorem takeAttr_complete : ∀ {aw : Cs} (t : Cs),
    (lcs aw = lcs (("src").data) ∨ lcs aw = lcs (("href").data)) →
    takeAttr (aw ++ t) = some (aw, t) := by
  intro aw t h
  cases aw with
  | nil =>
    exfalso; cases h with
    | inl h => simp [lcs] at h
    | inr h => simp [lcs] at h
  | cons a1 t1 =>
  cases t1 with
  | nil =>
    exfalso; cases h with
    | inl h => simp [lcs] at h
    | inr h => simp [lcs] at h
  | cons a2 t2 =>
  cases t2 with
  | nil =>
    exfalso; cases h with
    | inl h => simp [lcs] at h
    | inr h => simp [lcs] at h
  | cons a3 t3 =>
  cases t3 with
  | nil =>
    cases h with
    | inl h =>
      simp only [List.cons_append, List.nil_append, takeAttr]
      rw [if_pos (ciEqS_iff_lcs.mpr h)]
    | inr h => exfalso; simp [lcs] at h
  | cons a4 t4 =>
  cases t4 with
  | cons a5 t5 =>
    exfalso; cases h with
    | inl h => simp [lcs] at h
    | inr h => simp [lcs] at h
  | nil =>
    cases h with
    | inl h => exfalso; simp [lcs] at h
    | inr h =>
      have hs : ¬ciEqS [a1, a2, a3] (("src").data) = true := by
        intro hc
        have h3 := ciEqS_iff_lcs.mp hc
        simp only [lcs, List.map_cons, List.map_nil, List.cons.injEq] at h3 h
        have hh : lc a1 = lc 'h' := h.1
        have hss : lc a1 = lc 's' := h3.1
        rw [hh] at hss
        exact absurd hss (by decide)
      simp only [List.cons_append, List.nil_append, takeAttr]
      rw [if_neg hs, if_pos (ciEqS_iff_lcs.mpr h)]

theorem getD_take {l : Cs} : ∀ {k i : Nat} (d : Char), i < k →
    (l.take k).getD i d = l.getD i d := by
  induction l with
  | nil => intro k i d _; simp
  | cons c cs ih =>
    intro k i d hik
    cases k with
    | zero => cases hik
    | succ k2 =>
      cases i with
      | zero => simp
      | succ j =>
        simp only [List.take_succ_cons, List.getD_cons_succ]
        exact ih d (Nat.lt_of_succ_lt_succ hik)

theorem getD_append_left {p w : Cs} : ∀ {i : Nat} (d : Char), i < p.length →
    (p ++ w).getD i d = p.getD i d := by
  intro i d h
  simp [List.getD, List.getElem?_append_left h]

/-- Quote-freedom transfers along case-insensitive equality. -/
theorem nqAll_transfer {a b : Cs} (h : lcs a = lcs b) (hb : nqAll b = true) :
    nqAll a = true :=
  all_lc_transfer (P := fun x => !isQuoteC x) h hb

/-- What a recognised occurrence certifies about the string. -/
theorem occHere_sound : ∀ {b s : Cs} {o : Occ}, occHere b s = some o →
    (∃ e, lc e = '=' ∧
      s = o.attrW ++ e :: o.q1 :: (o.path ++ o.baseW ++ o.q2 :: o.rest)) ∧
    (lcs o.attrW = lcs (("src").data) ∨ lcs o.attrW = lcs (("href").data)) ∧
    isQuoteC (lc o.q1) = true ∧ isQuoteC (lc o.q2) = true ∧
    nqAll o.path = true ∧ nqAll o.baseW = true ∧
    lcs o.baseW = lcs b ∧
    (o.path = [] ∨
      isSlashC (lc (o.path.getD (o.path.length - 1) ' ')) = true) := by
  intro b s o h
  rw [occHere] at h
  split at h
  · cases h
  · split at h
    · cases h
    · cases h
    · rename_i aw s1 c0 q1 s3 heq
      split at h
      · rename_i hc
        split at h
        · rename_i v q2 r hsp
          split at h
          · rename_i hcond
            simp only [Option.some.injEq] at h
            subst h
            obtain ⟨hs1, hkind⟩ := takeAttr_sound heq
            obtain ⟨hs3, hnq, hq2⟩ := spanToQuote_sound hsp
            obtain ⟨hle, hci, hor⟩ := hcond
            have hrecomp : v.take (v.length - b.length) ++
                v.drop (v.length - b.length) = v := List.take_append_drop _ _
            have hnq2 : nqAll (v.take (v.length - b.length)) = true ∧
                nqAll (v.drop (v.length - b.length)) = true := by
              rw [nqAll] at hnq
              rw [← hrecomp, List.all_append, Bool.and_eq_true] at hnq
              exact ⟨hnq.1, hnq.2⟩
            refine ⟨⟨c0, hc.1, ?_⟩, hkind, hc.2, hq2, hnq2.1, hnq2.2,
              ciEqS_iff_lcs.mp hci, ?_⟩
            · rw [hs1, hs3]
              simp [hrecomp]
            · by_cases hvb : v.length = b.length
              · left
                have h0 : v.length - b.length = 0 := by omega
                rw [h0, List.take_zero]
              · right
                have hor2 :
                    isSlashC (lc (v.getD (v.length - b.length - 1) ' ')) =
                      true := by
                  cases hor with
                  | inl hh => exact absurd hh hvb
                  | inr hh => exact hh
                have hlen : (v.take (v.length - b.length)).length =
                    v.length - b.length := by
                  rw [List.length_take]; omega
                rw [hlen, getD_take _ (by omega)]
                exact hor2
          · cases h
        · cases h
      · cases h

/-- Any string of the occurrence shape is recognised, with exactly its
components. -/
theorem occHere_complete {b : Cs} (hbq : nqAll b = true)
    (aw : Cs) (e q1 : Char) (p bw : Cs) (q2 : Char) (rest : Cs)
    (he : lc e = '=')
    (haw : lcs aw = lcs (("src").data) ∨ lcs aw = lcs (("href").data))
    (hq1 : isQuoteC (lc q1) = true) (hq2 : isQuoteC (lc q2) = true)
    (hp : nqAll p = true) (hbw : lcs bw = lcs b)
    (hpe : p = [] ∨ ∃ pp sl, p = pp ++ [sl] ∧ isSlashC (lc sl) = true) :
    occHere b (aw ++ e :: q1 :: (p ++ bw ++ q2 :: rest)) =
      some ⟨aw, q1, p, bw, q2, rest⟩ := by
  have hbwq : nqAll bw = true := nqAll_transfer hbw hbq
  have hlenbw : bw.length = b.length := by
    have h1 := congrArg List.length hbw
    simpa [lcs] using h1
  have hv : nqAll (p ++ bw) = true := by
    rw [nqAll, List.all_append, Bool.and_eq_true]
    exact ⟨hp, hbwq⟩
  have hsp := spanToQuote_complete (v := p ++ bw) q2 rest hv hq2
  have hvl : (p ++ bw).length = p.length + b.length := by
    simp [List.length_append, hlenbw]
  have hsub : (p ++ bw).length - b.length = p.length := by omega
  have hdrop : (p ++ bw).drop ((p ++ bw).length - b.length) = bw := by
    rw [hsub]; exact List.drop_left p bw
  have htake : (p ++ bw).take ((p ++ bw).length - b.length) = p := by
    rw [hsub]; exact List.take_left p bw
  have hcond : b.length ≤ (p ++ bw).length ∧
      ciEqS ((p ++ bw).drop ((p ++ bw).length - b.length)) b = true ∧
      ((p ++ bw).length = b.length ∨
        isSlashC (lc ((p ++ bw).getD ((p ++ bw).length - b.length - 1) ' '))
          = true) := by
    refine ⟨by omega, by rw [hdrop]; exact ciEqS_iff_lcs.mpr hbw, ?_⟩
    cases hpe with
    | inl hnil => left; rw [hnil]; simp [hlenbw]
    | inr hcons =>
      obtain ⟨pp, sl, hppsl, hsl⟩ := hcons
      right
      have hplen : 1 ≤ p.length := by rw [hppsl]; simp
      rw [hsub, getD_append_left _ (by omega)]
      have hgd : p.getD (p.length - 1) ' ' = sl := by
        rw [hppsl]
        have hlen2 : (pp ++ [sl]).length - 1 = pp.length := by simp
        rw [hlen2]
        simp [List.getD, List.getElem?_append_right (Nat.le_refl pp.length)]
      rw [hgd]
      exact hsl
  rw [occHere, takeAttr_complete _ haw]
  dsimp only
  rw [if_pos ⟨he, hq1⟩, hsp]
  dsimp only
  rw [if_pos hcond, htake, hdrop]

/-!
## Membership characterisations of the matcher
-/

theorem mem_mtch_eps {ci : Bool} {s : Cs} {gr : Groups × Cs} :
    gr ∈ mtch ci .eps s ↔ gr = ([], s) := by
  simp [mtch]

theorem mem_mtch_lit {ci : Bool} {p s : Cs} {gr : Groups × Cs} :
    gr ∈ mtch ci (.lit p) s ↔
      ciPrefix ci p s = true ∧ gr = ([], s.drop p.length) := by
  by_cases h : ciPrefix ci p s = true
  · simp [mtch, h]
  · simp [mtch, h]

theorem mem_mtch_cls {ci : Bool} {k : CSet} {s : Cs} {gr : Groups × Cs} :
    gr ∈ mtch ci (.cls k) s ↔
      ∃ c cs, s = c :: cs ∧ csetMatch ci k c = true ∧ gr = ([], cs) := by
  cases s with
  | nil => simp [mtch]
  | cons c cs =>
    by_cases h : csetMatch ci k c = true
    · simp only [mtch, h, if_true, List.mem_singleton]
      constructor
      · intro hgr; exact ⟨c, cs, rfl, h, hgr⟩
      · rintro ⟨c1, cs1, heq, _, hgr⟩
        injection heq with h1 h2
        rw [← h2] at hgr; exact hgr
    · simp only [mtch, h, Bool.false_eq_true, if_false, List.not_mem_nil,
        false_iff]
      rintro ⟨c1, cs1, heq, hc1, _⟩
      injection heq with h1 h2
      rw [← h1] at hc1
      exact h hc1

theorem mem_mtch_cat {ci : Bool} {a b : Re} {s : Cs} {gr : Groups × Cs} :
    gr ∈ mtch ci (.cat a b) s ↔
      ∃ g1 r1 g2 r2, (g1, r1) ∈ mtch ci a s ∧ (g2, r2) ∈ mtch ci b r1 ∧
        gr = (g1 ++ g2, r2) := by
  rw [mtch]
  rw [mem_lbind]
  constructor
  · rintro ⟨x, hx, hgr⟩
    rw [List.mem_map] at hgr
    obtain ⟨y, hy, hgr⟩ := hgr
    exact ⟨x.1, x.2, y.1, y.2, hx, hy, hgr.symm⟩
  · rintro ⟨g1, r1, g2, r2, h1, h2, h3⟩
    refine ⟨(g1, r1), h1, ?_⟩
    rw [List.mem_map]
    exact ⟨(g2, r2), h2, h3.symm⟩

theorem mem_mtch_alt {ci : Bool} {a b : Re} {s : Cs} {gr : Groups × Cs} :
    gr ∈ mtch ci (.alt a b) s ↔ gr ∈ mtch ci a s ∨ gr ∈ mtch ci b s := by
  simp [mtch]

theorem mem_mtch_opt {ci : Bool} {a : Re} {s : Cs} {gr : Groups × Cs} :
    gr ∈ mtch ci (.opt a) s ↔ gr ∈ mtch ci a s ∨ gr = ([], s) := by
  simp [mtch]

theorem mem_mtch_starG {ci : Bool} {k : CSet} {s : Cs} {gr : Groups × Cs} :
    gr ∈ mtch ci (.starG k) s ↔
      ∃ i, i ≤ runLen ci k s ∧ gr = ([], s.drop i) := by
  rw [mtch]
  simp only [List.mem_map, List.mem_range]
  constructor
  · rintro ⟨j, hj, hgr⟩
    exact ⟨runLen ci k s - j, Nat.sub_le _ _, hgr.symm⟩
  · rintro ⟨i, hi, hgr⟩
    refine ⟨runLen ci k s - i, by omega, ?_⟩
    rw [show runLen ci k s - (runLen ci k s - i) = i from by omega]
    exact hgr.symm

theorem mem_mtch_plusG {ci : Bool} {k : CSet} {s : Cs} {gr : Groups × Cs} :
    gr ∈ mtch ci (.plusG k) s ↔
      ∃ c cs i, s = c :: cs ∧ csetMatch ci k c = true ∧
        i ≤ runLen ci k cs ∧ gr = ([], cs.drop i) := by
  cases s with
  | nil => simp [mtch]
  | cons c0 cs0 =>
    by_cases h : csetMatch ci k c0 = true
    · simp only [mtch, h, if_true, List.mem_map, List.mem_range]
      constructor
      · rintro ⟨j, hj, hgr⟩
        exact ⟨c0, cs0, runLen ci k cs0 - j, rfl, h, Nat.sub_le _ _, hgr.symm⟩
      · rintro ⟨c2, cs2, i, heq, _, hi, hgr⟩
        injection heq with h1 h2
        subst h1; subst h2
        refine ⟨runLen ci k cs0 - i, by omega, ?_⟩
        rw [show runLen ci k cs0 - (runLen ci k cs0 - i) = i from by omega]
        exact hgr.symm
    · simp only [mtch, h, Bool.false_eq_true, if_false, List.not_mem_nil,
        false_iff]
      rintro ⟨c2, cs2, i, heq, hc2, _, _⟩
      injection heq with h1 h2
      rw [← h1] at hc2
      exact h hc2

theorem mem_mtch_grp {ci : Bool} {n : Nat} {a : Re} {s : Cs}
    {gr : Groups × Cs} :
    gr ∈ mtch ci (.grp n a) s ↔
      ∃ g1 r1, (g1, r1) ∈ mtch ci a s ∧
        gr = ((n, s.take (s.length - r1.length)) :: g1, r1) := by
  rw [mtch]
  rw [List.mem_map]
  constructor
  · rintro ⟨x, hx, hgr⟩
    exact ⟨x.1, x.2, hx, hgr.symm⟩
  · rintro ⟨g1, r1, h1, h2⟩
    exact ⟨(g1, r1), h1, h2.symm⟩

/-!
## The escaping round trip
-/

/-- The escaping replace leaves a fragment denoting exactly the original
filename as a literal: every metacharacter ends up escaped. -/
theorem litOfEscaped_escape (f : Cs) :
    litOfEscaped (jsEscapeRegex f) = some f := by
  induction f with
  | nil => rfl
  | cons c cs ih =>
    rw [jsEscapeRegex, List.flatMap_cons]
    by_cases h : memc c reMetaChars = true
    · rw [if_pos h]
      have hfold : List.flatMap cs (fun c => if memc c reMetaChars = true
          then [bslashC, c] else [c]) = jsEscapeRegex cs := rfl
      rw [List.cons_append, List.cons_append, List.nil_append, hfold,
        litOfEscaped.eq_def]
      dsimp only
      simp only [beq_self_eq_true, if_true]
      rw [ih]
    · rw [if_neg h]
      have hfold : List.flatMap cs (fun c => if memc c reMetaChars = true
          then [bslashC, c] else [c]) = jsEscapeRegex cs := rfl
      have hnb : (c == bslashC) = false := by
        have hmem : memc bslashC reMetaChars = true := by decide
        by_cases hc : c = bslashC
        · rw [hc] at h; exact absurd hmem h
        · simpa using hc
      have hmemf : memc c reMetaChars = false := Bool.eq_false_iff.mpr h
      rw [List.cons_append, List.nil_append, hfold, litOfEscaped.eq_def]
      dsimp only
      simp only [hnb, hmemf, Bool.false_eq_true, if_false]
      rw [ih]

/-!
## The replacement patterns as functions of the plain filename, and what a
match of each subpattern certifies
-/

/-- The body of the first pattern built for filename b. -/
def pat1body (b : Cs) : Re :=
  reSeq [.grp 1 (.alt (.lit (("src").data)) (.lit (("href").data))),
    .lit (("=").data), .cls qcls,
    .opt (.grp 2 (reSeq [.starG nqcls, .cls slashCls])), .lit b, .cls qcls]

/-- The body of the second pattern built for filename b. -/
def pat2body (b : Cs) : Re :=
  reSeq [.grp 1 (.alt (.lit (("src").data)) (.lit (("href").data))),
    .lit (("=").data), .cls qcls, .lit b, .cls qcls]

theorem pattern1_escape (f : Cs) :
    pattern1 (jsEscapeRegex f) = some (pat1body f) := by
  rw [pattern1.eq_def, litOfEscaped_escape]
  rfl

theorem pattern2_escape (f : Cs) :
    pattern2 (jsEscapeRegex f) = some (pat2body f) := by
  rw [pattern2.eq_def, litOfEscaped_escape]
  rfl

theorem mem_mtch_starL {ci : Bool} {k : CSet} {s : Cs} {gr : Groups × Cs} :
    gr ∈ mtch ci (.starL k) s ↔
      ∃ i, i ≤ runLen ci k s ∧ gr = ([], s.drop i) := by
  rw [mtch]
  simp only [List.mem_map, List.mem_range]
  constructor
  · rintro ⟨j, hj, hgr⟩
    exact ⟨j, by omega, hgr.symm⟩
  · rintro ⟨i, hi, hgr⟩
    exact ⟨i, by omega, hgr.symm⟩

/-- Every candidate match consumes a prefix of the input: the remaining
input is a suffix. -/
theorem mtch_consumed {ci : Bool} : ∀ (re : Re) {s : Cs} {g : Groups}
    {r : Cs}, (g, r) ∈ mtch ci re s → ∃ w, s = w ++ r := by
  intro re
  induction re with
  | eps =>
    intro s g r h
    rw [mem_mtch_eps, Prod.mk.injEq] at h
    exact ⟨[], by rw [h.2, List.nil_append]⟩
  | cls k =>
    intro s g r h
    rw [mem_mtch_cls] at h
    obtain ⟨c, cs, hs, _, hgr⟩ := h
    rw [Prod.mk.injEq] at hgr
    exact ⟨[c], by rw [hs, hgr.2]; rfl⟩
  | lit p =>
    intro s g r h
    rw [mem_mtch_lit, Prod.mk.injEq] at h
    exact ⟨s.take p.length,
      by rw [h.2.2]; exact (List.take_append_drop _ _).symm⟩
  | cat a b iha ihb =>
    intro s g r h
    rw [mem_mtch_cat] at h
    obtain ⟨g1, r1, g2, r2, h1, h2, hgr⟩ := h
    rw [Prod.mk.injEq] at hgr
    obtain ⟨w1, hw1⟩ := iha h1
    obtain ⟨w2, hw2⟩ := ihb h2
    exact ⟨w1 ++ w2, by rw [hgr.2, hw1, hw2, List.append_assoc]⟩
  | alt a b iha ihb =>
    intro s g r h
    rw [mem_mtch_alt] at h
    cases h with
    | inl h => exact iha h
    | inr h => exact ihb h
  | opt a iha =>
    intro s g r h
    rw [mem_mtch_opt] at h
    cases h with
    | inl h => exact iha h
    | inr h =>
      rw [Prod.mk.injEq] at h
      exact ⟨[], by rw [h.2, List.nil_append]⟩
  | starG k =>
    intro s g r h
    rw [mem_mtch_starG] at h
    obtain ⟨i, _, hgr⟩ := h
    rw [Prod.mk.injEq] at hgr
    exact ⟨s.take i, by rw [hgr.2]; exact (List.take_append_drop _ _).symm⟩
  | starL k =>
    intro s g r h
    rw [mem_mtch_starL] at h
    obtain ⟨i, _, hgr⟩ := h
    rw [Prod.mk.injEq] at hgr
    exact ⟨s.take i, by rw [hgr.2]; exact (List.take_append_drop _ _).symm⟩
  | plusG k =>
    intro s g r h
    rw [mem_mtch_plusG] at h
    obtain ⟨c, cs, i, hs, _, _, hgr⟩ := h
    rw [Prod.mk.injEq] at hgr
    refine ⟨c :: cs.take i, ?_⟩
    rw [hs, hgr.2, List.cons_append]
    exact congrArg (c :: ·) (List.take_append_drop _ _).symm
  | grp n a iha =>
    intro s g r h
    rw [mem_mtch_grp] at h
    obtain ⟨g1, r1, h1, hgr⟩ := h
    rw [Prod.mk.injEq] at hgr
    rw [hgr.2]
    exact iha h1

/-- The matched text of a candidate is the consumed prefix. -/
theorem take_consumed {s w r : Cs} (h : s = w ++ r) :
    s.take (s.length - r.length) = w := by
  subst h
  rw [List.length_append, Nat.add_sub_cancel]
  exact List.take_left w r

/-- A path separator is not a quote. -/
theorem slash_not_quote {x : Char} (h : isSlashC x = true) :
    isQuoteC x = false := by
  rw [isSlashC, Bool.or_eq_true, beq_iff_eq, beq_iff_eq] at h
  cases h with
  | inl h => rw [h]; decide
  | inr h => rw [h]; decide

/-- Quote-freedom written with the matcher's class test. -/
theorem nqAll_cset {v : Cs} (h : nqAll v = true) :
    v.all (csetMatch true nqcls) = true := by
  rw [nqAll, List.all_eq_true] at h
  rw [List.all_eq_true]
  intro x hx
  rw [csetMatch_nqcls]
  exact h x hx

/-- Quote-freedom recovered from the matcher's class test. -/
theorem cset_nqAll {v : Cs} (h : v.all (csetMatch true nqcls) = true) :
    nqAll v = true := by
  rw [List.all_eq_true] at h
  rw [nqAll, List.all_eq_true]
  intro x hx
  rw [← csetMatch_nqcls]
  exact h x hx

/-- What a match of the optional path subpattern certifies: a quote-free
consumed prefix that is empty or ends in a path separator. -/
theorem path_sub_sound {g : Groups} {r s : Cs}
    (h : (g, r) ∈ mtch true (.opt (.grp 2 (.cat (.starG nqcls)
        (.cat (.cls slashCls) .eps)))) s) :
    ∃ p, s = p ++ r ∧ nqAll p = true ∧
      (p = [] ∨ ∃ pp sl, p = pp ++ [sl] ∧ isSlashC (lc sl) = true) := by
  rw [mem_mtch_opt] at h
  cases h with
  | inr h0 =>
    rw [Prod.mk.injEq] at h0
    exact ⟨[], by rw [h0.2, List.nil_append], rfl, Or.inl rfl⟩
  | inl h0 =>
    rw [mem_mtch_grp] at h0
    obtain ⟨g1, r1, h1, hgr⟩ := h0
    rw [mem_mtch_cat] at h1
    obtain ⟨gS, rS, gC, rC, hS, hC, hceq⟩ := h1
    rw [mem_mtch_starG] at hS
    obtain ⟨i, hi, hSeq⟩ := hS
    rw [Prod.mk.injEq] at hSeq
    rw [mem_mtch_cat] at hC
    obtain ⟨gSl, rSl, gE, rE, hSl, hE, heeq⟩ := hC
    rw [mem_mtch_cls] at hSl
    obtain ⟨sl, rsl, hsleq, hslm, hslgr⟩ := hSl
    rw [Prod.mk.injEq] at hslgr
    rw [mem_mtch_eps, Prod.mk.injEq] at hE
    rw [Prod.mk.injEq] at hceq heeq hgr
    refine ⟨s.take i ++ [sl], ?_, ?_, Or.inr ⟨s.take i, sl, rfl, ?_⟩⟩
    · have hr : r = rsl := by
        rw [hgr.2, hceq.2, heeq.2, hE.2, hslgr.2]
      rw [hr, List.append_assoc, List.singleton_append, ← hsleq, hSeq.2]
      exact (List.take_append_drop _ _).symm
    · rw [nqAll, List.all_append, Bool.and_eq_true]
      constructor
      · apply cset_nqAll
        exact (le_runLen_iff.mp hi).2
      · rw [List.all_cons, List.all_nil, Bool.and_true, Bool.not_eq_true']
        rw [csetMatch_slash] at hslm
        exact slash_not_quote hslm
    · rw [← csetMatch_slash]
      exact hslm

/-- What a match of the closing subpattern, the filename literal followed
by a quote, certifies. -/
theorem tail_sub_sound {b : Cs} {g : Groups} {r s : Cs}
    (h : (g, r) ∈ mtch true (.cat (.lit b) (.cat (.cls qcls) .eps)) s) :
    ∃ bw q2 rest, s = bw ++ q2 :: rest ∧ lcs bw = lcs b ∧
      isQuoteC (lc q2) = true ∧ r = rest := by
  rw [mem_mtch_cat] at h
  obtain ⟨gL, rL, gT, rT, hL, hT, hgr⟩ := h
  rw [mem_mtch_lit, Prod.mk.injEq] at hL
  obtain ⟨hp, hgL, hrL⟩ := hL
  obtain ⟨hlen, hlcs⟩ := ciPrefix_elim hp
  rw [mem_mtch_cat] at hT
  obtain ⟨gQ, rQ, gE, rE, hQ, hE, heq⟩ := hT
  rw [mem_mtch_cls] at hQ
  obtain ⟨q2, rq, hq2eq, hq2m, hq2gr⟩ := hQ
  rw [Prod.mk.injEq] at hq2gr
  rw [mem_mtch_eps, Prod.mk.injEq] at hE
  rw [Prod.mk.injEq] at heq hgr
  refine ⟨s.take b.length, q2, rq, ?_, hlcs, ?_, ?_⟩
  · have h2 : s.drop b.length = q2 :: rq := by rw [← hrL]; exact hq2eq
    rw [← h2]
    exact (List.take_append_drop _ _).symm
  · rw [← csetMatch_qcls]
    exact hq2m
  · rw [hgr.2, heq.2, hE.2, hq2gr.2]

/-- The first pattern body, unfolded to nested concatenations. -/
theorem pat1body_eq (b : Cs) : pat1body b =
    .cat (.grp 1 (.alt (.lit (("src").data)) (.lit (("href").data))))
      (.cat (.lit (("=").data)) (.cat (.cls qcls)
        (.cat (.opt (.grp 2 (.cat (.starG nqcls)
            (.cat (.cls slashCls) .eps))))
          (.cat (.lit b) (.cat (.cls qcls) .eps))))) := rfl

/-- The second pattern body, unfolded to nested concatenations. -/
theorem pat2body_eq (b : Cs) : pat2body b =
    .cat (.grp 1 (.alt (.lit (("src").data)) (.lit (("href").data))))
      (.cat (.lit (("=").data)) (.cat (.cls qcls)
        (.cat (.lit b) (.cat (.cls qcls) .eps)))) := rfl

/-- Soundness of the first pattern: every matcher candidate at the head of
s corresponds to the recognised occurrence, with the same remaining input
and the attribute as written captured as group 1. -/
theorem pat1_sound {b s : Cs} {g : Groups} {r : Cs} (hb : nqAll b = true)
    (h : (g, r) ∈ mtch true (pat1body b) s) :
    ∃ o : Occ, occHere b s = some o ∧ r = o.rest ∧
      getGroup 1 g = o.attrW := by
  rw [pat1body_eq, mem_mtch_cat] at h
  obtain ⟨gA, rA, gT1, rT1, hA, hT1, hgr⟩ := h
  rw [Prod.mk.injEq] at hgr
  rw [mem_mtch_grp] at hA
  obtain ⟨gA0, rA0, hA0, hAeq⟩ := hA
  rw [Prod.mk.injEq] at hAeq
  rw [mem_mtch_alt] at hA0
  have hattr : ∃ aw : Cs, s = aw ++ rA0 ∧ gA0 = [] ∧
      (lcs aw = lcs (("src").data) ∨ lcs aw = lcs (("href").data)) := by
    cases hA0 with
    | inl h0 =>
      rw [mem_mtch_lit, Prod.mk.injEq] at h0
      obtain ⟨hp, hg0, hr0⟩ := h0
      obtain ⟨hl, hlcs⟩ := ciPrefix_elim hp
      refine ⟨s.take ((("src").data)).length, ?_, hg0, Or.inl hlcs⟩
      rw [hr0]
      exact (List.take_append_drop _ _).symm
    | inr h0 =>
      rw [mem_mtch_lit, Prod.mk.injEq] at h0
      obtain ⟨hp, hg0, hr0⟩ := h0
      obtain ⟨hl, hlcs⟩ := ciPrefix_elim hp
      refine ⟨s.take ((("href").data)).length, ?_, hg0, Or.inr hlcs⟩
      rw [hr0]
      exact (List.take_append_drop _ _).symm
  obtain ⟨aw, hsaw, hgA0, hawk⟩ := hattr
  have hcap : s.take (s.length - rA0.length) = aw := take_consumed hsaw
  rw [mem_mtch_cat] at hT1
  obtain ⟨gE, rEq, gT2, rT2, hE, hT2, hT2eq⟩ := hT1
  rw [Prod.mk.injEq] at hT2eq
  rw [mem_mtch_lit, Prod.mk.injEq] at hE
  obtain ⟨hpEq, hgE, hrEq⟩ := hE
  have heqchar : ∃ e rA2, rA = e :: rA2 ∧ lc e = '=' ∧ rEq = rA2 := by
    cases hrA : rA with
    | nil =>
      rw [hrA] at hpEq
      exact absurd hpEq (by decide)
    | cons e rA2 =>
      rw [hrA] at hpEq hrEq
      obtain ⟨_, hlcs2⟩ := ciPrefix_elim hpEq
      refine ⟨e, rA2, rfl, ?_, hrEq⟩
      have h1 : ((("=").data)).length = 1 := rfl
      rw [h1] at hlcs2
      have h2 : (e :: rA2).take 1 = [e] := rfl
      rw [h2] at hlcs2
      have h3 : lcs [e] = [lc e] := rfl
      have h4 : lcs ((("=").data)) = ['='] := by decide
      rw [h3, h4] at hlcs2
      injection hlcs2
  obtain ⟨e, rA2, hrAe, hlce, hrEq2⟩ := heqchar
  rw [mem_mtch_cat] at hT2
  obtain ⟨gQ1, rQ1, gT3, rT3, hQ1, hT3, hT3eq⟩ := hT2
  rw [Prod.mk.injEq] at hT3eq
  rw [mem_mtch_cls] at hQ1
  obtain ⟨q1, rq1, hq1eq, hq1m, hq1gr⟩ := hQ1
  rw [Prod.mk.injEq] at hq1gr
  rw [csetMatch_qcls] at hq1m
  rw [mem_mtch_cat] at hT3
  obtain ⟨gP, rP, gT4, rT4, hP, hT4, hT4eq⟩ := hT3
  rw [Prod.mk.injEq] at hT4eq
  obtain ⟨p, hpQ, hpnq, hpend⟩ := path_sub_sound hP
  obtain ⟨bw, q2, rest, hrP, hbw, hq2, hrT4⟩ := tail_sub_sound hT4
  have hchain : rA0 = e :: q1 :: (p ++ (bw ++ q2 :: rest)) := by
    rw [← hAeq.2, hrAe]
    congr 1
    rw [← hrEq2, hq1eq]
    congr 1
    rw [← hq1gr.2, hpQ, hrP]
  refine ⟨⟨aw, q1, p, bw, q2, rest⟩, ?_, ?_, ?_⟩
  · rw [hsaw, hchain]
    have hc := occHere_complete hb aw e q1 p bw q2 rest hlce hawk hq1m hq2
      hpnq hbw hpend
    rw [List.append_assoc] at hc
    exact hc
  · rw [hgr.2, hT2eq.2, hT3eq.2, hT4eq.2, hrT4]
  · rw [hgr.1, hAeq.1, hgA0, hcap]
    simp [getGroup]

/-- Soundness of the second pattern: every matcher candidate at the head
of s corresponds to a recognised occurrence with an empty path part. -/
theorem pat2_sound {b s : Cs} {g : Groups} {r : Cs} (hb : nqAll b = true)
    (h : (g, r) ∈ mtch true (pat2body b) s) :
    ∃ o : Occ, occHere b s = some o ∧ r = o.rest := by
  rw [pat2body_eq, mem_mtch_cat] at h
  obtain ⟨gA, rA, gT1, rT1, hA, hT1, hgr⟩ := h
  rw [Prod.mk.injEq] at hgr
  rw [mem_mtch_grp] at hA
  obtain ⟨gA0, rA0, hA0, hAeq⟩ := hA
  rw [Prod.mk.injEq] at hAeq
  rw [mem_mtch_alt] at hA0
  have hattr : ∃ aw : Cs, s = aw ++ rA0 ∧
      (lcs aw = lcs (("src").data) ∨ lcs aw = lcs (("href").data)) := by
    cases hA0 with
    | inl h0 =>
      rw [mem_mtch_lit, Prod.mk.injEq] at h0
      obtain ⟨hp, hg0, hr0⟩ := h0
      obtain ⟨hl, hlcs⟩ := ciPrefix_elim hp
      refine ⟨s.take ((("src").data)).length, ?_, Or.inl hlcs⟩
      rw [hr0]
      exact (List.take_append_drop _ _).symm
    | inr h0 =>
      rw [mem_mtch_lit, Prod.mk.injEq] at h0
      obtain ⟨hp, hg0, hr0⟩ := h0
      obtain ⟨hl, hlcs⟩ := ciPrefix_elim hp
      refine ⟨s.take ((("href").data)).length, ?_, Or.inr hlcs⟩
      rw [hr0]
      exact (List.take_append_drop _ _).symm
  obtain ⟨aw, hsaw, hawk⟩ := hattr
  rw [mem_mtch_cat] at hT1
  obtain ⟨gE, rEq, gT2, rT2, hE, hT2, hT2eq⟩ := hT1
  rw [Prod.mk.injEq] at hT2eq
  rw [mem_mtch_lit, Prod.mk.injEq] at hE
  obtain ⟨hpEq, hgE, hrEq⟩ := hE
  have heqchar : ∃ e rA2, rA = e :: rA2 ∧ lc e = '=' ∧ rEq = rA2 := by
    cases hrA : rA with
    | nil =>
      rw [hrA] at hpEq
      exact absurd hpEq (by decide)
    | cons e rA2 =>
      rw [hrA] at hpEq hrEq
      obtain ⟨_, hlcs2⟩ := ciPrefix_elim hpEq
      refine ⟨e, rA2, rfl, ?_, hrEq⟩
      have h1 : ((("=").data)).length = 1 := rfl
      rw [h1] at hlcs2
      have h2 : (e :: rA2).take 1 = [e] := rfl
      rw [h2] at hlcs2
      have h3 : lcs [e] = [lc e] := rfl
      have h4 : lcs ((("=").data)) = ['='] := by decide
      rw [h3, h4] at hlcs2
      injection hlcs2
  obtain ⟨e, rA2, hrAe, hlce, hrEq2⟩ := heqchar
  rw [mem_mtch_cat] at hT2
  obtain ⟨gQ1, rQ1, gT3, rT3, hQ1, hT3, hT3eq⟩ := hT2
  rw [Prod.mk.injEq] at hT3eq
  rw [mem_mtch_cls] at hQ1
  obtain ⟨q1, rq1, hq1eq, hq1m, hq1gr⟩ := hQ1
  rw [Prod.mk.injEq] at hq1gr
  rw [csetMatch_qcls] at hq1m
  obtain ⟨bw, q2, rest, hrP, hbw, hq2, hrT4⟩ := tail_sub_sound hT3
  have hchain : rA0 = e :: q1 :: ([] ++ (bw ++ q2 :: rest)) := by
    rw [← hAeq.2, hrAe]
    congr 1
    rw [← hrEq2, hq1eq]
    congr 1
    rw [List.nil_append, ← hq1gr.2, hrP]
  refine ⟨⟨aw, q1, [], bw, q2, rest⟩, ?_, ?_⟩
  · rw [hsaw, hchain]
    have hc := occHere_complete hb aw e q1 [] bw q2 rest hlce hawk hq1m hq2
      rfl hbw (Or.inl rfl)
    rw [List.append_assoc] at hc
    exact hc
  · rw [hgr.2, hT2eq.2, hT3eq.2, hrT4]

/-- A nonempty list decomposes as an initial part and a last element, the
last element being the one read by getD at the last index. -/
theorem exists_last_of_ne_nil : ∀ {p : Cs}, p ≠ [] →
    ∃ pp sl, p = pp ++ [sl] ∧ p.getD (p.length - 1) ' ' = sl := by
  intro p
  induction p with
  | nil => intro hne; exact absurd rfl hne
  | cons c cs ih =>
    intro _
    cases cs with
    | nil => exact ⟨[], c, rfl, rfl⟩
    | cons c2 cs2 =>
      obtain ⟨pp, sl, h1, h2⟩ := ih (by simp)
      refine ⟨c :: pp, sl, by rw [List.cons_append, ← h1], ?_⟩
      have h3 : (c :: c2 :: cs2 : Cs).length - 1 =
          ((c2 :: cs2 : Cs).length - 1) + 1 := by simp
      rw [h3, List.getD_cons_succ, h2]

/-- The last-separator condition of a recognised path, in appended form. -/
theorem path_end_split {p : Cs}
    (h : p = [] ∨ isSlashC (lc (p.getD (p.length - 1) ' ')) = true) :
    p = [] ∨ ∃ pp sl, p = pp ++ [sl] ∧ isSlashC (lc sl) = true := by
  by_cases hne : p = []
  · exact Or.inl hne
  · right
    obtain ⟨pp, sl, h1, h2⟩ := exists_last_of_ne_nil hne
    cases h with
    | inl h0 => exact absurd h0 hne
    | inr h0 =>
      rw [h2] at h0
      exact ⟨pp, sl, h1, h0⟩

/-- Completeness of the first pattern: a recognised occurrence yields a
nonempty candidate list for the matcher at the same position. -/
theorem pat1_complete {b s : Cs} {o : Occ} (hb : nqAll b = true)
    (h : occHere b s = some o) : mtch true (pat1body b) s ≠ [] := by
  obtain ⟨⟨e, hlce, hs⟩, hawk, hq1, hq2, hpnq, hbnq, hbw, hpend0⟩ :=
    occHere_sound h
  have hpend := path_end_split hpend0
  have hblen : o.baseW.length = b.length := by
    have h1 := congrArg List.length hbw
    rw [lcs_length, lcs_length] at h1
    exact h1
  have hmtail : ∀ t : Cs, (([], t) : Groups × Cs) ∈
      mtch true (.cat (.lit b) (.cat (.cls qcls) .eps))
        (o.baseW ++ o.q2 :: t) := by
    intro t
    rw [mem_mtch_cat]
    refine ⟨[], o.q2 :: t, [], t, ?_, ?_, rfl⟩
    · rw [mem_mtch_lit]
      refine ⟨ciPrefix_intro _ hbw, ?_⟩
      rw [Prod.mk.injEq]
      refine ⟨rfl, ?_⟩
      rw [← hblen, List.drop_left]
    · rw [mem_mtch_cat]
      refine ⟨[], t, [], t, ?_, ?_, rfl⟩
      · rw [mem_mtch_cls]
        refine ⟨o.q2, t, rfl, ?_, rfl⟩
        rw [csetMatch_qcls]
        exact hq2
      · rw [mem_mtch_eps]
  have hmpath : ∃ gp : Groups, (gp, o.baseW ++ o.q2 :: o.rest) ∈
      mtch true (.opt (.grp 2 (.cat (.starG nqcls)
        (.cat (.cls slashCls) .eps))))
        (o.path ++ (o.baseW ++ o.q2 :: o.rest)) := by
    cases hpend with
    | inl hnil =>
      refine ⟨[], ?_⟩
      rw [hnil, List.nil_append, mem_mtch_opt]
      exact Or.inr rfl
    | inr hcons =>
      obtain ⟨pp, sl, hppsl, hsl⟩ := hcons
      refine ⟨[(2, o.path)], ?_⟩
      rw [mem_mtch_opt]
      left
      rw [mem_mtch_grp]
      refine ⟨[], o.baseW ++ o.q2 :: o.rest, ?_, ?_⟩
      · rw [mem_mtch_cat]
        refine ⟨[], sl :: (o.baseW ++ o.q2 :: o.rest), [],
          o.baseW ++ o.q2 :: o.rest, ?_, ?_, rfl⟩
        · rw [mem_mtch_starG]
          refine ⟨pp.length, ?_, ?_⟩
          · rw [le_runLen_iff]
            constructor
            · rw [hppsl]
              simp [List.length_append]
            · rw [hppsl, List.append_assoc,
                List.take_left]
              apply nqAll_cset
              rw [hppsl, nqAll, List.all_append, Bool.and_eq_true] at hpnq
              exact hpnq.1
          · rw [Prod.mk.injEq]
            refine ⟨rfl, ?_⟩
            rw [hppsl, List.append_assoc, List.drop_left,
              List.singleton_append]
        · rw [mem_mtch_cat]
          refine ⟨[], o.baseW ++ o.q2 :: o.rest, [],
            o.baseW ++ o.q2 :: o.rest, ?_, ?_, rfl⟩
          · rw [mem_mtch_cls]
            refine ⟨sl, o.baseW ++ o.q2 :: o.rest, rfl, ?_, rfl⟩
            rw [csetMatch_slash]
            exact hsl
          · rw [mem_mtch_eps]
      · rw [Prod.mk.injEq]
        refine ⟨?_, rfl⟩
        rw [take_consumed rfl]
  obtain ⟨gp, hgp⟩ := hmpath
  have hmattr : ∀ t : Cs, (([(1, o.attrW)], t) : Groups × Cs) ∈
      mtch true (.grp 1 (.alt (.lit (("src").data))
        (.lit (("href").data)))) (o.attrW ++ t) := by
    intro t
    rw [mem_mtch_grp]
    refine ⟨[], t, ?_, ?_⟩
    · rw [mem_mtch_alt]
      cases hawk with
      | inl hk =>
        left
        rw [mem_mtch_lit]
        refine ⟨ciPrefix_intro _ hk, ?_⟩
        rw [Prod.mk.injEq]
        refine ⟨rfl, ?_⟩
        have hlen : o.attrW.length = ((("src").data)).length := by
          have h1 := congrArg List.length hk
          rw [lcs_length, lcs_length] at h1
          exact h1
        rw [← hlen, List.drop_left]
      | inr hk =>
        right
        rw [mem_mtch_lit]
        refine ⟨ciPrefix_intro _ hk, ?_⟩
        rw [Prod.mk.injEq]
        refine ⟨rfl, ?_⟩
        have hlen : o.attrW.length = ((("href").data)).length := by
          have h1 := congrArg List.length hk
          rw [lcs_length, lcs_length] at h1
          exact h1
        rw [← hlen, List.drop_left]
    · rw [Prod.mk.injEq]
      refine ⟨?_, rfl⟩
      rw [take_consumed rfl]
  have hmeq : ∀ t : Cs, (([], t) : Groups × Cs) ∈
      mtch true (.lit (("=").data)) (e :: t) := by
    intro t
    rw [mem_mtch_lit]
    constructor
    · have h1 : lcs [e] = lcs ((("=").data)) := by
        have h2 : lcs [e] = [lc e] := rfl
        rw [h2, hlce]
        decide
      exact ciPrefix_intro t h1
    · rfl
  have hmq1 : ∀ t : Cs, (([], t) : Groups × Cs) ∈
      mtch true (.cls qcls) (o.q1 :: t) := by
    intro t
    rw [mem_mtch_cls]
    refine ⟨o.q1, t, rfl, ?_, rfl⟩
    rw [csetMatch_qcls]
    exact hq1
  have hmem : ∃ gr : Groups × Cs, gr ∈ mtch true (pat1body b) s := by
    refine ⟨([(1, o.attrW)] ++ ([] ++ ([] ++ (gp ++ []))), o.rest), ?_⟩
    rw [pat1body_eq, mem_mtch_cat]
    refine ⟨[(1, o.attrW)],
      e :: o.q1 :: (o.path ++ (o.baseW ++ o.q2 :: o.rest)),
      [] ++ ([] ++ (gp ++ [])), o.rest, ?_, ?_, rfl⟩
    · have hs2 : s = o.attrW ++
          (e :: o.q1 :: (o.path ++ (o.baseW ++ o.q2 :: o.rest))) := by
        rw [hs]
        congr 2
        rw [List.append_assoc]
      rw [hs2]
      exact hmattr _
    · rw [mem_mtch_cat]
      refine ⟨[], o.q1 :: (o.path ++ (o.baseW ++ o.q2 :: o.rest)),
        [] ++ (gp ++ []), o.rest, hmeq _, ?_, rfl⟩
      rw [mem_mtch_cat]
      refine ⟨[], o.path ++ (o.baseW ++ o.q2 :: o.rest),
        gp ++ [], o.rest, hmq1 _, ?_, rfl⟩
      rw [mem_mtch_cat]
      refine ⟨gp, o.baseW ++ o.q2 :: o.rest, [], o.rest, hgp, hmtail _, rfl⟩
  obtain ⟨gr, hgr⟩ := hmem
  exact List.ne_nil_of_mem hgr

/-- If no occurrence is recognised at the head, the first pattern has no
candidate there. -/
theorem pat1_none {b s : Cs} (hb : nqAll b = true)
    (h : occHere b s = none) : mtch true (pat1body b) s = [] := by
  cases hm : mtch true (pat1body b) s with
  | nil => rfl
  | cons gr tl =>
    have hmem : gr ∈ mtch true (pat1body b) s := by
      rw [hm]
      exact List.mem_cons_self gr tl
    obtain ⟨o, ho, _, _⟩ := pat1_sound hb (g := gr.1) (r := gr.2) hmem
    rw [h] at ho
    cases ho

/-- If no occurrence is recognised at the head, the second pattern has no
candidate there. -/
theorem mtch_pat2_nil {b s : Cs} (hb : nqAll b = true)
    (h : occHere b s = none) : mtch true (pat2body b) s = [] := by
  cases hm : mtch true (pat2body b) s with
  | nil => rfl
  | cons gr tl =>
    have hmem : gr ∈ mtch true (pat2body b) s := by
      rw [hm]
      exact List.mem_cons_self gr tl
    obtain ⟨o, ho, _⟩ := pat2_sound hb (g := gr.1) (r := gr.2) hmem
    rw [h] at ho
    cases ho

/-- No matcher candidate for the first pattern means no recognised
occurrence. -/
theorem occHere_none_of_mtch {b s : Cs} (hb : nqAll b = true)
    (h : mtch true (pat1body b) s = []) : occHere b s = none := by
  cases ho : occHere b s with
  | none => rfl
  | some o => exact absurd h (pat1_complete hb ho)

/-- What a successful leftmost search certifies: the decomposition of the
input, membership of the result at the match position, and that no
earlier start position has a candidate. -/
theorem search_sound {ci : Bool} {re : Re} :
    ∀ {s pre m : Cs} {g : Groups} {rest : Cs},
      search ci re s = some (pre, m, g, rest) →
      s = pre ++ (m ++ rest) ∧ (g, rest) ∈ mtch ci re (m ++ rest) ∧
        (∀ u v : Cs, s = u ++ v → u.length < pre.length →
          mtch ci re v = []) := by
  intro s
  induction s with
  | nil =>
    intro pre m g rest h
    rw [search] at h
    split at h
    · rename_i g2 rest2 tl hm
      simp only [Option.some.injEq, Prod.mk.injEq] at h
      obtain ⟨h1, h2, h3, h4⟩ := h
      have hmem : (g2, rest2) ∈ mtch ci re [] := by
        rw [hm]
        exact List.mem_cons_self _ _
      obtain ⟨w, hw⟩ := mtch_consumed _ hmem
      have hw2 : rest2 = [] := (List.append_eq_nil.mp hw.symm).2
      subst hw2
      refine ⟨?_, ?_, ?_⟩
      · rw [← h1, ← h2, ← h4]
        rfl
      · rw [← h2, ← h3, ← h4]
        exact hmem
      · intro u v huv hlt
        rw [← h1] at hlt
        simp at hlt
    · cases h
  | cons c cs ih =>
    intro pre m g rest h
    rw [search] at h
    split at h
    · rename_i g2 rest2 tl hm
      simp only [Option.some.injEq, Prod.mk.injEq] at h
      obtain ⟨h1, h2, h3, h4⟩ := h
      have hmem : (g2, rest2) ∈ mtch ci re (c :: cs) := by
        rw [hm]
        exact List.mem_cons_self _ _
      obtain ⟨w, hw⟩ := mtch_consumed _ hmem
      have htake : (c :: cs).take ((c :: cs).length - rest2.length) = w :=
        take_consumed hw
      refine ⟨?_, ?_, ?_⟩
      · rw [← h1, ← h2, ← h4, htake, List.nil_append]
        exact hw
      · rw [← h2, ← h3, ← h4, htake, ← hw]
        exact hmem
      · intro u v huv hlt
        rw [← h1] at hlt
        simp at hlt
    · rename_i hm0
      split at h
      · cases h
      · rename_i pre2 m2 g2 rest2 hs2
        simp only [Option.some.injEq, Prod.mk.injEq] at h
        obtain ⟨h1, h2, h3, h4⟩ := h
        obtain ⟨ha, hb2, hc⟩ := ih hs2
        refine ⟨?_, ?_, ?_⟩
        · rw [← h1, ← h2, ← h4, List.cons_append]
          exact congrArg (c :: ·) ha
        · rw [← h2, ← h3, ← h4]
          exact hb2
        · intro u v huv hlt
          cases u with
          | nil =>
            rw [List.nil_append] at huv
            rw [← huv]
            exact hm0
          | cons u0 us =>
            rw [List.cons_append] at huv
            injection huv with hu0 hus
            have hlt2 : us.length < pre2.length := by
              rw [← h1] at hlt
              simpa using hlt
            exact hc us v hus hlt2

/-- A failed search means no position has a candidate. -/
theorem search_none {ci : Bool} {re : Re} : ∀ {s : Cs},
    search ci re s = none →
    ∀ u v : Cs, s = u ++ v → mtch ci re v = [] := by
  intro s
  induction s with
  | nil =>
    intro h u v huv
    have hv : v = [] := (List.append_eq_nil.mp huv.symm).2
    rw [search] at h
    split at h
    · cases h
    · rename_i hm
      rw [hv]
      exact hm
  | cons c cs ih =>
    intro h u v huv
    rw [search] at h
    split at h
    · cases h
    · rename_i hm
      split at h
      · rename_i hs2
        cases u with
        | nil =>
          rw [List.nil_append] at huv
          rw [← huv]
          exact hm
        | cons u0 us =>
          rw [List.cons_append] at huv
          injection huv with hu0 hus
          exact ih hs2 us v hus
      · cases h

/-- If no position has a candidate, the search fails. -/
theorem search_eq_none {ci : Bool} {re : Re} : ∀ {s : Cs},
    (∀ u v : Cs, s = u ++ v → mtch ci re v = []) →
    search ci re s = none := by
  intro s
  induction s with
  | nil =>
    intro h
    rw [search, h [] [] rfl]
  | cons c cs ih =>
    intro h
    rw [search, h [] (c :: cs) rfl,
      ih (fun u v huv => h (c :: u) v (by rw [huv, List.cons_append]))]

/-- The declarative replacement copies a prefix in which no position
starts an occurrence. -/
theorem declRepF_copy {b d : Cs} : ∀ (pre : Cs) {t : Cs} {f : Nat},
    (∀ u v : Cs, pre = u ++ v → v ≠ [] → occHere b (v ++ t) = none) →
    declRepF b d (f + pre.length) (pre ++ t) =
      pre ++ declRepF b d f t := by
  intro pre
  induction pre with
  | nil =>
    intro t f h
    rw [List.nil_append, List.nil_append]
    rfl
  | cons c pre2 ih =>
    intro t f h
    have hocc : occHere b (c :: (pre2 ++ t)) = none := by
      have h0 := h [] (c :: pre2) rfl (by simp)
      rw [List.cons_append] at h0
      exact h0
    rw [List.cons_append]
    show declRepF b d ((f + pre2.length) + 1) (c :: (pre2 ++ t)) =
      (c :: pre2) ++ declRepF b d f t
    rw [declRepF, hocc]
    show c :: declRepF b d (f + pre2.length) (pre2 ++ t) =
      (c :: pre2) ++ declRepF b d f t
    rw [List.cons_append]
    exact congrArg (c :: ·)
      (ih (fun u v huv hne => h (c :: u) v (by rw [huv, List.cons_append]) hne))

/-- The declarative replacement is the identity when no position starts an
occurrence. -/
theorem declRepF_id {b d : Cs} : ∀ {s : Cs} {f : Nat},
    (∀ u v : Cs, s = u ++ v → occHere b v = none) →
    declRepF b d f s = s := by
  intro s
  induction s with
  | nil =>
    intro f h
    cases f <;> rfl
  | cons c cs ih =>
    intro f h
    cases f with
    | zero => rfl
    | succ f2 =>
      rw [declRepF, h [] (c :: cs) rfl]
      exact congrArg (c :: ·)
        (ih (fun u v huv => h (c :: u) v (by rw [huv, List.cons_append])))

/-- The declarative replacement of the empty string. -/
theorem declRepF_nil {b d : Cs} (f : Nat) : declRepF b d f [] = [] := by
  cases f <;> rfl

/-- A recognised occurrence consumes at least one character. -/
theorem occ_rest_length {b s : Cs} {o : Occ} (h : occHere b s = some o) :
    o.rest.length < s.length := by
  obtain ⟨⟨e, _, hs⟩, hawk, _⟩ := occHere_sound h
  have h1 := congrArg List.length hs
  simp [List.length_append] at h1
  omega

/-- The attribute of a recognised occurrence is nonempty. -/
theorem occ_attr_ne {b s : Cs} {o : Occ} (h : occHere b s = some o) :
    o.attrW ≠ [] := by
  obtain ⟨_, hawk, _⟩ := occHere_sound h
  intro hnil
  cases hawk with
  | inl hk =>
    rw [hnil] at hk
    have h1 := congrArg List.length hk
    rw [lcs_length, lcs_length] at h1
    simp at h1
  | inr hk =>
    rw [hnil] at hk
    have h1 := congrArg List.length hk
    rw [lcs_length, lcs_length] at h1
    simp at h1

/-- Substitution copies a template free of dollar signs unchanged,
fuel permitting. -/
theorem getSubF_nodollar (mm : Nat) (matched before after : Cs)
    (g : Groups) : ∀ (f : Nat) (tpl : Cs), tpl.length ≤ f →
    tpl.all (fun c => !(c == '$')) = true →
    getSubF mm matched before after g f tpl = tpl := by
  intro f
  induction f with
  | zero =>
    intro tpl hlen _
    have h0 : tpl = [] := List.length_eq_zero.mp (Nat.le_zero.mp hlen)
    rw [h0]
    rfl
  | succ k ih =>
    intro tpl hlen hall
    cases tpl with
    | nil => rfl
    | cons c rest =>
      rw [List.all_cons, Bool.and_eq_true] at hall
      have hc : ¬ c = '$' := by
        have h1 := hall.1
        rw [Bool.not_eq_true', beq_eq_false_iff_ne] at h1
        exact h1
      have hlr : rest.length ≤ k := by
        simp only [List.length_cons] at hlen
        omega
      simp only [getSubF]
      rw [if_neg hc, ih rest hlr hall.2]

/-- Substitution expands a leading dollar-1 reference to the first
capture when the group count admits it and the next character is not a
digit. -/
theorem getSubF_step1 (mm : Nat) (matched before after : Cs) (g : Groups)
    (k : Nat) (c2 : Char) (r : Cs) (hc2 : c2.isDigit = false)
    (hmm : 1 ≤ mm) :
    getSubF mm matched before after g (k + 1) ('$' :: '1' :: c2 :: r) =
      getGroup 1 g ++ getSubF mm matched before after g k (c2 :: r) := by
  have hdv : digitVal '1' = 1 := by decide
  simp only [getSubF]
  rw [if_pos trivial]
  rw [if_neg (by decide), if_neg (by decide), if_neg (by decide),
    if_neg (by decide)]
  rw [if_pos (by decide)]
  rw [if_neg (by simp [hc2])]
  rw [if_pos ⟨by decide, by rw [hdv]; exact hmm⟩, hdv]

/-- On a dollar-free data URL the source's replacement inserts the first
capture, an equals sign and the double-quoted data URL literally. -/
theorem inlineRepl_literal {d : Cs}
    (hnd : d.all (fun c => !(c == '$')) = true) {mm : Nat} (hmm : 1 ≤ mm)
    (before matched after : Cs) (g : Groups) :
    inlineRepl mm d before matched after g =
      getGroup 1 g ++ '=' :: quoteD :: (d ++ [quoteD]) := by
  have hall : ('=' :: quoteD :: (d ++ [quoteD])).all
      (fun c => !(c == '$')) = true := by
    rw [List.all_cons, List.all_cons, List.all_append]
    simp only [hnd]
    decide
  rw [inlineRepl, getSub]
  simp only [List.length_cons, List.length_append, List.length_singleton]
  rw [getSubF_step1 mm matched before after g _ '=' _ (by decide) hmm]
  congr 1
  exact getSubF_nodollar mm matched before after g _ _
    (by simp only [List.length_cons, List.length_append,
      List.length_singleton]; omega) hall

/-- The first pattern has two capturing groups. -/
theorem countGroups_pat1 (b : Cs) : countGroups (pat1body b) = 2 := rfl

/-- The second pattern has one capturing group. -/
theorem countGroups_pat2 (b : Cs) : countGroups (pat2body b) = 1 := rfl

/-- The engine replacement loop over the first pattern computes exactly
the declarative replacement, fuel permitting. -/
theorem replace_eq_decl {b d : Cs} (hb : nqAll b = true)
    (hnd : d.all (fun c => !(c == '$')) = true) {mm : Nat} (hmm : 1 ≤ mm) :
    ∀ (n : Nat) (s : Cs), s.length ≤ n →
    ∀ (f1 f2 : Nat) (acc : Cs), s.length < f1 → s.length ≤ f2 →
      replaceF true (pat1body b) (inlineRepl mm d) f1 acc s =
        declRepF b d f2 s := by
  intro n
  induction n with
  | zero =>
    intro s hs f1 f2 acc hf1 hf2
    have hs0 : s = [] := List.length_eq_zero.mp (Nat.le_zero.mp hs)
    subst hs0
    cases f1 with
    | zero => cases hf1
    | succ k =>
      have hsn : search true (pat1body b) [] = none :=
        search_eq_none (fun u v huv => by
          have hv : v = [] := (List.append_eq_nil.mp huv.symm).2
          rw [hv]
          exact pat1_none hb rfl)
      rw [replaceF, hsn, declRepF_nil]
  | succ n ih =>
    intro s hs f1 f2 acc hf1 hf2
    cases hsearch : search true (pat1body b) s with
    | none =>
      cases f1 with
      | zero => omega
      | succ k =>
        rw [replaceF, hsearch]
        have hid : declRepF b d f2 s = s :=
          declRepF_id (fun u v huv =>
            occHere_none_of_mtch hb (search_none hsearch u v huv))
        rw [hid]
    | some quad =>
      obtain ⟨pre, m, g, rest⟩ := quad
      obtain ⟨hdecomp, hmem, hmin⟩ := search_sound hsearch
      obtain ⟨o, hocc, hrest, hgrp⟩ := pat1_sound hb hmem
      obtain ⟨⟨e, hlce, hsm⟩, hawk, hq1, hq2, hpnq, hbnq, hbw, hpend⟩ :=
        occHere_sound hocc
      have hrlen := occ_rest_length hocc
      have hlens : s.length = pre.length + (m.length + rest.length) := by
        have h1 := congrArg List.length hdecomp
        simpa [List.length_append] using h1
      have hmlen : 1 ≤ m.length := by
        have h2 : (m ++ rest).length = m.length + rest.length :=
          List.length_append _ _
        have h3 : rest.length = o.rest.length := congrArg List.length hrest
        omega
      obtain ⟨c0, m2, hm0⟩ := List.exists_cons_of_ne_nil
        (List.ne_nil_of_length_pos (by omega) : m ≠ [])
      have hrl : rest.length = o.rest.length := congrArg List.length hrest
      cases f1 with
      | zero => omega
      | succ k =>
        rw [replaceF, hsearch, hm0]
        have hcond : ∀ u v : Cs, pre = u ++ v → v ≠ [] →
            occHere b (v ++ (m ++ rest)) = none := by
          intro u v huv hne
          apply occHere_none_of_mtch hb
          apply hmin u (v ++ (m ++ rest))
          · rw [hdecomp, huv, List.append_assoc]
          · have hlp := congrArg List.length huv
            simp only [List.length_append] at hlp
            have hv1 : 1 ≤ v.length := by
              cases v with
              | nil => exact absurd rfl hne
              | cons x xs => simp
            omega
        have hf2e : f2 = (f2 - pre.length) + pre.length := by omega
        have hfm : f2 - pre.length = (f2 - pre.length - 1) + 1 := by omega
        have hcons : m ++ rest = c0 :: (m2 ++ rest) := by
          rw [hm0, List.cons_append]
        have hocc2 : occHere b (c0 :: (m2 ++ rest)) = some o := by
          rw [← hcons]
          exact hocc
        have hstep : declRepF b d f2 s =
            pre ++ (o.attrW ++ '=' :: quoteD ::
              (d ++ quoteD :: declRepF b d (f2 - pre.length - 1) o.rest)) := by
          rw [hdecomp]
          conv_lhs => rw [hf2e]
          rw [declRepF_copy pre hcond]
          congr 1
          conv_lhs => rw [hfm, hcons]
          rw [declRepF, hocc2]
        rw [hstep]
        show pre ++ inlineRepl mm d (acc ++ pre) (c0 :: m2) rest g ++
            replaceF true (pat1body b) (inlineRepl mm d) k
              (acc ++ pre ++ c0 :: m2) rest =
          pre ++ (o.attrW ++ '=' :: quoteD ::
            (d ++ quoteD :: declRepF b d (f2 - pre.length - 1) o.rest))
        have hrec : replaceF true (pat1body b) (inlineRepl mm d) k
            (acc ++ pre ++ c0 :: m2) rest =
            declRepF b d (f2 - pre.length - 1) o.rest := by
          rw [hrest]
          exact ih o.rest (by omega) k (f2 - pre.length - 1)
            (acc ++ pre ++ c0 :: m2) (by omega) (by omega)
        rw [hrec, inlineRepl_literal hnd hmm, hgrp]
        simp [List.append_assoc]

/-- The global engine replacement with the first pattern is the
declarative replacement. -/
theorem replaceg_pat1_eq {b d s : Cs} {mm : Nat} (hmm : 1 ≤ mm)
    (hb : nqAll b = true)
    (hnd : d.all (fun c => !(c == '$')) = true) :
    replaceg true (pat1body b) (inlineRepl mm d) s = declReplace b d s :=
  replace_eq_decl hb hnd hmm s.length s (Nat.le_refl _) (s.length + 1)
    s.length [] (Nat.lt_succ_self _) (Nat.le_refl _)

/-- No occurrence anywhere means no occurrence at any split point. -/
theorem noOcc_split {b : Cs} : ∀ {t u v : Cs}, noOcc b t = true →
    t = u ++ v → occHere b v = none := by
  intro t
  induction t with
  | nil =>
    intro u v h huv
    have hv : v = [] := (List.append_eq_nil.mp huv.symm).2
    rw [hv]
    rfl
  | cons c cs ih =>
    intro u v h huv
    rw [noOcc] at h
    split at h
    · exact absurd h (by simp)
    · rename_i hnone
      cases u with
      | nil =>
        rw [List.nil_append] at huv
        rw [← huv]
        exact hnone
      | cons u0 us =>
        rw [List.cons_append] at huv
        injection huv with hu0 hus
        exact ih h hus

/-- No-occurrence restricted to a suffix. -/
theorem noOcc_suffix {b : Cs} : ∀ {u w : Cs},
    noOcc b (u ++ w) = true → noOcc b w = true := by
  intro u
  induction u with
  | nil =>
    intro w h
    rw [List.nil_append] at h
    exact h
  | cons c us ih =>
    intro w h
    rw [List.cons_append, noOcc] at h
    split at h
    · exact absurd h (by simp)
    · exact ih h

/-- Assembling no-occurrence over a concatenation from per-position
absence over the first part. -/
theorem noOcc_append {b : Cs} : ∀ {x y : Cs},
    (∀ u v : Cs, x = u ++ v → v ≠ [] → occHere b (v ++ y) = none) →
    noOcc b y = true → noOcc b (x ++ y) = true := by
  intro x
  induction x with
  | nil =>
    intro y _ hy
    rw [List.nil_append]
    exact hy
  | cons c xs ih =>
    intro y h hy
    rw [List.cons_append, noOcc]
    have h0 : occHere b (c :: (xs ++ y)) = none := by
      have h1 := h [] (c :: xs) rfl (by simp)
      rw [List.cons_append] at h1
      exact h1
    rw [h0]
    exact ih (fun u v huv hne => h (c :: u) v (by rw [huv, List.cons_append]) hne) hy

/-- The identity pass of the second pattern over text without
occurrences, for any replacement function. -/
theorem pass2_id {b t : Cs} (repl : Cs → Cs → Cs → Groups → Cs)
    (hb : nqAll b = true) (hno : noOcc b t = true) :
    replaceg true (pat2body b) repl t = t := by
  have hsn : search true (pat2body b) t = none :=
    search_eq_none (fun u v huv => mtch_pat2_nil hb (noOcc_split hno huv))
  show replaceF true (pat2body b) repl (t.length + 1) [] t = t
  rw [replaceF, hsn]

/-- Only a letter folding to the head of src or href can start a
recognised occurrence. -/
theorem occ_start {b : Cs} {c : Char} {t : Cs} {o : Occ}
    (h : occHere b (c :: t) = some o) : lc c = 's' ∨ lc c = 'h' := by
  obtain ⟨⟨e, _, hs⟩, hawk, _⟩ := occHere_sound h
  have hne : o.attrW ≠ [] := occ_attr_ne h
  obtain ⟨a0, arest, ha0⟩ := List.exists_cons_of_ne_nil hne
  rw [ha0, List.cons_append] at hs
  injection hs with hc _
  cases hawk with
  | inl hk =>
    rw [ha0] at hk
    have : lc a0 = 's' := by
      have h1 : lcs (a0 :: arest) = lc a0 :: lcs arest := rfl
      rw [h1] at hk
      have h2 : lcs ((("src").data)) = 's' :: lcs (("rc").data) := by decide
      rw [h2] at hk
      injection hk
    left
    rw [hc]
    exact this
  | inr hk =>
    rw [ha0] at hk
    have : lc a0 = 'h' := by
      have h1 : lcs (a0 :: arest) = lc a0 :: lcs arest := rfl
      rw [h1] at hk
      have h2 : lcs ((("href").data)) = 'h' :: lcs (("ref").data) := by decide
      rw [h2] at hk
      injection hk
    right
    rw [hc]
    exact this

/-- A character that folds to neither letter cannot start an
occurrence. -/
theorem occ_start_none {b : Cs} {c : Char} {t : Cs}
    (h1 : lc c ≠ 's') (h2 : lc c ≠ 'h') : occHere b (c :: t) = none := by
  cases ho : occHere b (c :: t) with
  | none => rfl
  | some o =>
    cases occ_start ho with
    | inl hs => exact absurd hs h1
    | inr hs => exact absurd hs h2

/-- Indexing into a dropped list. -/
theorem getD_drop : ∀ (l : Cs) (k i : Nat) (dd : Char),
    (l.drop k).getD i dd = l.getD (k + i) dd := by
  intro l
  induction l with
  | nil => intro k i dd; simp
  | cons c cs ih =>
    intro k i dd
    cases k with
    | zero => simp
    | succ k2 =>
      rw [List.drop_succ_cons, ih]
      have h1 : k2 + 1 + i = (k2 + i) + 1 := by omega
      rw [h1, List.getD_cons_succ]

/-- Indexing at the junction of a concatenation. -/
theorem getD_append_self : ∀ (x : Cs) (c : Char) (y : Cs) (dd : Char),
    (x ++ c :: y).getD x.length dd = c := by
  intro x
  induction x with
  | nil => intro c y dd; rfl
  | cons a xs ih =>
    intro c y dd
    rw [List.cons_append]
    have h1 : (a :: xs : Cs).length = xs.length + 1 := rfl
    rw [h1, List.getD_cons_succ]
    exact ih c y dd

/-- Characters of an attribute word fold to letters of src or href:
neither an equals sign nor a quote. -/
theorem aw_char {aw : Cs} {j : Nat}
    (hawk : lcs aw = lcs (("src").data) ∨ lcs aw = lcs (("href").data))
    (hj : j < aw.length) :
    lc (aw.getD j ' ') ≠ '=' ∧ isQuoteC (lc (aw.getD j ' ')) = false := by
  have hmain : ∀ (w : Cs), lcs aw = lcs w →
      (∀ i, i < w.length → lc (w.getD i ' ') ≠ '=' ∧
        isQuoteC (lc (w.getD i ' ')) = false) →
      lc (aw.getD j ' ') ≠ '=' ∧ isQuoteC (lc (aw.getD j ' ')) = false := by
    intro w hw hall
    have hlen : aw.length = w.length := by
      have h1 := congrArg List.length hw
      rw [lcs_length, lcs_length] at h1
      exact h1
    have hchar : lc (aw.getD j ' ') = lc (w.getD j ' ') := by
      have h1 := congrArg (fun l => l.getD j ' ') hw
      simp only at h1
      have h2 : ∀ (l : Cs) (i : Nat), i < l.length →
          (lcs l).getD i ' ' = lc (l.getD i ' ') := by
        intro l
        induction l with
        | nil => intro i hi; simp at hi
        | cons c cs ihl =>
          intro i hi
          cases i with
          | zero => rfl
          | succ i2 =>
            have h3 : lcs (c :: cs) = lc c :: lcs cs := rfl
            rw [h3, List.getD_cons_succ, List.getD_cons_succ]
            exact ihl i2 (by simpa using hi)
      rw [← h2 aw j hj, ← h2 w j (hlen ▸ hj)]
      rw [h1]
    rw [hchar]
    exact hall j (hlen ▸ hj)
  cases hawk with
  | inl hk =>
    apply hmain _ hk
    intro i hi
    have h3 : ((("src").data)).length = 3 := rfl
    rw [h3] at hi
    match i, hi with
    | 0, _ => exact ⟨by decide, by decide⟩
    | 1, _ => exact ⟨by decide, by decide⟩
    | 2, _ => exact ⟨by decide, by decide⟩
  | inr hk =>
    apply hmain _ hk
    intro i hi
    have h3 : ((("href").data)).length = 4 := rfl
    rw [h3] at hi
    match i, hi with
    | 0, _ => exact ⟨by decide, by decide⟩
    | 1, _ => exact ⟨by decide, by decide⟩
    | 2, _ => exact ⟨by decide, by decide⟩
    | 3, _ => exact ⟨by decide, by decide⟩

/-- A well-behaved basename is quote-free after folding. -/
theorem goodBase_nq {b : Cs} (h : goodBase b = true) : nqAll b = true := by
  rw [goodBase, Bool.and_eq_true, Bool.and_eq_true] at h
  rw [nqAll, List.all_eq_true]
  intro x hx
  have h1 := List.all_eq_true.mp h.1.2 x hx
  simp only [Bool.and_eq_true] at h1
  exact h1.1.1

/-- A well-behaved basename is nonempty. -/
theorem goodBase_ne {b : Cs} (h : goodBase b = true) : b ≠ [] := by
  intro hnil
  rw [hnil] at h
  exact absurd h (by decide)

/-- No character of a well-behaved basename folds to an equals sign. -/
theorem goodBase_char {b : Cs} (h : goodBase b = true) {c : Char}
    (hc : c ∈ b) : isQuoteC (lc c) = false ∧ lc c ≠ '=' := by
  rw [goodBase, Bool.and_eq_true, Bool.and_eq_true] at h
  have h1 := List.all_eq_true.mp h.1.2 c hc
  simp only [Bool.and_eq_true, Bool.not_eq_true'] at h1
  refine ⟨h1.1.1, ?_⟩
  have h2 := h1.2
  intro heq
  rw [heq] at h2
  exact absurd h2 (by decide)

/-- A well-behaved basename folds to a string with a dot. -/
theorem goodBase_dot {b : Cs} (h : goodBase b = true) :
    b.any (fun c => lc c == '.') = true := by
  rw [goodBase, Bool.and_eq_true, Bool.and_eq_true] at h
  exact h.2

/-- No character of a well-behaved inline value folds to a quote, a dot
or an equals sign. -/
theorem goodData_char {d : Cs} (h : goodData d = true) {c : Char}
    (hc : c ∈ d) :
    isQuoteC (lc c) = false ∧ lc c ≠ '.' ∧ lc c ≠ '=' := by
  rw [goodData] at h
  have h1 := List.all_eq_true.mp h c hc
  simp only [Bool.and_eq_true, Bool.not_eq_true'] at h1
  refine ⟨h1.1.1.1, ?_, ?_⟩
  · intro heq
    have h2 := h1.1.1.2
    rw [heq] at h2
    exact absurd h2 (by decide)
  · intro heq
    have h2 := h1.1.2
    rw [heq] at h2
    exact absurd h2 (by decide)

/-- A well-behaved inline value carries no dollar sign. -/
theorem goodData_nodollar {d : Cs} (h : goodData d = true) :
    d.all (fun c => !(c == '$')) = true := by
  rw [goodData] at h
  rw [List.all_eq_true]
  intro x hx
  have h1 := List.all_eq_true.mp h x hx
  simp only [Bool.and_eq_true, Bool.not_eq_true'] at h1
  rw [Bool.not_eq_true', beq_eq_false_iff_ne]
  intro heq
  have h2 := h1.2
  rw [heq] at h2
  exact absurd h2 (by decide)

/-- A well-behaved inline value is quote-free after folding. -/
theorem goodData_nq {d : Cs} (h : goodData d = true) : nqAll d = true := by
  rw [nqAll, List.all_eq_true]
  intro x hx
  rw [Bool.not_eq_true']
  exact (goodData_char h hx).1

/-- The attribute word of a recognised occurrence is quote-free. -/
theorem aw_nq {aw : Cs}
    (hawk : lcs aw = lcs (("src").data) ∨ lcs aw = lcs (("href").data)) :
    nqAll aw = true := by
  cases hawk with
  | inl hk => exact nqAll_transfer hk (by decide)
  | inr hk => exact nqAll_transfer hk (by decide)

/-- The attribute word has three or four characters. -/
theorem aw_length {aw : Cs}
    (hawk : lcs aw = lcs (("src").data) ∨ lcs aw = lcs (("href").data)) :
    aw.length = 3 ∨ aw.length = 4 := by
  cases hawk with
  | inl hk =>
    left
    have h1 := congrArg List.length hk
    rw [lcs_length, lcs_length] at h1
    exact h1
  | inr hk =>
    right
    have h1 := congrArg List.length hk
    rw [lcs_length, lcs_length] at h1
    exact h1

/-- Quote-freedom restricted to a suffix. -/
theorem nqAll_drop {v : Cs} (k : Nat) (h : nqAll v = true) :
    nqAll (v.drop k) = true := by
  rw [nqAll, List.all_eq_true] at h ⊢
  intro x hx
  exact h x (List.mem_of_mem_drop hx)

/-- Dropping within the first part of a concatenation. -/
theorem drop_append_le : ∀ {x : Cs} {n : Nat} (y : Cs), n ≤ x.length →
    (x ++ y).drop n = x.drop n ++ y := by
  intro x
  induction x with
  | nil =>
    intro n y h
    have h0 : n = 0 := Nat.le_zero.mp (by simpa using h)
    rw [h0]
    rfl
  | cons c xs ih =>
    intro n y h
    cases n with
    | zero => rfl
    | succ n2 =>
      rw [List.cons_append, List.drop_succ_cons, List.drop_succ_cons]
      exact ih y (by simpa using h)

/-- Taking within the first part of a concatenation. -/
theorem take_append_le : ∀ {x : Cs} {n : Nat} (y : Cs), n ≤ x.length →
    (x ++ y).take n = x.take n := by
  intro x
  induction x with
  | nil =>
    intro n y h
    have h0 : n = 0 := Nat.le_zero.mp (by simpa using h)
    rw [h0]
    rfl
  | cons c xs ih =>
    intro n y h
    cases n with
    | zero => rfl
    | succ n2 =>
      rw [List.cons_append, List.take_succ_cons, List.take_succ_cons]
      exact congrArg (c :: ·) (ih y (by simpa using h))

/-- Dropping past the first part of a concatenation. -/
theorem drop_append_plus : ∀ (x z : Cs) (k : Nat),
    (x ++ z).drop (x.length + k) = z.drop k := by
  intro x
  induction x with
  | nil => intro z k; simp
  | cons c xs ih =>
    intro z k
    rw [List.cons_append]
    have h1 : (c :: xs : Cs).length + k = (xs.length + k) + 1 := by
      simp
      omega
    rw [h1, List.drop_succ_cons]
    exact ih z k

/-- The last characters of two case-insensitively equal strings fold to
the same character. -/
theorem lcs_last {a b : Cs} {aa : Cs} {al : Char} {ba : Cs} {bl : Char}
    (h : lcs a = lcs b) (ha : a = aa ++ [al]) (hb : b = ba ++ [bl]) :
    lc al = lc bl := by
  rw [ha, hb, lcs_append, lcs_append] at h
  have h1 := congrArg List.reverse h
  rw [List.reverse_append, List.reverse_append] at h1
  have h2 : (lcs [al]).reverse = [lc al] := rfl
  have h3 : (lcs [bl]).reverse = [lc bl] := rfl
  rw [h2, h3, List.cons_append, List.cons_append] at h1
  injection h1

/-- Two decompositions of one string ending in single characters end in
the same character. -/
theorem last_of_append_singleton {x y : Cs} {a c : Char}
    (h : x ++ [a] = y ++ [c]) : a = c := by
  have hlen : x.length = y.length := by
    have h1 := congrArg List.length h
    simp only [List.length_append, List.length_cons, List.length_nil] at h1
    omega
  have h2 := congrArg (fun l => l.getD x.length ' ') h
  simp only at h2
  rw [getD_append_self] at h2
  rw [hlen] at h2
  rw [getD_append_self] at h2
  exact h2

/-- Splicing a replacement block after a copied prefix does not create an
occurrence at the head of the prefix: a window lying inside the prefix
would contradict its absence over the original continuation, and a window
reaching into the block clashes with the block's characters. -/
theorem ztrans {b2 d v s2 t attrW : Cs}
    (hb2 : goodBase b2 = true) (hd : goodData d = true)
    (hawk : lcs attrW = lcs (("src").data) ∨ lcs attrW = lcs (("href").data))
    (hvnone : v ≠ [] → occHere b2 (v ++ s2) = none) :
    occHere b2 (v ++ (attrW ++ '=' :: quoteD :: (d ++ quoteD :: t))) = none := by
  cases hocc : occHere b2 (v ++ (attrW ++ '=' :: quoteD :: (d ++ quoteD :: t))) with
  | none => rfl
  | some o =>
    exfalso
    obtain ⟨⟨e, hlce, hs⟩, hawk2, hq1, hq2, hpnq, hbnq, hbw, hpend⟩ :=
      occHere_sound hocc
    have hsW : v ++ (attrW ++ '=' :: quoteD :: (d ++ quoteD :: t)) =
        (o.attrW ++ e :: o.q1 :: (o.path ++ o.baseW ++ [o.q2])) ++ o.rest := by
      rw [hs]
      simp [List.append_assoc]
    have hblen : o.baseW.length = b2.length := by
      have h1 := congrArg List.length hbw
      rw [lcs_length, lcs_length] at h1
      exact h1
    have hb2pos : 1 ≤ b2.length := List.length_pos.mpr (goodBase_ne hb2)
    have hbWne : o.baseW ≠ [] := List.ne_nil_of_length_pos (by omega)
    have hSnq : nqAll (o.path ++ o.baseW) = true := by
      rw [nqAll, List.all_append, Bool.and_eq_true]
      exact ⟨hpnq, hbnq⟩
    have hWlen : (o.attrW ++ e :: o.q1 ::
        (o.path ++ o.baseW ++ [o.q2])).length =
        o.attrW.length + o.path.length + o.baseW.length + 3 := by
      simp only [List.length_append, List.length_cons, List.length_nil]
      omega
    by_cases hvW :
        (o.attrW ++ e :: o.q1 :: (o.path ++ o.baseW ++ [o.q2])).length ≤ v.length
    · have htakeW : v.take (o.attrW ++ e :: o.q1 ::
          (o.path ++ o.baseW ++ [o.q2])).length =
          o.attrW ++ e :: o.q1 :: (o.path ++ o.baseW ++ [o.q2]) := by
        have h2 := congrArg
          (List.take (o.attrW ++ e :: o.q1 ::
            (o.path ++ o.baseW ++ [o.q2])).length) hsW
        rw [take_append_le _ hvW, List.take_left] at h2
        exact h2
      have hvne : v ≠ [] := by
        intro hnil
        rw [hnil] at hvW
        rw [hWlen] at hvW
        have h0 : ([] : Cs).length = 0 := rfl
        rw [h0] at hvW
        omega
      have hvs2 : v ++ s2 = o.attrW ++ e :: o.q1 ::
          (o.path ++ o.baseW ++ o.q2 ::
            (v.drop (o.attrW ++ e :: o.q1 ::
              (o.path ++ o.baseW ++ [o.q2])).length ++ s2)) := by
        conv_lhs => rw [← List.take_append_drop
          (o.attrW ++ e :: o.q1 :: (o.path ++ o.baseW ++ [o.q2])).length v]
        rw [htakeW]
        simp [List.append_assoc]
      have hco := occHere_complete (goodBase_nq hb2) o.attrW e o.q1 o.path
        o.baseW o.q2
        (v.drop (o.attrW ++ e :: o.q1 ::
          (o.path ++ o.baseW ++ [o.q2])).length ++ s2)
        hlce hawk2 hq1 hq2 hpnq hbw (path_end_split hpend)
      have hnone := hvnone hvne
      rw [hvs2, hco] at hnone
      cases hnone
    · push_neg at hvW
      have hB : attrW ++ '=' :: quoteD :: (d ++ quoteD :: t) =
          (o.attrW ++ e :: o.q1 :: (o.path ++ o.baseW ++ [o.q2])).drop v.length
            ++ o.rest := by
        have h2 := congrArg (List.drop v.length) hsW
        rw [List.drop_left, drop_append_le _ (Nat.le_of_lt hvW)] at h2
        exact h2
      by_cases hvA : v.length ≤ o.attrW.length
      · have hdropW : (o.attrW ++ e :: o.q1 ::
            (o.path ++ o.baseW ++ [o.q2])).drop v.length =
            o.attrW.drop v.length ++ e :: o.q1 ::
              (o.path ++ o.baseW ++ [o.q2]) :=
          drop_append_le _ hvA
        rw [hdropW] at hB
        have hB2 : attrW ++ '=' :: quoteD :: (d ++ quoteD :: t) =
            o.attrW.drop v.length ++ e :: o.q1 ::
              (o.path ++ (o.baseW ++ o.q2 :: o.rest)) := by
          rw [hB]
          simp [List.append_assoc]
        rcases Nat.lt_trichotomy (o.attrW.drop v.length).length attrW.length
          with hlt | hleq | hgt
        · have h3 := congrArg (fun l => l.getD
            (o.attrW.drop v.length).length ' ') hB2
          simp only at h3
          rw [getD_append_left _ hlt, getD_append_self] at h3
          have h4 := (aw_char hawk hlt).1
          rw [← h3] at hlce
          exact h4 hlce
        · obtain ⟨hA2eq, htl⟩ := List.append_inj hB2.symm hleq
          injection htl with he1 htl2
          injection htl2 with hq1e htl3
          have hs1 := spanToQuote_complete quoteD t (goodData_nq hd) (by decide)
          have hs2b := spanToQuote_complete o.q2 o.rest hSnq hq2
          have hstr : (o.path ++ o.baseW) ++ o.q2 :: o.rest =
              d ++ quoteD :: t := by
            rw [← htl3, List.append_assoc]
          rw [hstr] at hs2b
          rw [hs1] at hs2b
          simp only [Option.some.injEq, Prod.mk.injEq] at hs2b
          have hdS : d = o.path ++ o.baseW := hs2b.1
          have hdotb : o.baseW.any (fun c => lc c == '.') = true :=
            any_lc_transfer (P := fun x => x == '.') hbw (goodBase_dot hb2)
          obtain ⟨cdot, hcmem, hcdot⟩ := List.any_eq_true.mp hdotb
          have hmemd : cdot ∈ d := by
            rw [hdS]
            exact List.mem_append_right _ hcmem
          have h5 := (goodData_char hd hmemd).2.1
          rw [beq_iff_eq] at hcdot
          exact h5 hcdot
        · have h3 := congrArg (fun l => l.getD attrW.length ' ') hB2
          simp only at h3
          rw [getD_append_self, getD_append_left _ hgt, getD_drop] at h3
          have hidx : v.length + attrW.length < o.attrW.length := by
            have h6 : (o.attrW.drop v.length).length =
                o.attrW.length - v.length := List.length_drop _ _
            omega
          have h4 := (aw_char hawk2 hidx).1
          rw [← h3] at h4
          exact h4 (by decide)
      · push_neg at hvA
        by_cases hvA1 : v.length = o.attrW.length + 1
        · have hdropW : (o.attrW ++ e :: o.q1 ::
              (o.path ++ o.baseW ++ [o.q2])).drop v.length =
              o.q1 :: (o.path ++ o.baseW ++ [o.q2]) := by
            rw [hvA1, drop_append_plus o.attrW
              (e :: o.q1 :: (o.path ++ o.baseW ++ [o.q2])) 1]
            rfl
          rw [hdropW] at hB
          have hB2 : attrW ++ '=' :: quoteD :: (d ++ quoteD :: t) =
              o.q1 :: ((o.path ++ o.baseW ++ [o.q2]) ++ o.rest) := by
            rw [hB, List.cons_append]
          have hawpos : 0 < attrW.length := by
            rcases aw_length hawk with h8 | h8 <;> omega
          have h3 := congrArg (fun l => l.getD 0 ' ') hB2
          simp only at h3
          rw [getD_append_left _ hawpos] at h3
          have h9 : (o.q1 ::
              ((o.path ++ o.baseW ++ [o.q2]) ++ o.rest)).getD 0 ' ' = o.q1 :=
            rfl
          rw [h9] at h3
          have h4 := (aw_char hawk hawpos).2
          rw [h3] at h4
          rw [h4] at hq1
          cases hq1
        · have hm2le : v.length - o.attrW.length - 2 ≤
              (o.path ++ o.baseW).length := by
            rw [hWlen] at hvW
            have h6 : (o.path ++ o.baseW).length =
                o.path.length + o.baseW.length := List.length_append _ _
            omega
          have hveq : v.length = o.attrW.length +
              (2 + (v.length - o.attrW.length - 2)) := by omega
          have hdropW : (o.attrW ++ e :: o.q1 ::
              (o.path ++ o.baseW ++ [o.q2])).drop v.length =
              (o.path ++ o.baseW).drop (v.length - o.attrW.length - 2)
                ++ [o.q2] := by
            conv_lhs => rw [hveq]
            rw [drop_append_plus o.attrW
              (e :: o.q1 :: (o.path ++ o.baseW ++ [o.q2]))
              (2 + (v.length - o.attrW.length - 2))]
            have h7 : 2 + (v.length - o.attrW.length - 2) =
                ((v.length - o.attrW.length - 2) + 1) + 1 := by omega
            rw [h7, List.drop_succ_cons, List.drop_succ_cons]
            exact drop_append_le _ hm2le
          rw [hdropW] at hB
          have hB2 : attrW ++ '=' :: quoteD :: (d ++ quoteD :: t) =
              (o.path ++ o.baseW).drop (v.length - o.attrW.length - 2)
                ++ o.q2 :: o.rest := by
            rw [hB]
            simp [List.append_assoc]
          have hAnq : nqAll (attrW ++ ['=']) = true := by
            rw [nqAll, List.all_append, Bool.and_eq_true]
            exact ⟨aw_nq hawk, by decide⟩
          have hs1 := spanToQuote_complete quoteD (d ++ quoteD :: t) hAnq
            (by decide)
          have hstr1 : (attrW ++ ['=']) ++ quoteD :: (d ++ quoteD :: t) =
              attrW ++ '=' :: quoteD :: (d ++ quoteD :: t) := by
            simp [List.append_assoc]
          rw [hstr1] at hs1
          have hS2nq : nqAll ((o.path ++ o.baseW).drop
              (v.length - o.attrW.length - 2)) = true :=
            nqAll_drop _ hSnq
          have hs2b := spanToQuote_complete o.q2 o.rest hS2nq hq2
          rw [← hB2] at hs2b
          rw [hs1] at hs2b
          simp only [Option.some.injEq, Prod.mk.injEq] at hs2b
          obtain ⟨bb, bl, hbl, _⟩ := exists_last_of_ne_nil hbWne
          obtain ⟨b2i, b2l, hb2l, _⟩ := exists_last_of_ne_nil (goodBase_ne hb2)
          have hlcbl : lc bl = lc b2l := lcs_last hbw hbl hb2l
          have hSdec1 : o.path ++ o.baseW = (o.path ++ bb) ++ [bl] := by
            rw [hbl, List.append_assoc]
          have hSdec2 : o.path ++ o.baseW =
              (o.path ++ o.baseW).take (v.length - o.attrW.length - 2)
                ++ (attrW ++ ['=']) := by
            conv_lhs => rw [← List.take_append_drop
              (v.length - o.attrW.length - 2) (o.path ++ o.baseW)]
            rw [← hs2b.1]
          have hSdec3 : (o.path ++ bb) ++ [bl] =
              ((o.path ++ o.baseW).take (v.length - o.attrW.length - 2)
                ++ attrW) ++ ['='] := by
            conv_lhs => rw [← hSdec1, hSdec2]
            rw [List.append_assoc]
          have hbleq : bl = '=' := last_of_append_singleton hSdec3
          have hmb2 : b2l ∈ b2 := by
            rw [hb2l]
            exact List.mem_append_right _ (List.mem_singleton_self _)
          have h13 := (goodBase_char hb2 hmb2).2
          rw [← hlcbl, hbleq] at h13
          exact h13 (by decide)

/-- An in-range getD reads an element of the list. -/
theorem getD_mem : ∀ {l : Cs} {i : Nat} (dd : Char), i < l.length →
    l.getD i dd ∈ l := by
  intro l
  induction l with
  | nil => intro i dd hi; simp at hi
  | cons c cs ih =>
    intro i dd hi
    cases i with
    | zero => exact List.mem_cons_self _ _
    | succ j =>
      rw [List.getD_cons_succ]
      exact List.mem_cons_of_mem _ (ih dd (by simpa using hi))

/-- Case-folded characters agree position by position along
case-insensitive equality. -/
theorem lcs_getD {a w : Cs} (h : lcs a = lcs w) {j : Nat}
    (hj : j < a.length) :
    lc (a.getD j ' ') = lc (w.getD j ' ') := by
  have hlen : a.length = w.length := by
    have h1 := congrArg List.length h
    rw [lcs_length, lcs_length] at h1
    exact h1
  have h2 : ∀ (l : Cs) (i : Nat), i < l.length →
      (lcs l).getD i ' ' = lc (l.getD i ' ') := by
    intro l
    induction l with
    | nil => intro i hi; simp at hi
    | cons c cs ihl =>
      intro i hi
      cases i with
      | zero => rfl
      | succ i2 =>
        have h3 : lcs (c :: cs) = lc c :: lcs cs := rfl
        rw [h3, List.getD_cons_succ, List.getD_cons_succ]
        exact ihl i2 (by simpa using hi)
  have h4 := congrArg (fun l => l.getD j ' ') h
  simp only at h4
  rw [h2 a j hj, h2 w j (hlen ▸ hj)] at h4
  exact h4

/-- A non-initial character of an attribute word folds to neither s
nor h. -/
theorem aw_char_tail {aw : Cs} {j : Nat}
    (hawk : lcs aw = lcs (("src").data) ∨ lcs aw = lcs (("href").data))
    (hj1 : 1 ≤ j) (hj : j < aw.length) :
    lc (aw.getD j ' ') ≠ 's' ∧ lc (aw.getD j ' ') ≠ 'h' := by
  cases hawk with
  | inl hk =>
    have hlen : aw.length = 3 := by
      have h1 := congrArg List.length hk
      rw [lcs_length, lcs_length] at h1
      exact h1
    rw [lcs_getD hk hj]
    rw [hlen] at hj
    match j, hj1, hj with
    | 1, _, _ => exact ⟨by decide, by decide⟩
    | 2, _, _ => exact ⟨by decide, by decide⟩
  | inr hk =>
    have hlen : aw.length = 4 := by
      have h1 := congrArg List.length hk
      rw [lcs_length, lcs_length] at h1
      exact h1
    rw [lcs_getD hk hj]
    rw [hlen] at hj
    match j, hj1, hj with
    | 1, _, _ => exact ⟨by decide, by decide⟩
    | 2, _, _ => exact ⟨by decide, by decide⟩
    | 3, _, _ => exact ⟨by decide, by decide⟩

/-- No occurrence starts inside the data part of a replacement block. -/
theorem d2_kill {b2 d u v t : Cs} (hb2 : goodBase b2 = true)
    (hd : goodData d = true) (hsplit : d = u ++ v) :
    occHere b2 (v ++ quoteD :: t) = none := by
  cases hocc : occHere b2 (v ++ quoteD :: t) with
  | none => rfl
  | some o =>
    exfalso
    obtain ⟨⟨e, hlce, hs⟩, hawk2, hq1, hq2, hpnq, hbnq, hbw, hpend⟩ :=
      occHere_sound hocc
    rcases Nat.lt_trichotomy o.attrW.length v.length with hlt | heq | hgt
    · have h3 := congrArg (fun l => l.getD o.attrW.length ' ') hs
      simp only at h3
      rw [getD_append_left _ hlt, getD_append_self] at h3
      have hmem : v.getD o.attrW.length ' ' ∈ d := by
        rw [hsplit]
        exact List.mem_append_right _ (getD_mem _ hlt)
      have h5 := (goodData_char hd hmem).2.2
      rw [h3] at h5
      exact h5 hlce
    · obtain ⟨haw_eq, htl⟩ := List.append_inj hs heq.symm
      injection htl with he _
      rw [← he] at hlce
      exact absurd hlce (by decide)
    · have h3 := congrArg (fun l => l.getD v.length ' ') hs
      simp only at h3
      rw [getD_append_self, getD_append_left _ hgt] at h3
      have h4 := (aw_char hawk2 hgt).2
      rw [← h3] at h4
      exact absurd h4 (by decide)

/-- No-occurrence extends over a character that starts none. -/
theorem noOcc_cons {b2 : Cs} {c : Char} {cs : Cs}
    (h1 : occHere b2 (c :: cs) = none) (h2 : noOcc b2 cs = true) :
    noOcc b2 (c :: cs) = true := by
  rw [noOcc, h1]
  exact h2

/-- No occurrence of a well-behaved basename starts anywhere inside or at
a replacement block followed by occurrence-free text. -/
theorem block_noOcc {b2 d attrW t : Cs} (hb2 : goodBase b2 = true)
    (hd : goodData d = true)
    (hawk : lcs attrW = lcs (("src").data) ∨ lcs attrW = lcs (("href").data))
    (ht : noOcc b2 t = true) :
    noOcc b2 (attrW ++ '=' :: quoteD :: (d ++ quoteD :: t)) = true := by
  apply noOcc_append
  · intro u v huv hne
    cases u with
    | nil =>
      rw [List.nil_append] at huv
      rw [← huv]
      have hz := @ztrans b2 d [] [] t attrW hb2 hd hawk
        (fun hc => absurd rfl hc)
      rw [List.nil_append] at hz
      exact hz
    | cons u0 us =>
      obtain ⟨c, vs, hv⟩ := List.exists_cons_of_ne_nil hne
      subst hv
      have hulen : (u0 :: us : Cs).length < attrW.length := by
        have h1 := congrArg List.length huv
        simp only [List.length_append, List.length_cons] at h1
        simp only [List.length_cons]
        omega
      have hc : attrW.getD (u0 :: us : Cs).length ' ' = c := by
        rw [huv]
        exact getD_append_self _ _ _ _
      have h4 := aw_char_tail hawk (by simp) hulen
      rw [hc] at h4
      rw [List.cons_append]
      exact occ_start_none h4.1 h4.2
  · apply noOcc_cons (occ_start_none (by decide) (by decide))
    apply noOcc_cons (occ_start_none (by decide) (by decide))
    apply noOcc_append
    · intro u v huv hne
      exact d2_kill hb2 hd huv
    · exact noOcc_cons (occ_start_none (by decide) (by decide)) ht

/-- The call structure of the declarative replacement: the output is
built from copied characters and spliced replacement blocks. -/
inductive DRel (b d : Cs) : Cs → Cs → Prop
  | nil : DRel b d [] []
  | copy {c : Char} {cs out : Cs} (h : occHere b (c :: cs) = none)
      (hr : DRel b d cs out) : DRel b d (c :: cs) (c :: out)
  | repl {c : Char} {cs out : Cs} {o : Occ}
      (h : occHere b (c :: cs) = some o) (hr : DRel b d o.rest out) :
      DRel b d (c :: cs) (o.attrW ++ '=' :: quoteD :: (d ++ quoteD :: out))

/-- The declarative replacement realises the relation. -/
theorem drel_declRepF {b d : Cs} : ∀ (n : Nat) (s : Cs), s.length ≤ n →
    ∀ (f : Nat), s.length ≤ f → DRel b d s (declRepF b d f s) := by
  intro n
  induction n with
  | zero =>
    intro s hs f hf
    have hs0 : s = [] := List.length_eq_zero.mp (Nat.le_zero.mp hs)
    subst hs0
    cases f with
    | zero => exact DRel.nil
    | succ k => exact DRel.nil
  | succ n ih =>
    intro s hs f hf
    cases s with
    | nil =>
      cases f with
      | zero => exact DRel.nil
      | succ k => exact DRel.nil
    | cons c cs =>
      cases f with
      | zero => simp at hf
      | succ k =>
        have hs2 : cs.length ≤ n := by simpa using hs
        have hf2 : cs.length ≤ k := by simpa using hf
        cases hocc : occHere b (c :: cs) with
        | none =>
          rw [declRepF, hocc]
          exact DRel.copy hocc (ih cs hs2 k hf2)
        | some o =>
          rw [declRepF, hocc]
          have hrl : o.rest.length < cs.length + 1 := by
            simpa using occ_rest_length hocc
          exact DRel.repl hocc (ih o.rest (by omega) k (by omega))

/-- Structure of a related output: either nothing was replaced, or a
maximal copied prefix precedes the first replacement block. -/
theorem drel_decomp {b d : Cs} : ∀ {s out : Cs}, DRel b d s out →
    (out = s ∧ noOcc b s = true) ∨
    ∃ z s2 o out2, s = z ++ s2 ∧
      out = z ++ (o.attrW ++ '=' :: quoteD :: (d ++ quoteD :: out2)) ∧
      occHere b s2 = some o ∧
      (∀ u v : Cs, z = u ++ v → v ≠ [] → occHere b (v ++ s2) = none) ∧
      DRel b d o.rest out2 ∧ o.rest.length < s2.length ∧
      s2.length ≤ s.length := by
  intro s out h
  induction h with
  | nil => exact Or.inl ⟨rfl, rfl⟩
  | copy hnone hrel ihd =>
    rename_i c cs outr
    cases ihd with
    | inl h0 =>
      left
      constructor
      · rw [h0.1]
      · exact noOcc_cons hnone h0.2
    | inr h0 =>
      obtain ⟨z, s2, o, out2, hz1, hz2, hz3, hz4, hz5, hz6, hz7⟩ := h0
      right
      refine ⟨c :: z, s2, o, out2, ?_, ?_, hz3, ?_, hz5, hz6, ?_⟩
      · rw [List.cons_append, ← hz1]
      · rw [List.cons_append, ← hz2]
      · intro u v huv hne
        cases u with
        | nil =>
          rw [List.nil_append] at huv
          have hvv : v ++ s2 = c :: cs := by
            rw [← huv, List.cons_append, ← hz1]
          rw [hvv]
          exact hnone
        | cons u0 us =>
          rw [List.cons_append] at huv
          injection huv with h1 h2
          exact hz4 us v h2 hne
      · simp only [List.length_cons]
        omega
  | repl hsome hrel ihd =>
    rename_i c cs outr o
    right
    refine ⟨[], c :: cs, o, outr, by rw [List.nil_append],
      by rw [List.nil_append], hsome, ?_, hrel, occ_rest_length hsome,
      Nat.le_refl _⟩
    intro u v huv hne
    exact absurd (List.append_eq_nil.mp huv.symm).2 hne

/-- The declarative replacement's output is free of the replaced
well-behaved basename. -/
theorem self_noOcc {b d : Cs} (hb : goodBase b = true)
    (hd : goodData d = true) : ∀ (n : Nat) (s out : Cs), s.length ≤ n →
    DRel b d s out → noOcc b out = true := by
  intro n
  induction n with
  | zero =>
    intro s out hs hrel
    have hs0 : s = [] := List.length_eq_zero.mp (Nat.le_zero.mp hs)
    subst hs0
    cases hrel
    rfl
  | succ n ih =>
    intro s out hs hrel
    cases drel_decomp hrel with
    | inl h0 =>
      rw [h0.1]
      exact h0.2
    | inr h0 =>
      obtain ⟨z, s2, o, out2, hz1, hz2, hz3, hz4, hz5, hz6, hz7⟩ := h0
      obtain ⟨_, hawk, _⟩ := occHere_sound hz3
      rw [hz2]
      apply noOcc_append
      · intro u v huv hne
        exact ztrans hb hd hawk (fun _ => hz4 u v huv hne)
      · exact block_noOcc hb hd hawk (ih o.rest out2 (by omega) hz5)

/-- The declarative replacement of one basename preserves the absence of
any other well-behaved basename. -/
theorem cross_noOcc {b b2 d : Cs} (hb2 : goodBase b2 = true)
    (hd : goodData d = true) : ∀ (n : Nat) (s out : Cs), s.length ≤ n →
    noOcc b2 s = true → DRel b d s out → noOcc b2 out = true := by
  intro n
  induction n with
  | zero =>
    intro s out hs _ hrel
    have hs0 : s = [] := List.length_eq_zero.mp (Nat.le_zero.mp hs)
    subst hs0
    cases hrel
    rfl
  | succ n ih =>
    intro s out hs hno hrel
    cases drel_decomp hrel with
    | inl h0 =>
      rw [h0.1]
      exact hno
    | inr h0 =>
      obtain ⟨z, s2, o, out2, hz1, hz2, hz3, hz4, hz5, hz6, hz7⟩ := h0
      obtain ⟨⟨e, hlce2, hs2dec⟩, hawk, _⟩ := occHere_sound hz3
      have hno2 : noOcc b2 s2 = true := by
        rw [hz1] at hno
        exact noOcc_suffix hno
      have hnorest : noOcc b2 o.rest = true := by
        rw [hs2dec] at hno2
        have h1 : o.attrW ++ e :: o.q1 ::
            (o.path ++ o.baseW ++ o.q2 :: o.rest) =
            (o.attrW ++ e :: o.q1 :: (o.path ++ o.baseW ++ [o.q2]))
              ++ o.rest := by
          simp [List.append_assoc]
        rw [h1] at hno2
        exact noOcc_suffix hno2
      rw [hz2]
      apply noOcc_append
      · intro u v huv hne
        apply ztrans hb2 hd hawk
        intro hvne
        apply noOcc_split hno (u := u)
        rw [hz1, huv, List.append_assoc]
      · exact block_noOcc hb2 hd hawk (ih o.rest out2 (by omega) hnorest hz5)

/-- One engine pass over one asset equals the declarative replacement:
the first pattern performs it and the second pattern then finds nothing. -/
theorem inlineOne_eq_declReplace {html f dataUrl : Cs}
    (hb : goodBase f = true) (hd : goodData dataUrl = true) :
    inlineOne html f dataUrl = declReplace f dataUrl html := by
  have h1 : inlineOne html f dataUrl =
      replaceg true (pat2body f)
        (inlineRepl (countGroups (pat2body f)) dataUrl)
        (replaceg true (pat1body f)
          (inlineRepl (countGroups (pat1body f)) dataUrl) html) := by
    simp only [inlineOne]
    rw [pattern1_escape, pattern2_escape]
  rw [countGroups_pat1, countGroups_pat2] at h1
  rw [h1, replaceg_pat1_eq (by omega) (goodBase_nq hb)
    (goodData_nodollar hd)]
  apply pass2_id _ (goodBase_nq hb)
  exact self_noOcc hb hd html.length html (declReplace f dataUrl html)
    (Nat.le_refl _)
    (drel_declRepF html.length html (Nat.le_refl _) html.length (Nat.le_refl _))

/-- The whole engine rewriting step equals its declarative form when
every asset is well-behaved. -/
theorem inline_eq_decl : ∀ (assets : List (Cs × Cs)) (html : Cs),
    (∀ fd ∈ assets, goodBase fd.1 = true ∧ goodData fd.2 = true) →
    inlineReferences assets html = declInline assets html := by
  intro assets
  induction assets with
  | nil => intro html _; rfl
  | cons fd rest ih =>
    intro html hgood
    have h1 : inlineOne html fd.1 fd.2 = declReplace fd.1 fd.2 html :=
      inlineOne_eq_declReplace (hgood fd (List.mem_cons_self _ _)).1
        (hgood fd (List.mem_cons_self _ _)).2
    have h2 := ih (declReplace fd.1 fd.2 html)
      (fun fd2 hm => hgood fd2 (List.mem_cons_of_mem _ hm))
    simp only [inlineReferences, declInline, List.foldl_cons] at h2 ⊢
    rw [h1]
    exact h2

/-- The whole declarative rewriting step preserves the absence of a
well-behaved basename. -/
theorem fold_preserve_noOcc {b2 : Cs} (hb2 : goodBase b2 = true) :
    ∀ (assets : List (Cs × Cs)) (acc : Cs),
    (∀ fd ∈ assets, goodData fd.2 = true) →
    noOcc b2 acc = true → noOcc b2 (declInline assets acc) = true := by
  intro assets
  induction assets with
  | nil => intro acc _ h; exact h
  | cons fd rest ih =>
    intro acc hgood h
    have hstep : noOcc b2 (declReplace fd.1 fd.2 acc) = true := by
      apply cross_noOcc hb2 (hgood fd (List.mem_cons_self _ _)) acc.length
        acc (declReplace fd.1 fd.2 acc) (Nat.le_refl _) h
      exact drel_declRepF acc.length acc (Nat.le_refl _) acc.length
        (Nat.le_refl _)
    have h2 := ih (declReplace fd.1 fd.2 acc)
      (fun fd2 hm => hgood fd2 (List.mem_cons_of_mem _ hm)) hstep
    simp only [declInline, List.foldl_cons] at h2 ⊢
    exact h2

/-- After the declarative rewriting step, every well-behaved asset's
basename is absent from the document. -/
theorem decl_noOcc_all : ∀ (assets : List (Cs × Cs)) (html : Cs),
    (∀ fd ∈ assets, goodBase fd.1 = true ∧ goodData fd.2 = true) →
    ∀ fd ∈ assets, noOcc fd.1 (declInline assets html) = true := by
  intro assets
  induction assets with
  | nil =>
    intro html _ fd hm
    cases hm
  | cons fd0 rest ih =>
    intro html hgood fd hm
    have hstep : noOcc fd0.1 (declReplace fd0.1 fd0.2 html) = true := by
      apply self_noOcc (hgood fd0 (List.mem_cons_self _ _)).1
        (hgood fd0 (List.mem_cons_self _ _)).2 html.length html
        (declReplace fd0.1 fd0.2 html) (Nat.le_refl _)
      exact drel_declRepF html.length html (Nat.le_refl _) html.length
        (Nat.le_refl _)
    cases List.mem_cons.mp hm with
    | inl heq =>
      subst heq
      have h2 := fold_preserve_noOcc (hgood fd (List.mem_cons_self _ _)).1
        rest (declReplace fd.1 fd.2 html)
        (fun fd2 hm2 => (hgood fd2 (List.mem_cons_of_mem _ hm2)).2) hstep
      simp only [declInline, List.foldl_cons] at h2 ⊢
      exact h2
    | inr hmem =>
      have h2 := ih (declReplace fd0.1 fd0.2 html)
        (fun fd2 hm2 => hgood fd2 (List.mem_cons_of_mem _ hm2)) fd hmem
      simp only [declInline, List.foldl_cons] at h2 ⊢
      exact h2

/-- The engine rewriting step is the identity on text free of all asset
basenames. -/
theorem inline_id : ∀ (assets : List (Cs × Cs)) (txt : Cs),
    (∀ fd ∈ assets, goodBase fd.1 = true ∧ goodData fd.2 = true) →
    (∀ fd ∈ assets, noOcc fd.1 txt = true) →
    inlineReferences assets txt = txt := by
  intro assets
  induction assets with
  | nil => intro txt _ _; rfl
  | cons fd0 rest ih =>
    intro txt hgood hno
    have h1 : inlineOne txt fd0.1 fd0.2 = txt := by
      rw [inlineOne_eq_declReplace (hgood fd0 (List.mem_cons_self _ _)).1
        (hgood fd0 (List.mem_cons_self _ _)).2]
      exact declRepF_id (fun u v huv =>
        noOcc_split (hno fd0 (List.mem_cons_self _ _)) huv)
    have h2 := ih txt (fun fd2 hm => hgood fd2 (List.mem_cons_of_mem _ hm))
      (fun fd2 hm => hno fd2 (List.mem_cons_of_mem _ hm))
    simp only [inlineReferences, List.foldl_cons] at h2 ⊢
    rw [h1]
    exact h2

/-!
## Claims C1, C2 and C6
-/

/-- The asset map of the C1 counterexample: one ordinary asset. -/
def c1assets : List (Cs × Cs) :=
  [(("logo.png").data, ("data:image/png;base64,AAAA").data)]

/-- A document whose reference differs from the basename only in case. -/
def c1caseDoc : Cs := ("<img src=\"LOGO.png\">").data

/-- C1 counterexample: the attribute value LOGO.png is not exactly the
basename of any asset in the map {logo.png}, yet the rewriting step
replaces it: the patterns carry the i flag, so matching is
case-insensitive, contradicting the claim that values naming basenames
not present in the asset map are left unchanged. -/
theorem C1_counterexample :
    inlineReferences c1assets c1caseDoc ≠ c1caseDoc ∧
    inlineReferences c1assets c1caseDoc =
      ("<img src=\"data:image/png;base64,AAAA\">").data := by
  constructor
  · decide
  · decide

/-- C1 (amended): for every asset map whose basenames are well behaved
(nonempty and, after case folding, free of quotes, path separators and
equals signs, with at least one dot) and whose data URLs are well behaved
(after case folding free of quotes, dots, equals signs and dollar signs,
the last so the String.replace substitution of dollar sequences in the
replacement template inserts the URL literally), the reference-rewriting
step inlineReferences equals the declarative replacement declInline,
which replaces every occurrence of each asset's basename as a
reference-attribute value, bare or path-prefixed, matched
case-insensitively and literally, including basenames containing regex
metacharacters, by the asset's data URL, and leaves everything else
unchanged. -/
theorem C1_amended_refines_decl_inline
    (assets : List (Cs × Cs)) (html : Cs)
    (hgood : ∀ fd ∈ assets, goodBase fd.1 = true ∧ goodData fd.2 = true) :
    inlineReferences assets html = declInline assets html :=
  inline_eq_decl assets html hgood

/-- The asset map of the C1 witness: a basename with regex
metacharacters. -/
def c1wassets : List (Cs × Cs) :=
  [(("logo(1).png").data, ("data:image/png;base64,AAAA").data)]

/-- The document of the C1 witness: one path-prefixed reference to the
asset and one reference to a foreign basename. -/
def c1wdoc : Cs :=
  ("<img src=\"a/logo(1).png\"> <img src=\"other.png\">").data

theorem C1_witness :
    (∀ fd ∈ c1wassets, goodBase fd.1 = true ∧ goodData fd.2 = true) ∧
    inlineReferences c1wassets c1wdoc = declInline c1wassets c1wdoc ∧
    declInline c1wassets c1wdoc =
      ("<img src=\"data:image/png;base64,AAAA\"> <img src=\"other.png\">").data :=
  ⟨by decide, C1_amended_refines_decl_inline c1wassets c1wdoc (by decide),
    by decide⟩

/-- A document whose href value is a case variant of the basename. -/
def c2doc : Cs := ("<a href=\"Logo.PNG\">x</a>").data

/-- C2 counterexample: a reference whose characters differ from the
basename logo.png only in letter case is replaced by the asset pass: both
replacement patterns are built with the gi flags, so matching is
case-insensitive, not case-sensitive as claimed. -/
theorem C2_counterexample :
    inlineOne c2doc (("logo.png").data)
        (("data:image/png;base64,AAAA").data) ≠ c2doc ∧
    inlineOne c2doc (("logo.png").data)
        (("data:image/png;base64,AAAA").data) =
      ("<a href=\"data:image/png;base64,AAAA\">x</a>").data := by
  constructor
  · decide
  · decide

/-- C2 (amended): matching of an asset basename against src and href
attribute values is case-insensitive: for every value v that agrees with
a well-behaved basename b up to letter case, one asset pass with a
well-behaved, in particular dollar-free, data URL rewrites the reference
src=&quot;v&quot; to the double-quoted data URL. -/
theorem C2_amended_case_insensitive (v b d : Cs)
    (hb : goodBase b = true) (hd : goodData d = true)
    (hv : lcs v = lcs b) :
    inlineOne ((("src").data) ++ '=' :: quoteD :: (v ++ [quoteD])) b d =
      (("src").data) ++ '=' :: quoteD :: (d ++ [quoteD]) := by
  rw [inlineOne_eq_declReplace hb hd]
  have hocc : occHere b
      ('s' :: 'r' :: 'c' :: '=' :: quoteD :: (v ++ [quoteD])) =
      some ⟨("src").data, quoteD, [], v, quoteD, []⟩ :=
    occHere_complete (goodBase_nq hb) (("src").data) '=' quoteD [] v quoteD []
      (by decide) (Or.inl rfl) (by decide) (by decide) rfl hv (Or.inl rfl)
  have hlen3 : ((("src").data) ++ '=' :: quoteD :: (v ++ [quoteD])).length =
      (v.length + 5) + 1 := by
    rw [List.length_append]
    rw [show ((("src").data)).length = 3 from rfl]
    simp only [List.length_cons, List.length_append, List.length_nil]
    omega
  show declRepF b d
      ((("src").data) ++ '=' :: quoteD :: (v ++ [quoteD])).length
      ((("src").data) ++ '=' :: quoteD :: (v ++ [quoteD])) =
    (("src").data) ++ '=' :: quoteD :: (d ++ [quoteD])
  rw [hlen3]
  show declRepF b d ((v.length + 5) + 1)
      ('s' :: 'r' :: 'c' :: '=' :: quoteD :: (v ++ [quoteD])) =
    (("src").data) ++ '=' :: quoteD :: (d ++ [quoteD])
  rw [declRepF, hocc]
  show (("src").data) ++ '=' :: quoteD ::
      (d ++ quoteD :: declRepF b d (v.length + 5) []) =
    (("src").data) ++ '=' :: quoteD :: (d ++ [quoteD])
  rw [declRepF_nil]

theorem C2_witness :
    goodBase (("logo.png").data) = true ∧
    goodData (("data:image/png;base64,AAAA").data) = true ∧
    lcs (("LOGO.png").data) = lcs (("logo.png").data) ∧
    inlineOne ((("src").data) ++ '=' :: quoteD ::
        ((("LOGO.png").data) ++ [quoteD]))
      (("logo.png").data) (("data:image/png;base64,AAAA").data) =
    (("src").data) ++ '=' :: quoteD ::
      ((("data:image/png;base64,AAAA").data) ++ [quoteD]) :=
  ⟨by decide, by decide, by decide,
    C2_amended_case_insensitive (("LOGO.png").data) (("logo.png").data)
      (("data:image/png;base64,AAAA").data) (by decide) (by decide)
      (by decide)⟩

/-- The asset map of the C6 counterexample: the asset's bytes 178, 183
encode under base64 to the four characters src=, so the data URL itself
ends in a fresh attribute prefix. -/
def c6assets : List (Cs × Cs) :=
  [(("logo.png").data, ("data:image/png;base64,").data ++ base64 [178, 183])]

/-- The document of the C6 counterexample: one reference to the asset
followed by stray text with a path-prefixed basename and a quote. -/
def c6doc : Cs := ("<img src=\"logo.png\"> a/logo.png\" x").data

/-- C6 counterexample: rewriting the document once inserts a data URL
ending in src=, whose juxtaposition with the following text forms a new
src attribute whose quoted value ends in the basename; a second
application of the rewriting step therefore changes the text again, so
inlineReferences is not idempotent on its own output for every document
and asset map. -/
theorem C6_counterexample :
    inlineReferences c6assets (inlineReferences c6assets c6doc) ≠
      inlineReferences c6assets c6doc := by
  decide

/-- C6 (amended): for every asset map whose basenames and data URLs are
well behaved, in particular when no data URL contains a quote, a dot, an
equals sign or a dollar sign after case folding, the rewritten document
contains no further occurrence of any asset basename, and applying
inlineReferences a second time to its own output leaves the text
unchanged. -/
theorem C6_amended_idempotent_good_assets
    (assets : List (Cs × Cs)) (html : Cs)
    (hgood : ∀ fd ∈ assets, goodBase fd.1 = true ∧ goodData fd.2 = true) :
    inlineReferences assets (inlineReferences assets html) =
      inlineReferences assets html := by
  rw [inline_eq_decl assets html hgood]
  exact inline_id assets (declInline assets html) hgood
    (decl_noOcc_all assets html hgood)

/-- The asset map of the C6 witness. -/
def c6wassets : List (Cs × Cs) :=
  [(("logo(1).png").data, ("data:image/png;base64,QUJD").data)]

/-- The document of the C6 witness. -/
def c6wdoc : Cs :=
  ("<img src=\"a/logo(1).png\"> <img src=\"other.png\">").data

theorem C6_witness :
    (∀ fd ∈ c6wassets, goodBase fd.1 = true ∧ goodData fd.2 = true) ∧
    inlineReferences c6wassets (inlineReferences c6wassets c6wdoc) =
      inlineReferences c6wassets c6wdoc :=
  ⟨by decide,
    C6_amended_idempotent_good_assets c6wassets c6wdoc (by decide)⟩
